import Mathlib

/-!
Verification of the tarzan dataset-packaging library (shallow embedding).

The Python source under src/tarzan is embedded as executable Lean
definitions: pure functions become Lean functions, stateful objects become
explicit state records, fallible code returns Except.  External
collaborators of the repository (the tarfile module, the json module, the
str/bytes UTF-8 codec pair, numpy buffers) are modelled at the value level
described by their documented contracts, as noted at each definition.
-/

/-! ## Python error kinds -/

/-- Exception kinds raised by the embedded code (section 7 of the spec). -/
inductive PyErr where
  | valueError
  | typeError
  | keyError
  | indexError
  | assertionError
  | extractError
  | attributeError
  | unmodelledIo
  deriving DecidableEq, Repr

deriving instance DecidableEq for Except

/-! ## Byte buffers

Python byte strings are modelled as either a raw list of byte values
(as produced by numpy's tobytes) or the UTF-8 encoding of a Lean string
(as produced by str.encode).  The UTF-8 codec itself is an external
library whose contract is that decode inverts encode; keeping the encoded
string as the representation realises that contract while preserving the
byte length and emptiness observations the source makes. -/

inductive PyBytes where
  | raw : List Nat → PyBytes
  | utf8 : String → PyBytes
  deriving DecidableEq, Repr

/-- Byte length, as Python len(b). -/
def PyBytes.len : PyBytes → Nat
  | .raw bs => bs.length
  | .utf8 s => s.utf8ByteSize

/-- Truth value of b in a boolean context: nonempty check. -/
def PyBytes.nonempty : PyBytes → Bool
  | .raw bs => !bs.isEmpty
  | .utf8 s => !s.isEmpty

/-- Underlying byte values (UTF-8 encoding for the string case). -/
def PyBytes.toBytes : PyBytes → List Nat
  | .raw bs => bs
  | .utf8 s => s.toUTF8.toList.map (fun b => b.toNat)

/-- Python bytes.decode with the utf-8 codec.  On the utf8 constructor this
is the codec contract (decode inverts encode); a raw buffer is decoded by
the real UTF-8 decoder of the Lean core library. -/
def PyBytes.utf8Decode : PyBytes → Except PyErr String
  | .utf8 s => .ok s
  | .raw bs =>
    match String.fromUTF8? ⟨⟨bs.map (fun n => UInt8.ofNat n)⟩⟩ with
    | some s => .ok s
    | none => .error .valueError

/-! ## Decimal rendering and parsing of numbers

Python renders list positions with f-strings and parses them back with
int(); both are plain base-10.  We define both directions explicitly so
that the round trip is provable. -/

/-- Base-10 digit list of n, least significant first (fuel-based so that
it evaluates in the kernel; the fuel n is always sufficient). -/
def natDigitsRevAux : Nat → Nat → List Nat
  | 0, _ => []
  | fuel + 1, n => if n = 0 then [] else n % 10 :: natDigitsRevAux fuel (n / 10)

def natDigitsRev (n : Nat) : List Nat := natDigitsRevAux n n

theorem natDigitsRevAux_eq (fuel n : Nat) (h : n ≤ fuel) :
    natDigitsRevAux fuel n = Nat.digits 10 n := by
  induction fuel generalizing n with
  | zero =>
    have : n = 0 := by omega
    subst this
    simp [natDigitsRevAux]
  | succ fuel ih =>
    by_cases hn : n = 0
    · subst hn
      simp [natDigitsRevAux]
    · rw [natDigitsRevAux, if_neg hn, Nat.digits_def' (by norm_num) (by omega),
        ih (n / 10) (by omega)]

theorem natDigitsRev_eq (n : Nat) : natDigitsRev n = Nat.digits 10 n :=
  natDigitsRevAux_eq n n le_rfl

/-- Decimal digit characters of n, most significant first. -/
def natDigitChars (n : Nat) : List Char :=
  (natDigitsRev n).reverse.map Nat.digitChar

/-- Python str(n) / f-string rendering of a natural number. -/
def natToStr (n : Nat) : String :=
  if n = 0 then "0" else ⟨natDigitChars n⟩

/-- Value of a decimal digit character. -/
def digitVal (c : Char) : Nat := c.toNat - 48

/-- Python int(s) on a string of decimal digits (fold over the characters). -/
def parseNatChars (cs : List Char) : Nat :=
  cs.foldl (fun acc c => 10 * acc + digitVal c) 0

/-- Python int(s) for a digit string. -/
def parseNatStr (s : String) : Nat := parseNatChars s.data

/-- Python str.isdigit, restricted to the ASCII digits that the library
itself produces (Python additionally accepts some non-ASCII digit
characters; no key written by this library contains those). -/
def pyIsDigitChar (c : Char) : Bool := 48 ≤ c.toNat && c.toNat ≤ 57

/-- Python str.isdigit: nonempty and all digits. -/
def pyIsDigit (s : String) : Bool :=
  !s.isEmpty && s.data.all pyIsDigitChar

theorem digitVal_digitChar {d : Nat} (h : d < 10) :
    digitVal (Nat.digitChar d) = d := by
  revert h; revert d; decide

theorem pyIsDigitChar_digitChar {d : Nat} (h : d < 10) :
    pyIsDigitChar (Nat.digitChar d) = true := by
  revert h; revert d; decide

theorem foldr_digitChars (ds : List Nat) (h : ∀ d ∈ ds, d < 10) :
    (ds.map Nat.digitChar).foldr (fun c acc => 10 * acc + digitVal c) 0 =
      Nat.ofDigits 10 ds := by
  induction ds with
  | nil => simp [Nat.ofDigits]
  | cons d rest ih =>
    simp only [List.map_cons, List.foldr_cons, Nat.ofDigits_cons]
    rw [ih (fun x hx => h x (List.mem_cons_of_mem _ hx)),
      digitVal_digitChar (h d (List.mem_cons_self _ _))]
    ring

theorem parseNatChars_natDigitChars (n : Nat) :
    parseNatChars (natDigitChars n) = n := by
  unfold parseNatChars natDigitChars
  rw [natDigitsRev_eq, List.map_reverse, List.foldl_reverse]
  have := foldr_digitChars (Nat.digits 10 n)
    (fun d hd => Nat.digits_lt_base (by norm_num) hd)
  simpa [Nat.ofDigits_digits] using this

theorem parseNatStr_natToStr (n : Nat) : parseNatStr (natToStr n) = n := by
  unfold natToStr
  by_cases h : n = 0
  · subst h; rfl
  · rw [if_neg h]
    exact parseNatChars_natDigitChars n

theorem natToStr_injective : Function.Injective natToStr := by
  intro a b h
  have := parseNatStr_natToStr a
  rw [h, parseNatStr_natToStr] at this
  exact this.symm

theorem string_cons_isEmpty (cs : List Char) (c : Char) :
    (⟨c :: cs⟩ : String).isEmpty = false := by
  simp only [String.isEmpty, String.endPos, String.utf8ByteSize,
    String.utf8ByteSize.go]
  simp only [beq_eq_false_iff_ne, ne_eq, String.Pos.ext_iff]
  have := Char.utf8Size_pos c
  have h0 : (0 : String.Pos).byteIdx = 0 := rfl
  omega

theorem pyIsDigit_natToStr (n : Nat) : pyIsDigit (natToStr n) = true := by
  unfold natToStr
  by_cases h : n = 0
  · subst h; decide
  · rw [if_neg h]
    unfold pyIsDigit
    have hne : Nat.digits 10 n ≠ [] := Nat.digits_ne_nil_iff_ne_zero.mpr h
    rw [Bool.and_eq_true, Bool.not_eq_true']
    apply And.intro
    · simp only [natDigitChars, natDigitsRev_eq]
      cases hd : (Nat.digits 10 n).reverse with
      | nil => exact absurd (List.reverse_eq_nil_iff.mp hd) hne
      | cons x xs =>
        rw [List.map_cons]
        exact string_cons_isEmpty _ _
    · simp only [natDigitChars, natDigitsRev_eq, List.all_eq_true]
      intro c hc
      simp only [List.mem_map, List.mem_reverse] at hc
      obtain ⟨d, hd, rfl⟩ := hc
      exact pyIsDigitChar_digitChar (Nat.digits_lt_base (by norm_num) hd)

/-! ## Numpy dtype and array model

The numeric-array library is an external collaborator (spec section 1);
the embedding models an ndarray as its shape together with the flat
row-major element list, and tobytes / frombuffer as the little-endian
serialization of two's-complement machine integers.  The dtype registry is
restricted to fixed-width integer dtypes; floating-point payloads are not
representable in this embedding. -/

inductive DType where
  | int8
  | uint8
  | int16
  | int32
  | int64
  deriving DecidableEq, Repr

/-- Bytes per element. -/
def DType.width : DType → Nat
  | .int8 => 1
  | .uint8 => 1
  | .int16 => 2
  | .int32 => 4
  | .int64 => 8

def DType.signed : DType → Bool
  | .uint8 => false
  | _ => true

/-- Dtype name as it appears in manifests and dtype strings. -/
def DType.name : DType → String
  | .int8 => "int8"
  | .uint8 => "uint8"
  | .int16 => "int16"
  | .int32 => "int32"
  | .int64 => "int64"

/-- Inverse of DType.name, the modelled fragment of numpy's dtype parser. -/
def dtypeOfName (s : String) : Option DType :=
  if s = "int8" then some .int8
  else if s = "uint8" then some .uint8
  else if s = "int16" then some .int16
  else if s = "int32" then some .int32
  else if s = "int64" then some .int64
  else none

/-- Whether an integer is representable in the dtype. -/
def DType.inRange (dt : DType) (x : Int) : Prop :=
  if dt.signed then
    -(2 ^ (8 * dt.width - 1) : Int) ≤ x ∧ x < (2 ^ (8 * dt.width - 1) : Int)
  else
    0 ≤ x ∧ x < (2 ^ (8 * dt.width) : Int)

instance (dt : DType) (x : Int) : Decidable (dt.inRange x) := by
  unfold DType.inRange; infer_instance

/-- Little-endian byte list of a natural number, w bytes. -/
def natLEBytes : Nat → Nat → List Nat
  | 0, _ => []
  | w + 1, n => (n % 256) :: natLEBytes w (n / 256)

/-- Natural number denoted by a little-endian byte list. -/
def leBytesToNat (bs : List Nat) : Nat :=
  bs.foldr (fun b acc => b + 256 * acc) 0

theorem length_natLEBytes (w n : Nat) : (natLEBytes w n).length = w := by
  induction w generalizing n with
  | zero => rfl
  | succ w ih => simp [natLEBytes, ih]

theorem leBytesToNat_natLEBytes (w n : Nat) :
    leBytesToNat (natLEBytes w n) = n % 256 ^ w := by
  induction w generalizing n with
  | zero => simp [natLEBytes, leBytesToNat, Nat.mod_one]
  | succ w ih =>
    simp only [natLEBytes, leBytesToNat, List.foldr_cons]
    have hrec : leBytesToNat (natLEBytes w (n / 256)) = n / 256 % 256 ^ w := ih _
    simp only [leBytesToNat] at hrec
    rw [hrec, pow_succ, mul_comm (256 ^ w) 256, Nat.mod_mul]


/-- Little-endian two's-complement bytes of one element (numpy tobytes). -/
def encElem (dt : DType) (x : Int) : List Nat :=
  natLEBytes dt.width ((x % (2 ^ (8 * dt.width) : Int)).toNat)

/-- Element denoted by a little-endian two's-complement byte chunk
(numpy frombuffer). -/
def decElem (dt : DType) (bs : List Nat) : Int :=
  if dt.signed ∧ 2 ^ (8 * dt.width - 1) ≤ leBytesToNat bs then
    (leBytesToNat bs : Int) - 2 ^ (8 * dt.width)
  else
    (leBytesToNat bs : Int)

theorem length_encElem (dt : DType) (x : Int) :
    (encElem dt x).length = dt.width := length_natLEBytes _ _

theorem emod_two_pow_toNat (x : Int) (k : Nat)
    (h : -(2 ^ k : Int) ≤ x ∧ x < 2 ^ k) :
    (((x % (2 ^ k : Int)).toNat : Int)) =
      if 0 ≤ x then x else x + 2 ^ k := by
  have hpos : (0 : Int) < 2 ^ k := by positivity
  by_cases hx : 0 ≤ x
  · rw [if_pos hx, Int.emod_eq_of_lt hx h.2, Int.toNat_of_nonneg hx]
  · rw [if_neg hx]
    have h1 := Int.add_mul_emod_self_left x (2 ^ k) 1
    rw [mul_one] at h1
    have h2 : (x + 2 ^ k) % (2 ^ k : Int) = x + 2 ^ k :=
      Int.emod_eq_of_lt (by omega) (by omega)
    rw [← h1, h2, Int.toNat_of_nonneg (by omega)]

theorem decElem_encElem (dt : DType) (x : Int) (h : dt.inRange x) :
    decElem dt (encElem dt x) = x := by
  have hw : 1 ≤ dt.width := by cases dt <;> decide
  have hpow : (256 : Nat) ^ dt.width = 2 ^ (8 * dt.width) := by
    rw [show (256 : Nat) = 2 ^ 8 from rfl, ← pow_mul]
  have hsplit : (2 : Int) ^ (8 * dt.width) = 2 ^ (8 * dt.width - 1) * 2 := by
    rw [← pow_succ]
    congr 1
    omega
  have hu : leBytesToNat (encElem dt x) = (x % (2 ^ (8 * dt.width) : Int)).toNat := by
    unfold encElem
    rw [leBytesToNat_natLEBytes, hpow, Nat.mod_eq_of_lt]
    have h1 : x % (2 ^ (8 * dt.width) : Int) < 2 ^ (8 * dt.width) :=
      Int.emod_lt_of_pos x (by positivity)
    have hcast : ((2 ^ (8 * dt.width) : Nat) : Int) = (2 : Int) ^ (8 * dt.width) := by
      push_cast
      ring
    omega
  unfold decElem
  rw [hu]
  unfold DType.inRange at h
  by_cases hs : dt.signed
  · rw [if_pos hs] at h
    have hle : (2 : Int) ^ (8 * dt.width - 1) ≤ 2 ^ (8 * dt.width) :=
      pow_le_pow_right₀ (by norm_num) (by omega)
    have hrange : -(2 ^ (8 * dt.width) : Int) ≤ x ∧ x < 2 ^ (8 * dt.width) :=
      ⟨le_trans (neg_le_neg hle) h.1, lt_of_lt_of_le h.2 hle⟩
    have hval := emod_two_pow_toNat x (8 * dt.width) hrange
    by_cases hx : 0 ≤ x
    · rw [if_pos hx] at hval
      rw [if_neg]
      · omega
      · rintro ⟨-, hge⟩
        have : ((2 : Int) ^ (8 * dt.width - 1)) ≤
            ((x % (2 ^ (8 * dt.width) : Int)).toNat : Int) := by exact_mod_cast hge
        omega
    · rw [if_neg hx] at hval
      rw [if_pos]
      · omega
      · refine ⟨hs, ?_⟩
        have : ((2 : Int) ^ (8 * dt.width - 1)) ≤
            ((x % (2 ^ (8 * dt.width) : Int)).toNat : Int) := by omega
        exact_mod_cast this
  · rw [if_neg hs] at h
    rw [if_neg (by rintro ⟨hcon, -⟩; exact hs hcon)]
    have hval := emod_two_pow_toNat x (8 * dt.width) (by omega)
    rw [if_pos h.1] at hval
    omega

/-- A numpy ndarray: shape, dtype, and the flat row-major element list. -/
structure NDArray where
  shape : List Nat
  dtype : DType
  data : List Int
  deriving DecidableEq, Repr

/-- Wellformedness: the element count matches the shape and every element
is representable in the dtype. -/
def NDArray.wf (a : NDArray) : Prop :=
  a.data.length = a.shape.prod ∧ ∀ x ∈ a.data, a.dtype.inRange x

instance (a : NDArray) : Decidable a.wf := by
  unfold NDArray.wf; infer_instance

/-- numpy ndarray.tobytes: contiguous little-endian row-major buffer. -/
def ndarrayToBytes (a : NDArray) : PyBytes :=
  .raw (a.data.flatMap (encElem a.dtype))

/-- Split a byte list into chunks of w bytes (fuel bounds the recursion). -/
def chunksAux (w : Nat) : Nat → List Nat → List (List Nat)
  | _, [] => []
  | 0, _ => []
  | fuel + 1, b :: bs => (b :: bs).take w :: chunksAux w fuel ((b :: bs).drop w)

/-- numpy frombuffer: reinterpret a byte buffer as a flat element list;
raises if the buffer size is not a multiple of the element size. -/
def npFrombuffer (b : PyBytes) (dt : DType) : Except PyErr (List Int) :=
  if (PyBytes.toBytes b).length % dt.width = 0 then
    .ok ((chunksAux dt.width (PyBytes.toBytes b).length (PyBytes.toBytes b)).map (decElem dt))
  else
    .error .valueError

theorem chunksAux_flatMap (dt : DType) (data : List Int) (fuel : Nat)
    (hfuel : data.length ≤ fuel) :
    chunksAux dt.width fuel (data.flatMap (encElem dt)) =
      data.map (encElem dt) := by
  induction data generalizing fuel with
  | nil => cases fuel <;> rfl
  | cons x rest ih =>
    simp only [List.length_cons] at hfuel
    cases fuel with
    | zero => omega
    | succ fuel =>
      have hw : 1 ≤ dt.width := by cases dt <;> decide
      have hxlen : (encElem dt x).length = dt.width := length_encElem dt x
      have hne : encElem dt x ≠ [] := by
        intro hcon
        rw [hcon] at hxlen
        simp at hxlen
        omega
      simp only [List.flatMap_cons]
      cases hx : encElem dt x with
      | nil => exact absurd hx hne
      | cons e es =>
        rw [hx] at hxlen
        show ((e :: es) ++ rest.flatMap (encElem dt)).take dt.width ::
            chunksAux dt.width fuel (((e :: es) ++ rest.flatMap (encElem dt)).drop dt.width) =
          List.map (encElem dt) (x :: rest)
        rw [List.take_left' hxlen, List.drop_left' hxlen]
        rw [← hx, List.map_cons, ih fuel (by omega)]

theorem npFrombuffer_toBytes (a : NDArray) (ha : ∀ x ∈ a.data, a.dtype.inRange x) :
    npFrombuffer (ndarrayToBytes a) a.dtype = .ok a.data := by
  unfold npFrombuffer ndarrayToBytes
  have hw : 1 ≤ a.dtype.width := by cases a.dtype <;> decide
  have hmaps : List.map (List.length ∘ encElem a.dtype) a.data =
      List.map (fun _ => a.dtype.width) a.data :=
    List.map_congr_left (fun x _ => by simp [Function.comp, length_encElem])
  have hlen : (a.data.flatMap (encElem a.dtype)).length =
      a.data.length * a.dtype.width := by
    rw [List.length_flatMap, hmaps, List.map_const', List.sum_replicate,
      smul_eq_mul]
  simp only [PyBytes.toBytes]
  rw [hlen, if_pos (Nat.mul_mod_left _ _)]
  congr 1
  rw [chunksAux_flatMap a.dtype a.data _ (Nat.le_mul_of_pos_right _ (by omega)),
    List.map_map]
  conv_rhs => rw [show a.data = a.data.map id from (List.map_id _).symm]
  exact List.map_congr_left (fun x hx => decElem_encElem _ _ (ha x hx))

/-! ## Numpy shape checks (tensor.py shape algebra, as used by the codecs)

assert_shape_match validates an actual array shape against a declared
shape pattern whose entries may be unknown; reshape with a single -1 entry
infers the missing dimension. -/

/-- Pointwise compatibility of an actual shape with a declared pattern
(assert_shape_match: same rank, known dims equal). -/
def shapeCompatible : List Nat → List (Option Nat) → Bool
  | [], [] => true
  | a :: as, d :: ds =>
    (match d with
     | some k => decide (a = k)
     | none => true) && shapeCompatible as ds
  | _, _ => false

/-- numpy reshape of a flat buffer of n elements against a dim list where
none stands for the -1 the decoder substitutes for unknown dims.  More
than one -1 or a non-dividing size raises. -/
def npReshape (n : Nat) (declared : List (Option Nat)) : Except PyErr (List Nat) :=
  let unknowns := declared.countP (fun d => d.isNone)
  let known := (declared.filterMap id).prod
  if 1 < unknowns then .error .valueError
  else if unknowns = 1 then
    if known = 0 then .error .valueError
    else if n % known = 0 then
      .ok (declared.map (fun d => d.getD (n / known)))
    else .error .valueError
  else if known = n then .ok (declared.map (fun d => d.getD 0))
  else .error .valueError

/-! ## Python runtime values

One inductive covers every runtime value the embedded code passes around:
None, booleans, unbounded integers, strings, byte strings, lists,
string-keyed dicts (insertion-ordered association lists, as Python dicts
are), numpy arrays, open stream handles carrying their remaining content,
and AudioDecoder handles.  Python tuples behave exactly like lists in
every code path the claims touch and are modelled as lists. -/

mutual
inductive PyVal where
  | none
  | bool (b : Bool)
  | int (n : Int)
  | str (s : String)
  | bytes (b : PyBytes)
  | list (es : PyList)
  | dict (es : PyDict)
  | arr (a : NDArray)
  | stream (content : PyBytes)
  | audioDecoder (fromStream : Bool) (content : PyBytes) (dtype : String)
      (shape : List (Option Nat)) (sampleRate : Option Int)
  deriving DecidableEq, Repr
inductive PyList where
  | nil
  | cons (v : PyVal) (rest : PyList)
  deriving DecidableEq, Repr
inductive PyDict where
  | nil
  | cons (k : String) (v : PyVal) (rest : PyDict)
  deriving DecidableEq, Repr
end

/-- List of entries of a PyDict. -/
def PyDict.entries : PyDict → List (String × PyVal)
  | .nil => []
  | .cons k v rest => (k, v) :: rest.entries

/-- Keys in insertion order. -/
def PyDict.keys : PyDict → List String
  | .nil => []
  | .cons k _ rest => k :: rest.keys

/-- Python d n: first binding of the key. -/
def PyDict.lookup : PyDict → String → Option PyVal
  | .nil, _ => Option.none
  | .cons k v rest, key => if k = key then some v else rest.lookup key

/-- Python d.keys() == other.keys(): dict views compare as sets. -/
def pyKeySetEq (d e : PyDict) : Bool :=
  d.keys.all (fun k => e.keys.contains k) && e.keys.all (fun k => d.keys.contains k)

def PyList.toList : PyList → List PyVal
  | .nil => []
  | .cons v rest => v :: rest.toList

def PyList.ofList : List PyVal → PyList
  | [] => .nil
  | v :: rest => .cons v (PyList.ofList rest)

def PyList.length : PyList → Nat
  | .nil => 0
  | .cons _ rest => rest.length + 1

/-! ## The json module (external collaborator)

json.dumps is embedded as a character-level printer producing the text of
the default serialization (separators comma-space and colon-space, no
indent).  One deliberate divergence: Python's default ensure_ascii builds
backslash-u escapes for characters above 0x7f, which json.loads undoes;
the printer below keeps such characters literal, so the composed
loads-of-dumps behaviour, the only behaviour any claim observes, is
unchanged.  json.loads is a recursive-descent parser over the grammar the
printer emits; Python's full parser accepts more (whitespace variants,
floats), none of which the library ever produces. -/

/-- JSON escaping of one character inside a string literal. -/
def escapeChar (c : Char) : List Char :=
  if c = '"' then ['\\', '"']
  else if c = '\\' then ['\\', '\\']
  else if c.toNat = 8 then ['\\', 'b']
  else if c.toNat = 9 then ['\\', 't']
  else if c.toNat = 10 then ['\\', 'n']
  else if c.toNat = 12 then ['\\', 'f']
  else if c.toNat = 13 then ['\\', 'r']
  else if c.toNat < 32 then
    ['\\', 'u', '0', '0', Nat.digitChar (c.toNat / 16), Nat.digitChar (c.toNat % 16)]
  else [c]

/-- JSON string literal for s. -/
def jsonQuote (s : String) : List Char :=
  '"' :: s.data.flatMap escapeChar ++ ['"']

/-- Decimal character rendering of an integer. -/
def intChars (n : Int) : List Char :=
  if n < 0 then '-' :: (natToStr n.natAbs).data else (natToStr n.toNat).data

/-! Whether a value is JSON-serializable (json.dumps succeeds). -/
mutual
def pyJsonable : PyVal → Bool
  | .none => true
  | .bool _ => true
  | .int _ => true
  | .str _ => true
  | .list es => pyJsonableList es
  | .dict es => pyJsonableDict es
  | _ => false
def pyJsonableList : PyList → Bool
  | .nil => true
  | .cons v rest => pyJsonable v && pyJsonableList rest
def pyJsonableDict : PyDict → Bool
  | .nil => true
  | .cons _ v rest => pyJsonable v && pyJsonableDict rest
end

/-! json.dumps, producing the character list of the serialization;
non-serializable values raise TypeError. -/
mutual
def jsonDumpChars : PyVal → Except PyErr (List Char)
  | .none => .ok ("null".data)
  | .bool true => .ok ("true".data)
  | .bool false => .ok ("false".data)
  | .int n => .ok (intChars n)
  | .str s => .ok (jsonQuote s)
  | .list .nil => .ok ['[', ']']
  | .list (.cons v rest) =>
    match jsonDumpItems (.cons v rest) with
    | .ok body => .ok ('[' :: body ++ [']'])
    | .error e => .error e
  | .dict .nil => .ok ['{', '}']
  | .dict (.cons k v rest) =>
    match jsonDumpEntries (.cons k v rest) with
    | .ok body => .ok ('{' :: body ++ ['}'])
    | .error e => .error e
  | .bytes _ => .error .typeError
  | .arr _ => .error .typeError
  | .stream _ => .error .typeError
  | .audioDecoder _ _ _ _ _ => .error .typeError
def jsonDumpItems : PyList → Except PyErr (List Char)
  | .nil => .ok []
  | .cons v .nil => jsonDumpChars v
  | .cons v (.cons w rest) =>
    match jsonDumpChars v, jsonDumpItems (.cons w rest) with
    | .ok cv, .ok crest => .ok (cv ++ ',' :: ' ' :: crest)
    | .error e, _ => .error e
    | _, .error e => .error e
def jsonDumpEntries : PyDict → Except PyErr (List Char)
  | .nil => .ok []
  | .cons k v .nil =>
    match jsonDumpChars v with
    | .ok cv => .ok (jsonQuote k ++ ':' :: ' ' :: cv)
    | .error e => .error e
  | .cons k v (.cons k2 v2 rest) =>
    match jsonDumpChars v, jsonDumpEntries (.cons k2 v2 rest) with
    | .ok cv, .ok crest => .ok (jsonQuote k ++ ':' :: ' ' :: cv ++ ',' :: ' ' :: crest)
    | .error e, _ => .error e
    | _, .error e => .error e
end

/-- json.dumps as a string. -/
def jsonDumps (v : PyVal) : Except PyErr String :=
  match jsonDumpChars v with
  | .ok cs => .ok ⟨cs⟩
  | .error e => .error e

/-- Unescape one short escape character after a backslash. -/
def unescapeChar (e : Char) : Option Char :=
  if e = '"' then some '"'
  else if e = '\\' then some '\\'
  else if e = '/' then some '/'
  else if e = 'b' then some (Char.ofNat 8)
  else if e = 't' then some (Char.ofNat 9)
  else if e = 'n' then some (Char.ofNat 10)
  else if e = 'f' then some (Char.ofNat 12)
  else if e = 'r' then some (Char.ofNat 13)
  else Option.none

/-- Hex digit value. -/
def hexVal (c : Char) : Option Nat :=
  if 48 ≤ c.toNat ∧ c.toNat ≤ 57 then some (c.toNat - 48)
  else if 97 ≤ c.toNat ∧ c.toNat ≤ 102 then some (c.toNat - 87)
  else if 65 ≤ c.toNat ∧ c.toNat ≤ 70 then some (c.toNat - 55)
  else Option.none

/-- Combined value of four hex digit characters. -/
def hex4 (h1 h2 h3 h4 : Char) : Option Nat :=
  match hexVal h1, hexVal h2, hexVal h3, hexVal h4 with
  | some v1, some v2, some v3, some v4 =>
    some (((v1 * 16 + v2) * 16 + v3) * 16 + v4)
  | _, _, _, _ => Option.none

/-! Parser for the body of a JSON string literal up to the closing quote.
Fuel bounds the recursion; every recursive step first consumes at least
one character, so fuel beyond the input length never runs out. -/
mutual
def parseStrF : Nat → List Char → Option (List Char × List Char)
  | 0, _ => Option.none
  | _ + 1, [] => Option.none
  | fuel + 1, c :: rest =>
    if c = '"' then some ([], rest)
    else if c = '\\' then parseEscF fuel rest
    else
      match parseStrF fuel rest with
      | some (s, r) => some (c :: s, r)
      | Option.none => Option.none
def parseEscF : Nat → List Char → Option (List Char × List Char)
  | 0, _ => Option.none
  | _ + 1, [] => Option.none
  | fuel + 1, e :: rest2 =>
    if e = 'u' then parseHexF fuel rest2
    else
      match unescapeChar e with
      | some c' =>
        match parseStrF fuel rest2 with
        | some (s, r) => some (c' :: s, r)
        | Option.none => Option.none
      | Option.none => Option.none
def parseHexF : Nat → List Char → Option (List Char × List Char)
  | 0, _ => Option.none
  | fuel + 1, h1 :: h2 :: h3 :: h4 :: rest3 =>
    match hex4 h1 h2 h3 h4 with
    | some v =>
      match parseStrF fuel rest3 with
      | some (s, r) => some (Char.ofNat v :: s, r)
      | Option.none => Option.none
    | Option.none => Option.none
  | _ + 1, _ => Option.none
end

/-- Parse a run of decimal digits as a natural number. -/
def parseDigitRun (cs : List Char) : Option (Nat × List Char) :=
  let digits := cs.takeWhile pyIsDigitChar
  if digits.isEmpty then Option.none
  else some (parseNatChars digits, cs.dropWhile pyIsDigitChar)

/-! json.loads: recursive-descent parser for the grammar the printer
emits.  The fuel argument bounds the nesting recursion; loads invokes the
parser with fuel larger than any depth a printed document can need. -/
mutual
def parseVal : Nat → List Char → Option (PyVal × List Char)
  | 0, _ => Option.none
  | _ + 1, [] => Option.none
  | fuel + 1, c :: rest =>
    if pyIsDigitChar c then
      match parseDigitRun (c :: rest) with
      | some (n, r) => some (.int (n : Int), r)
      | Option.none => Option.none
    else if c = '-' then
      match parseDigitRun rest with
      | some (n, r) => some (.int (-(n : Int)), r)
      | Option.none => Option.none
    else if c = '"' then
      match parseStrF (rest.length + 1) rest with
      | some (s, r) => some (.str ⟨s⟩, r)
      | Option.none => Option.none
    else if c = '[' then
      if rest.head? = some ']' then some (.list .nil, rest.tail)
      else
        match parseItems fuel rest with
        | some (vs, r) => some (.list vs, r)
        | Option.none => Option.none
    else if c = '{' then
      if rest.head? = some '}' then some (.dict .nil, rest.tail)
      else
        match parseEntries fuel rest with
        | some (es, r) => some (.dict es, r)
        | Option.none => Option.none
    else if c = 'n' then
      if rest.take 3 = ['u', 'l', 'l'] then some (.none, rest.drop 3)
      else Option.none
    else if c = 't' then
      if rest.take 3 = ['r', 'u', 'e'] then some (.bool true, rest.drop 3)
      else Option.none
    else if c = 'f' then
      if rest.take 4 = ['a', 'l', 's', 'e'] then some (.bool false, rest.drop 4)
      else Option.none
    else Option.none
def parseItems : Nat → List Char → Option (PyList × List Char)
  | 0, _ => Option.none
  | fuel + 1, cs =>
    match parseVal fuel cs with
    | some (v, r) =>
      if r.head? = some ']' then some (.cons v .nil, r.tail)
      else if r.take 2 = [',', ' '] then
        match parseItems fuel (r.drop 2) with
        | some (vs, r2) => some (.cons v vs, r2)
        | Option.none => Option.none
      else Option.none
    | Option.none => Option.none
def parseEntries : Nat → List Char → Option (PyDict × List Char)
  | 0, _ => Option.none
  | fuel + 1, cs =>
    if cs.head? = some '"' then
      match parseStrF (cs.tail.length + 1) cs.tail with
      | some (k, r) =>
        if r.take 2 = [':', ' '] then
          match parseVal fuel (r.drop 2) with
          | some (v, r3) =>
            if r3.head? = some '}' then some (.cons ⟨k⟩ v .nil, r3.tail)
            else if r3.take 2 = [',', ' '] then
              match parseEntries fuel (r3.drop 2) with
              | some (es, r4) => some (.cons ⟨k⟩ v es, r4)
              | Option.none => Option.none
            else Option.none
          | Option.none => Option.none
        else Option.none
      | Option.none => Option.none
    else Option.none
end

/-- json.loads on a string (json.loads(None) raises TypeError: the JSON
object must be str or bytes, the behaviour Json.decode_example hits on an
empty stream). -/
def jsonLoads : Option String → Except PyErr PyVal
  | Option.none => .error .typeError
  | some s =>
    match parseVal (2 * s.data.length + 2) s.data with
    | some (v, []) => .ok v
    | _ => .error .valueError

/-! Round trip of the json printer and parser. -/

theorem string_eta (s : String) : (⟨s.data⟩ : String) = s := by
  cases s
  rfl

theorem hexVal_digitChar {d : Nat} (h : d < 16) :
    hexVal (Nat.digitChar d) = some d := by
  revert h; revert d; decide

theorem hex4_of_lt {t : Nat} (h : t < 32) :
    hex4 '0' '0' (Nat.digitChar (t / 16)) (Nat.digitChar (t % 16)) = some t := by
  unfold hex4
  rw [hexVal_digitChar (by omega), hexVal_digitChar (by omega)]
  show some (((0 * 16 + 0) * 16 + t / 16) * 16 + t % 16) = some t
  congr 1
  omega

theorem escapeChar_length_pos (c : Char) : 0 < (escapeChar c).length := by
  unfold escapeChar
  split_ifs <;> simp

theorem parseStrF_flatMap (cs : List Char) (rest : List Char) :
    ∀ f, (cs.flatMap escapeChar).length < f →
      parseStrF f (cs.flatMap escapeChar ++ '"' :: rest) = some (cs, rest) := by
  induction cs with
  | nil =>
    intro f hf
    obtain ⟨f1, rfl⟩ : ∃ f1, f = f1 + 1 := ⟨f - 1, by omega⟩
    simp [parseStrF]
  | cons c cs ih =>
    intro f hf
    simp only [List.flatMap_cons, List.length_append, List.append_assoc] at hf ⊢
    obtain ⟨f1, rfl⟩ : ∃ f1, f = f1 + 1 := ⟨f - 1, by omega⟩
    by_cases h1 : c = '"'
    · subst h1
      have hesc : escapeChar '"' = ['\\', '"'] := rfl
      rw [hesc] at hf ⊢
      simp only [List.length_cons, List.length_nil] at hf
      obtain ⟨f2, rfl⟩ : ∃ f2, f1 = f2 + 1 := ⟨f1 - 1, by omega⟩
      have hih := ih f2 (by omega)
      simp [parseStrF, parseEscF, unescapeChar, hih]
    · by_cases h2 : c = '\\'
      · subst h2
        have hesc : escapeChar '\\' = ['\\', '\\'] := rfl
        rw [hesc] at hf ⊢
        simp only [List.length_cons, List.length_nil] at hf
        obtain ⟨f2, rfl⟩ : ∃ f2, f1 = f2 + 1 := ⟨f1 - 1, by omega⟩
        have hih := ih f2 (by omega)
        simp [parseStrF, parseEscF, unescapeChar, hih]
      · by_cases h3 : c.toNat = 8
        · have hc : Char.ofNat 8 = c := h3 ▸ Char.ofNat_toNat c
          have hesc : escapeChar c = ['\\', 'b'] := by
            simp [escapeChar, h1, h2, h3]
          rw [hesc] at hf ⊢
          simp only [List.length_cons, List.length_nil] at hf
          obtain ⟨f2, rfl⟩ : ∃ f2, f1 = f2 + 1 := ⟨f1 - 1, by omega⟩
          have hih := ih f2 (by omega)
          simp [parseStrF, parseEscF, unescapeChar, hih]
          exact hc

        · by_cases h4 : c.toNat = 9
          · have hc : Char.ofNat 9 = c := h4 ▸ Char.ofNat_toNat c
            have hesc : escapeChar c = ['\\', 't'] := by
              simp [escapeChar, h1, h2, h3, h4]
            rw [hesc] at hf ⊢
            simp only [List.length_cons, List.length_nil] at hf
            obtain ⟨f2, rfl⟩ : ∃ f2, f1 = f2 + 1 := ⟨f1 - 1, by omega⟩
            have hih := ih f2 (by omega)
            simp [parseStrF, parseEscF, unescapeChar, hih]
            exact hc

          · by_cases h5 : c.toNat = 10
            · have hc : Char.ofNat 10 = c := h5 ▸ Char.ofNat_toNat c
              have hesc : escapeChar c = ['\\', 'n'] := by
                simp [escapeChar, h1, h2, h3, h4, h5]
              rw [hesc] at hf ⊢
              simp only [List.length_cons, List.length_nil] at hf
              obtain ⟨f2, rfl⟩ : ∃ f2, f1 = f2 + 1 := ⟨f1 - 1, by omega⟩
              have hih := ih f2 (by omega)
              simp [parseStrF, parseEscF, unescapeChar, hih]
              exact hc

            · by_cases h6 : c.toNat = 12
              · have hc : Char.ofNat 12 = c := h6 ▸ Char.ofNat_toNat c
                have hesc : escapeChar c = ['\\', 'f'] := by
                  simp [escapeChar, h1, h2, h3, h4, h5, h6]
                rw [hesc] at hf ⊢
                simp only [List.length_cons, List.length_nil] at hf
                obtain ⟨f2, rfl⟩ : ∃ f2, f1 = f2 + 1 := ⟨f1 - 1, by omega⟩
                have hih := ih f2 (by omega)
                simp [parseStrF, parseEscF, unescapeChar, hih]
                exact hc

              · by_cases h7 : c.toNat = 13
                · have hc : Char.ofNat 13 = c := h7 ▸ Char.ofNat_toNat c
                  have hesc : escapeChar c = ['\\', 'r'] := by
                    simp [escapeChar, h1, h2, h3, h4, h5, h6, h7]
                  rw [hesc] at hf ⊢
                  simp only [List.length_cons, List.length_nil] at hf
                  obtain ⟨f2, rfl⟩ : ∃ f2, f1 = f2 + 1 := ⟨f1 - 1, by omega⟩
                  have hih := ih f2 (by omega)
                  simp [parseStrF, parseEscF, unescapeChar, hih]
                  exact hc

                · by_cases h8 : c.toNat < 32
                  · have hesc : escapeChar c = ['\\', 'u', '0', '0',
                        Nat.digitChar (c.toNat / 16), Nat.digitChar (c.toNat % 16)] := by
                      simp [escapeChar, h1, h2, h3, h4, h5, h6, h7, h8]
                    rw [hesc] at hf ⊢
                    simp only [List.length_cons, List.length_nil] at hf
                    obtain ⟨f3, rfl⟩ : ∃ f3, f1 = f3 + 2 := ⟨f1 - 2, by omega⟩
                    have hih := ih f3 (by omega)
                    simp [parseStrF, parseEscF, parseHexF, hex4_of_lt h8, hih, Char.ofNat_toNat]
                  · have hesc : escapeChar c = [c] := by
                      simp [escapeChar, h1, h2, h3, h4, h5, h6, h7, h8]
                    rw [hesc] at hf ⊢
                    simp only [List.length_cons, List.length_nil] at hf
                    have hih := ih f1 (by omega)
                    simp [parseStrF, if_neg h1, if_neg h2, hih]


/-- The next character, if any, is not a digit (so a digit run ends here). -/
def noDigitHeadB : List Char → Bool
  | [] => true
  | c :: _ => !pyIsDigitChar c

theorem takeWhile_all_append {p : Char → Bool} (xs rest : List Char)
    (hxs : ∀ x ∈ xs, p x = true)
    (hrest : rest = [] ∨ ∃ c t, rest = c :: t ∧ p c = false) :
    (xs ++ rest).takeWhile p = xs ∧ (xs ++ rest).dropWhile p = rest := by
  induction xs with
  | nil =>
    rcases hrest with h | ⟨c, t, rfl, hc⟩
    · subst h; simp
    · simp [List.takeWhile, List.dropWhile, hc]
  | cons x xs ih =>
    have hx := hxs x (List.mem_cons_self _ _)
    have := ih (fun y hy => hxs y (List.mem_cons_of_mem _ hy))
    simp [List.takeWhile, List.dropWhile, hx, this.1, this.2]

theorem natToStr_data_ne (n : Nat) : (natToStr n).data ≠ [] := by
  have h := pyIsDigit_natToStr n
  unfold pyIsDigit at h
  rw [Bool.and_eq_true, Bool.not_eq_true'] at h
  intro hcon
  have he : natToStr n = "" := by
    have := string_eta (natToStr n)
    rw [hcon] at this
    exact this.symm
  rw [he] at h
  exact absurd h.1 (by decide)

theorem natToStr_data_all (n : Nat) :
    ∀ c ∈ (natToStr n).data, pyIsDigitChar c = true := by
  have h := pyIsDigit_natToStr n
  unfold pyIsDigit at h
  rw [Bool.and_eq_true] at h
  have := h.2
  rw [List.all_eq_true] at this
  exact this

theorem parseDigitRun_natToStr (n : Nat) (rest : List Char)
    (h : noDigitHeadB rest = true) :
    parseDigitRun ((natToStr n).data ++ rest) = some (n, rest) := by
  have hrest : rest = [] ∨ ∃ c t, rest = c :: t ∧ pyIsDigitChar c = false := by
    cases rest with
    | nil => exact Or.inl rfl
    | cons c t =>
      refine Or.inr ⟨c, t, rfl, ?_⟩
      simpa [noDigitHeadB] using h
  have htd := takeWhile_all_append (natToStr n).data rest (natToStr_data_all n) hrest
  unfold parseDigitRun
  rw [htd.1, htd.2]
  rw [if_neg (by simpa [List.isEmpty_iff] using natToStr_data_ne n)]
  have : parseNatChars (natToStr n).data = n := parseNatStr_natToStr n
  rw [this]

/-! Recursion budget the parser needs for one printed value. -/
mutual
def jsonNeed : PyVal → Nat
  | .list .nil => 1
  | .list (.cons v rest) => 1 + jsonNeedItems (.cons v rest)
  | .dict .nil => 1
  | .dict (.cons k v rest) => 1 + jsonNeedEntries (.cons k v rest)
  | _ => 1
def jsonNeedItems : PyList → Nat
  | .nil => 1
  | .cons v rest => 1 + jsonNeed v + jsonNeedItems rest
def jsonNeedEntries : PyDict → Nat
  | .nil => 1
  | .cons _ v rest => 1 + jsonNeed v + jsonNeedEntries rest
end

theorem pyIsDigitChar_ne (c : Char) (h : pyIsDigitChar c = true) :
    c ≠ ']' ∧ c ≠ '}' := by
  constructor <;> intro hcon <;> subst hcon <;> exact absurd h (by decide)

/-- Every printed value starts with a character other than a closing
bracket or brace. -/
theorem jsonDump_starter (v : PyVal) (cv : List Char)
    (hd : jsonDumpChars v = .ok cv) :
    ∃ c0 t, cv = c0 :: t ∧ c0 ≠ ']' ∧ c0 ≠ '}' := by
  cases v with
  | none =>
    refine ⟨'n', ['u', 'l', 'l'], ?_, by decide, by decide⟩
    simpa [jsonDumpChars] using hd.symm
  | bool b =>
    cases b with
    | true =>
      refine ⟨'t', ['r', 'u', 'e'], ?_, by decide, by decide⟩
      simpa [jsonDumpChars] using hd.symm
    | false =>
      refine ⟨'f', ['a', 'l', 's', 'e'], ?_, by decide, by decide⟩
      simpa [jsonDumpChars] using hd.symm
  | int n =>
    have hcv : cv = intChars n := by simpa [jsonDumpChars] using hd.symm
    subst hcv
    unfold intChars
    by_cases hn : n < 0
    · exact ⟨'-', _, by rw [if_pos hn], by decide, by decide⟩
    · rw [if_neg hn]
      cases hcase : (natToStr n.toNat).data with
      | nil => exact absurd hcase (natToStr_data_ne _)
      | cons c0 t =>
        have hdig := natToStr_data_all n.toNat c0 (by rw [hcase]; exact List.mem_cons_self _ _)
        exact ⟨c0, t, rfl, (pyIsDigitChar_ne c0 hdig).1, (pyIsDigitChar_ne c0 hdig).2⟩
  | str s =>
    refine ⟨'"', s.data.flatMap escapeChar ++ ['"'], ?_, by decide, by decide⟩
    simpa [jsonDumpChars, jsonQuote] using hd.symm
  | list es =>
    cases es with
    | nil =>
      refine ⟨'[', [']'], ?_, by decide, by decide⟩
      simpa [jsonDumpChars] using hd.symm
    | cons v rest =>
      simp only [jsonDumpChars] at hd
      cases hbody : jsonDumpItems (.cons v rest) with
      | ok body =>
        rw [hbody] at hd
        simp only [Except.ok.injEq] at hd
        exact ⟨'[', body ++ [']'], hd.symm, by decide, by decide⟩
      | error e => rw [hbody] at hd; cases hd
  | dict es =>
    cases es with
    | nil =>
      refine ⟨'{', ['}'], ?_, by decide, by decide⟩
      simpa [jsonDumpChars] using hd.symm
    | cons k v rest =>
      simp only [jsonDumpChars] at hd
      cases hbody : jsonDumpEntries (.cons k v rest) with
      | ok body =>
        rw [hbody] at hd
        simp only [Except.ok.injEq] at hd
        exact ⟨'{', body ++ ['}'], hd.symm, by decide, by decide⟩
      | error e => rw [hbody] at hd; cases hd
  | bytes b => cases hd
  | arr a => cases hd
  | stream c => cases hd
  | audioDecoder a b c d e => cases hd

/-- The printed body of a nonempty list or dict starts with a character
other than the closing bracket or brace. -/
theorem jsonDumpItems_starter (v : PyVal) (rest : PyList) (body : List Char)
    (hd : jsonDumpItems (.cons v rest) = .ok body) :
    ∃ c0 t, body = c0 :: t ∧ c0 ≠ ']' ∧ c0 ≠ '}' := by
  cases rest with
  | nil =>
    exact jsonDump_starter v body hd
  | cons w tail =>
    simp only [jsonDumpItems] at hd
    cases hv : jsonDumpChars v with
    | ok cv =>
      rw [hv] at hd
      cases hrest : jsonDumpItems (.cons w tail) with
      | ok crest =>
        rw [hrest] at hd
        simp only [Except.ok.injEq] at hd
        obtain ⟨c0, t, hcv, hne1, hne2⟩ := jsonDump_starter v cv hv
        exact ⟨c0, t ++ ',' :: ' ' :: crest, by rw [← hd, hcv]; rfl, hne1, hne2⟩
      | error e => rw [hrest] at hd; simp at hd
    | error e => rw [hv] at hd; simp at hd

theorem jsonDumpEntries_starter (k : String) (v : PyVal) (rest : PyDict)
    (body : List Char) (hd : jsonDumpEntries (.cons k v rest) = .ok body) :
    ∃ t, body = '"' :: t := by
  cases rest with
  | nil =>
    simp only [jsonDumpEntries] at hd
    cases hv : jsonDumpChars v with
    | ok cv =>
      rw [hv] at hd
      simp only [Except.ok.injEq] at hd
      exact ⟨k.data.flatMap escapeChar ++ ['"'] ++ ':' :: ' ' :: cv, by
        rw [← hd]; simp [jsonQuote]⟩
    | error e => rw [hv] at hd; simp at hd
  | cons k2 v2 tail =>
    simp only [jsonDumpEntries] at hd
    cases hv : jsonDumpChars v with
    | ok cv =>
      rw [hv] at hd
      cases hrest : jsonDumpEntries (.cons k2 v2 tail) with
      | ok crest =>
        rw [hrest] at hd
        simp only [Except.ok.injEq] at hd
        exact ⟨k.data.flatMap escapeChar ++ ['"'] ++ ':' :: ' ' :: cv ++
          ',' :: ' ' :: crest, by rw [← hd]; simp [jsonQuote]⟩
      | error e => rw [hrest] at hd; simp at hd
    | error e => rw [hv] at hd; simp at hd

theorem pid_quote : pyIsDigitChar '"' = false := by decide

theorem pid_minus : pyIsDigitChar '-' = false := by decide

theorem pid_lbrack : pyIsDigitChar '[' = false := by decide

theorem pid_lbrace : pyIsDigitChar '{' = false := by decide

theorem pid_n : pyIsDigitChar 'n' = false := by decide

theorem pid_t : pyIsDigitChar 't' = false := by decide

theorem pid_f : pyIsDigitChar 'f' = false := by decide

mutual
theorem parseVal_dump : ∀ (v : PyVal) (f : Nat) (rest cv : List Char),
    jsonDumpChars v = .ok cv → noDigitHeadB rest = true → jsonNeed v ≤ f →
    parseVal f (cv ++ rest) = some (v, rest)
  | .none, f, rest, cv, hd, hrest, hneed => by
    have hcv : cv = ['n', 'u', 'l', 'l'] := by
      simpa [jsonDumpChars] using hd.symm
    subst hcv
    obtain ⟨f1, rfl⟩ : ∃ f1, f = f1 + 1 := ⟨f - 1, by
      simp [jsonNeed] at hneed; omega⟩
    simp [parseVal, pid_quote, pid_minus, pid_lbrack, pid_lbrace, pid_n, pid_t, pid_f]
  | .bool true, f, rest, cv, hd, hrest, hneed => by
    have hcv : cv = ['t', 'r', 'u', 'e'] := by
      simpa [jsonDumpChars] using hd.symm
    subst hcv
    obtain ⟨f1, rfl⟩ : ∃ f1, f = f1 + 1 := ⟨f - 1, by
      simp [jsonNeed] at hneed; omega⟩
    simp [parseVal, pid_quote, pid_minus, pid_lbrack, pid_lbrace, pid_n, pid_t, pid_f]
  | .bool false, f, rest, cv, hd, hrest, hneed => by
    have hcv : cv = ['f', 'a', 'l', 's', 'e'] := by
      simpa [jsonDumpChars] using hd.symm
    subst hcv
    obtain ⟨f1, rfl⟩ : ∃ f1, f = f1 + 1 := ⟨f - 1, by
      simp [jsonNeed] at hneed; omega⟩
    simp [parseVal, pid_quote, pid_minus, pid_lbrack, pid_lbrace, pid_n, pid_t, pid_f]
  | .int n, f, rest, cv, hd, hrest, hneed => by
    have hcv : cv = intChars n := by
      simpa [jsonDumpChars] using hd.symm
    subst hcv
    obtain ⟨f1, rfl⟩ : ∃ f1, f = f1 + 1 := ⟨f - 1, by
      simp [jsonNeed] at hneed; omega⟩
    unfold intChars
    by_cases hn : n < 0
    · rw [if_pos hn]
      have hrun : parseDigitRun ((natToStr n.natAbs).data ++ rest) =
          some (n.natAbs, rest) := parseDigitRun_natToStr _ _ hrest
      have hneg : -|n| = n := by
        rw [abs_of_nonpos (le_of_lt hn)]
        ring
      simp [parseVal, pid_quote, pid_minus, pid_lbrack, pid_lbrace, pid_n, pid_t, pid_f, hrun, hneg]
    · rw [if_neg hn]
      have hrun : parseDigitRun ((natToStr n.toNat).data ++ rest) =
          some (n.toNat, rest) := parseDigitRun_natToStr _ _ hrest
      have hpos : ((n.toNat : Int)) = n := Int.toNat_of_nonneg (by omega)
      cases hdata : (natToStr n.toNat).data with
      | nil => exact absurd hdata (natToStr_data_ne _)
      | cons c0 t =>
        have hdig := natToStr_data_all n.toNat c0
          (by rw [hdata]; exact List.mem_cons_self _ _)
        rw [hdata] at hrun
        simp only [List.cons_append] at hrun ⊢
        simp [parseVal, pid_quote, pid_minus, pid_lbrack, pid_lbrace, pid_n, pid_t, pid_f, hdig, hrun, hpos]
  | .str s, f, rest, cv, hd, hrest, hneed => by
    have hcv : cv = jsonQuote s := by
      simpa [jsonDumpChars] using hd.symm
    subst hcv
    obtain ⟨f1, rfl⟩ : ∃ f1, f = f1 + 1 := ⟨f - 1, by
      simp [jsonNeed] at hneed; omega⟩
    unfold jsonQuote
    simp only [List.cons_append, List.append_assoc, List.cons_append,
      List.nil_append]
    simp only [parseVal, pid_quote, pid_minus, pid_lbrack, pid_lbrace, pid_n, pid_t, pid_f]
    rw [parseStrF_flatMap s.data rest _
      (by simp only [List.length_append, List.length_cons, List.length_flatMap]; omega)]
    simp [string_eta]
  | .list .nil, f, rest, cv, hd, hrest, hneed => by
    have hcv : cv = ['[', ']'] := by
      simpa [jsonDumpChars] using hd.symm
    subst hcv
    obtain ⟨f1, rfl⟩ : ∃ f1, f = f1 + 1 := ⟨f - 1, by
      simp [jsonNeed] at hneed; omega⟩
    simp [parseVal, pid_quote, pid_minus, pid_lbrack, pid_lbrace, pid_n, pid_t, pid_f]
  | .list (.cons v tail), f, rest, cv, hd, hrest, hneed => by
    simp only [jsonDumpChars] at hd
    cases hbody : jsonDumpItems (.cons v tail) with
    | error e => rw [hbody] at hd; simp at hd
    | ok body =>
      rw [hbody] at hd
      simp only [Except.ok.injEq] at hd
      subst hd
      simp only [jsonNeed] at hneed
      obtain ⟨f1, rfl⟩ : ∃ f1, f = f1 + 1 := ⟨f - 1, by omega⟩
      obtain ⟨c0, t, hc0, hne1, hne2⟩ := jsonDumpItems_starter v tail body hbody
      have hitems := parseItems_dump (.cons v tail) f1 rest body (by simp)
        hbody (by omega)
      simp only [List.cons_append, List.append_assoc, List.nil_append]
      have hhead : ((body ++ ']' :: rest).head? = some ']') = False := by
        rw [hc0]
        simp [hne1]
      simp [parseVal, pid_quote, pid_minus, pid_lbrack, pid_lbrace, pid_n, pid_t, pid_f, hhead, hitems]
      exact ⟨by rw [hc0]; simp [hne1], by rw [hc0]; simp⟩
  | .dict .nil, f, rest, cv, hd, hrest, hneed => by
    have hcv : cv = ['{', '}'] := by
      simpa [jsonDumpChars] using hd.symm
    subst hcv
    obtain ⟨f1, rfl⟩ : ∃ f1, f = f1 + 1 := ⟨f - 1, by
      simp [jsonNeed] at hneed; omega⟩
    simp [parseVal, pid_quote, pid_minus, pid_lbrack, pid_lbrace, pid_n, pid_t, pid_f]
  | .dict (.cons k v tail), f, rest, cv, hd, hrest, hneed => by
    simp only [jsonDumpChars] at hd
    cases hbody : jsonDumpEntries (.cons k v tail) with
    | error e => rw [hbody] at hd; simp at hd
    | ok body =>
      rw [hbody] at hd
      simp only [Except.ok.injEq] at hd
      subst hd
      simp only [jsonNeed] at hneed
      obtain ⟨f1, rfl⟩ : ∃ f1, f = f1 + 1 := ⟨f - 1, by omega⟩
      obtain ⟨t, hc0⟩ := jsonDumpEntries_starter k v tail body hbody
      have hentries := parseEntries_dump (.cons k v tail) f1 rest body (by simp)
        hbody (by omega)
      simp only [List.cons_append, List.append_assoc, List.nil_append]
      have hhead : ((body ++ '}' :: rest).head? = some '}') = False := by
        rw [hc0]
        simp
      simp [parseVal, pid_quote, pid_minus, pid_lbrack, pid_lbrace, pid_n, pid_t, pid_f, hhead, hentries]
      exact ⟨by rw [hc0]; simp, by rw [hc0]; simp⟩
theorem parseItems_dump : ∀ (es : PyList) (f : Nat) (rest body : List Char),
    es ≠ .nil → jsonDumpItems es = .ok body → jsonNeedItems es ≤ f →
    parseItems f (body ++ ']' :: rest) = some (es, rest)
  | .nil, _, _, _, hne, _, _ => absurd rfl hne
  | .cons v .nil, f, rest, body, _, hd, hneed => by
    have hbody : jsonDumpChars v = .ok body := by
      simpa [jsonDumpItems] using hd
    simp only [jsonNeedItems, jsonNeed] at hneed
    obtain ⟨f1, rfl⟩ : ∃ f1, f = f1 + 1 := ⟨f - 1, by omega⟩
    have hv := parseVal_dump v f1 (']' :: rest) body hbody rfl (by omega)
    simp [parseItems, hv]
  | .cons v (.cons w tail), f, rest, body, _, hd, hneed => by
    simp only [jsonDumpItems] at hd
    cases hv : jsonDumpChars v with
    | error e => rw [hv] at hd; simp at hd
    | ok cv =>
      rw [hv] at hd
      cases hrest2 : jsonDumpItems (.cons w tail) with
      | error e => rw [hrest2] at hd; simp at hd
      | ok crest =>
        rw [hrest2] at hd
        simp only [Except.ok.injEq] at hd
        subst hd
        simp only [jsonNeedItems] at hneed
        obtain ⟨f1, rfl⟩ : ∃ f1, f = f1 + 1 := ⟨f - 1, by omega⟩
        have hvp := parseVal_dump v f1 (',' :: ' ' :: (crest ++ ']' :: rest)) cv
          hv rfl (by omega)
        have hrec := parseItems_dump (.cons w tail) f1 rest crest (by simp)
          hrest2 (by simp only [jsonNeedItems] at hneed ⊢; omega)
        simp only [List.append_assoc, List.cons_append, List.nil_append] at hvp ⊢
        simp [parseItems, hvp, hrec]
theorem parseEntries_dump : ∀ (es : PyDict) (f : Nat) (rest body : List Char),
    es ≠ .nil → jsonDumpEntries es = .ok body → jsonNeedEntries es ≤ f →
    parseEntries f (body ++ '}' :: rest) = some (es, rest)
  | .nil, _, _, _, hne, _, _ => absurd rfl hne
  | .cons k v .nil, f, rest, body, _, hd, hneed => by
    simp only [jsonDumpEntries] at hd
    cases hv : jsonDumpChars v with
    | error e => rw [hv] at hd; simp at hd
    | ok cv =>
      rw [hv] at hd
      simp only [Except.ok.injEq] at hd
      subst hd
      simp only [jsonNeedEntries, jsonNeed] at hneed
      obtain ⟨f1, rfl⟩ : ∃ f1, f = f1 + 1 := ⟨f - 1, by omega⟩
      have hvp := parseVal_dump v f1 ('}' :: rest) cv hv rfl (by omega)
      unfold jsonQuote
      simp only [List.append_assoc, List.cons_append, List.nil_append] at hvp ⊢
      simp only [parseEntries, List.head?_cons, List.tail_cons]
      simp only [Option.some.injEq, if_true]
      rw [parseStrF_flatMap k.data _ _
        (by simp only [List.length_append, List.length_cons, List.length_flatMap]; omega)]
      simp [hvp, string_eta]
  | .cons k v (.cons k2 v2 tail), f, rest, body, _, hd, hneed => by
    simp only [jsonDumpEntries] at hd
    cases hv : jsonDumpChars v with
    | error e => rw [hv] at hd; simp at hd
    | ok cv =>
      rw [hv] at hd
      cases hrest2 : jsonDumpEntries (.cons k2 v2 tail) with
      | error e => rw [hrest2] at hd; simp at hd
      | ok crest =>
        rw [hrest2] at hd
        simp only [Except.ok.injEq] at hd
        subst hd
        simp only [jsonNeedEntries] at hneed
        obtain ⟨f1, rfl⟩ : ∃ f1, f = f1 + 1 := ⟨f - 1, by omega⟩
        have hvp := parseVal_dump v f1 (',' :: ' ' :: (crest ++ '}' :: rest)) cv
          hv rfl (by omega)
        have hrec := parseEntries_dump (.cons k2 v2 tail) f1 rest crest (by simp)
          hrest2 (by simp only [jsonNeedEntries] at hneed ⊢; omega)
        unfold jsonQuote
        simp only [List.append_assoc, List.cons_append, List.nil_append] at hvp hrec ⊢
        simp only [parseEntries, List.head?_cons, List.tail_cons]
        simp only [Option.some.injEq, if_true]
        rw [parseStrF_flatMap k.data _ _
          (by simp only [List.length_append, List.length_cons, List.length_flatMap]; omega)]
        simp [hvp, hrec, string_eta]
end

mutual
theorem jsonNeed_le : ∀ (v : PyVal) (cv : List Char),
    jsonDumpChars v = .ok cv → jsonNeed v ≤ 2 * cv.length + 1
  | .none, cv, _ => by simp [jsonNeed]
  | .bool true, cv, _ => by simp [jsonNeed]
  | .bool false, cv, _ => by simp [jsonNeed]
  | .int n, cv, _ => by simp [jsonNeed]
  | .str s, cv, _ => by simp [jsonNeed]
  | .list .nil, cv, _ => by simp [jsonNeed]
  | .list (.cons v tail), cv, hd => by
    simp only [jsonDumpChars] at hd
    cases hbody : jsonDumpItems (.cons v tail) with
    | error e => rw [hbody] at hd; simp at hd
    | ok body =>
      rw [hbody] at hd
      simp only [Except.ok.injEq] at hd
      subst hd
      have := jsonNeedItems_le (.cons v tail) body hbody
      simp only [jsonNeed, List.length_cons, List.length_append]
      omega
  | .dict .nil, cv, _ => by simp [jsonNeed]
  | .dict (.cons k v tail), cv, hd => by
    simp only [jsonDumpChars] at hd
    cases hbody : jsonDumpEntries (.cons k v tail) with
    | error e => rw [hbody] at hd; simp at hd
    | ok body =>
      rw [hbody] at hd
      simp only [Except.ok.injEq] at hd
      subst hd
      have := jsonNeedEntries_le (.cons k v tail) body hbody
      simp only [jsonNeed, List.length_cons, List.length_append]
      omega
  | .bytes b, cv, hd => by cases hd
  | .arr a, cv, hd => by cases hd
  | .stream content, cv, hd => by cases hd
  | .audioDecoder a b c d e, cv, hd => by cases hd
theorem jsonNeedItems_le : ∀ (es : PyList) (body : List Char),
    jsonDumpItems es = .ok body → jsonNeedItems es ≤ 2 * body.length + 3
  | .nil, body, _ => by simp [jsonNeedItems]
  | .cons v .nil, body, hd => by
    have hbody : jsonDumpChars v = .ok body := by
      simpa [jsonDumpItems] using hd
    have := jsonNeed_le v body hbody
    simp only [jsonNeedItems]
    omega
  | .cons v (.cons w tail), body, hd => by
    simp only [jsonDumpItems] at hd
    cases hv : jsonDumpChars v with
    | error e => rw [hv] at hd; simp at hd
    | ok cv =>
      rw [hv] at hd
      cases hrest : jsonDumpItems (.cons w tail) with
      | error e => rw [hrest] at hd; simp at hd
      | ok crest =>
        rw [hrest] at hd
        simp only [Except.ok.injEq] at hd
        subst hd
        have h1 := jsonNeed_le v cv hv
        have h2 := jsonNeedItems_le (.cons w tail) crest hrest
        simp only [jsonNeedItems, List.length_append, List.length_cons] at h2 ⊢
        omega
theorem jsonNeedEntries_le : ∀ (es : PyDict) (body : List Char),
    jsonDumpEntries es = .ok body → jsonNeedEntries es ≤ 2 * body.length + 3
  | .nil, body, _ => by simp [jsonNeedEntries]
  | .cons k v .nil, body, hd => by
    simp only [jsonDumpEntries] at hd
    cases hv : jsonDumpChars v with
    | error e => rw [hv] at hd; simp at hd
    | ok cv =>
      rw [hv] at hd
      simp only [Except.ok.injEq] at hd
      subst hd
      have := jsonNeed_le v cv hv
      simp only [jsonNeedEntries, List.length_append, List.length_cons]
      omega
  | .cons k v (.cons k2 v2 tail), body, hd => by
    simp only [jsonDumpEntries] at hd
    cases hv : jsonDumpChars v with
    | error e => rw [hv] at hd; simp at hd
    | ok cv =>
      rw [hv] at hd
      cases hrest : jsonDumpEntries (.cons k2 v2 tail) with
      | error e => rw [hrest] at hd; simp at hd
      | ok crest =>
        rw [hrest] at hd
        simp only [Except.ok.injEq] at hd
        subst hd
        have h1 := jsonNeed_le v cv hv
        have h2 := jsonNeedEntries_le (.cons k2 v2 tail) crest hrest
        simp only [jsonNeedEntries, List.length_append, List.length_cons] at h2 ⊢
        omega
end

/-- The json module contract realised: loads inverts dumps on every value
dumps accepts. -/
theorem jsonLoads_jsonDumps (v : PyVal) (s : String)
    (hd : jsonDumps v = .ok s) : jsonLoads (some s) = .ok v := by
  unfold jsonDumps at hd
  cases hcv : jsonDumpChars v with
  | error e => rw [hcv] at hd; simp at hd
  | ok cv =>
    rw [hcv] at hd
    simp only [Except.ok.injEq] at hd
    subst hd
    have h := parseVal_dump v (2 * cv.length + 2) [] cv hcv rfl
      (le_trans (jsonNeed_le v cv hcv) (by omega))
    rw [List.append_nil] at h
    show (match parseVal (2 * cv.length + 2) cv with
      | some (v, []) => Except.ok v
      | _ => Except.error PyErr.valueError) = Except.ok v
    rw [h]

/-! ## Leaf feature codecs (src/tarzan/features)

Each leaf feature encodes a live value to bytes and decodes bytes or a
stream handle back.  Decoding returns, besides the result, whether a
stream-handle input was fully read and whether it was closed, the
observations the stream-lifetime claims are about (for byte-buffer inputs
both flags are reported false, there being no handle).  The unmodelledIo
error stands for the one input kind outside this embedding: an
Audio.encode_example path argument, which opens the named file on disk. -/

structure DecodeRes where
  result : Except PyErr PyVal
  readAll : Bool
  closed : Bool
  deriving DecidableEq, Repr

/-- Text.encode_example: example.encode("utf-8"); non-strings have no
encode method (AttributeError). -/
def textEncode (v : PyVal) : Except PyErr PyBytes :=
  match v with
  | .str s => .ok (.utf8 s)
  | _ => .error .attributeError

/-- Text.decode_example: a StreamWrapper is fully read and closed, and a
zero-length read yields None; bytes are utf-8 decoded. -/
def textDecode (v : PyVal) : DecodeRes :=
  match v with
  | .stream content =>
    if content.nonempty then
      match content.utf8Decode with
      | .ok s => ⟨.ok (.str s), true, true⟩
      | .error e => ⟨.error e, true, true⟩
    else ⟨.ok .none, true, true⟩
  | .bytes b =>
    match b.utf8Decode with
    | .ok s => ⟨.ok (.str s), false, false⟩
    | .error e => ⟨.error e, false, false⟩
  | _ => ⟨.error .attributeError, false, false⟩

/-- Json.encode_example: Text encoding of json.dumps(example). -/
def jsonEncode (v : PyVal) : Except PyErr PyBytes :=
  match jsonDumps v with
  | .ok s => textEncode (.str s)
  | .error e => .error e

/-- Json.decode_example: json.loads of the Text decoding; a zero-length
stream makes the Text layer produce None and json.loads(None) raises
TypeError. -/
def jsonDecode (v : PyVal) : DecodeRes :=
  let t := textDecode v
  match t.result with
  | .ok .none => ⟨jsonLoads Option.none, t.readAll, t.closed⟩
  | .ok (.str s) => ⟨jsonLoads (some s), t.readAll, t.closed⟩
  | .ok _ => ⟨.error .typeError, t.readAll, t.closed⟩
  | .error e => ⟨.error e, t.readAll, t.closed⟩

/-- np.asarray(example, dtype): coerce a scalar or a flat list of
integers to an ndarray of the dtype (out-of-range entries raise, as
modern numpy integer conversion does). -/
def npAsarray (v : PyVal) (dt : DType) : Except PyErr NDArray :=
  match v with
  | .int n => if dt.inRange n then .ok ⟨[], dt, [n]⟩ else .error .valueError
  | .arr a => if a.dtype = dt then .ok a else .error .valueError
  | .list es =>
    match es.toList.mapM (fun e =>
      match e with
      | PyVal.int n => if dt.inRange n then some n else Option.none
      | _ => Option.none) with
    | some ns => .ok ⟨[ns.length], dt, ns⟩
    | Option.none => .error .valueError
  | _ => .error .typeError

/-- Tensor.encode_example: coerce non-arrays with the declared dtype,
reject a realized dtype differing from the declared one, validate the
shape (assert_shape_match), and emit the contiguous byte buffer. -/
def tensorEncode (shape : List (Option Nat)) (dtype : String) (v : PyVal) :
    Except PyErr PyBytes :=
  match dtypeOfName dtype with
  | Option.none => .error .valueError
  | some dt =>
    match (match v with
           | .arr a => Except.ok a
           | _ => npAsarray v dt) with
    | .error e => .error e
    | .ok a =>
      if a.dtype ≠ dt then .error .valueError
      else if shapeCompatible a.shape shape then .ok (ndarrayToBytes a)
      else .error .valueError

/-- Tensor.decode_example: a stream is fully read and closed with the
empty-read-to-None rule; the buffer is reinterpreted as the declared
dtype and reshaped with -1 substituted for unknown dims. -/
def tensorDecode (shape : List (Option Nat)) (dtype : String) (v : PyVal) :
    DecodeRes :=
  match v with
  | .stream content =>
    if content.nonempty then ⟨tensorDecodeBytes shape dtype content, true, true⟩
    else ⟨.ok .none, true, true⟩
  | .bytes b => ⟨tensorDecodeBytes shape dtype b, false, false⟩
  | _ => ⟨.error .typeError, false, false⟩
where
  tensorDecodeBytes (shape : List (Option Nat)) (dtype : String) (b : PyBytes) :
      Except PyErr PyVal :=
    match dtypeOfName dtype with
    | Option.none => .error .valueError
    | some dt =>
      match npFrombuffer b dt with
      | .error e => .error e
      | .ok flat =>
        match npReshape flat.length shape with
        | .error e => .error e
        | .ok dims => .ok (.arr ⟨dims, dt, flat⟩)

/-- Audio.encode_example: a path is read from disk (outside the
embedding); an ndarray is rejected; a file-like object is read and its
bytes returned verbatim. -/
def audioEncode (v : PyVal) : Except PyErr PyBytes :=
  match v with
  | .str _ => .error .unmodelledIo
  | .arr _ => .error .valueError
  | .stream content => .ok content
  | .bytes _ => .error .attributeError
  | _ => .error .attributeError

/-- Audio.decode_example: bytes are wrapped in a fresh buffer, any other
object is used as the file object directly; either way an AudioDecoder
handle is returned and a stream-handle input is neither read nor
closed. -/
def audioDecode (shape : List (Option Nat)) (dtype : String)
    (sampleRate : Option Int) (v : PyVal) : DecodeRes :=
  match v with
  | .bytes b => ⟨.ok (.audioDecoder false b dtype shape sampleRate), false, false⟩
  | .stream content =>
    ⟨.ok (.audioDecoder true content dtype shape sampleRate), false, false⟩
  | _ => ⟨.error .typeError, false, false⟩

/-! ## Feature schema (src/tarzan/features)

A FeatureType is a leaf feature, a Sequence, a name-to-feature mapping,
or a plain list of features (Python list/tuple column types, of which
encoding uses only the first entry).  Sequence.feature is either a
mapping (struct) or any other feature. -/

mutual
inductive Schema where
  | text
  | json
  | tensor (shape : List (Option Nat)) (dtype : String)
  | scalar (dtype : String)
  | audio (shape : List (Option Nat)) (dtype : String) (sampleRate : Option Int)
  | sequence (feature : SeqFeature) (length : Int)
  | sdict (es : SchemaDict)
  | slist (es : SchemaList)
  deriving DecidableEq, Repr
inductive SeqFeature where
  | featDict (es : SchemaDict)
  | featPlain (s : Schema)
  deriving DecidableEq, Repr
inductive SchemaDict where
  | nil
  | cons (k : String) (v : Schema) (rest : SchemaDict)
  deriving DecidableEq, Repr
inductive SchemaList where
  | nil
  | cons (v : Schema) (rest : SchemaList)
  deriving DecidableEq, Repr
end

def SchemaDict.keys : SchemaDict → List String
  | .nil => []
  | .cons k _ rest => k :: rest.keys

def SchemaDict.lookup : SchemaDict → String → Option Schema
  | .nil, _ => Option.none
  | .cons k v rest, key => if k = key then some v else rest.lookup key

/-- Key-set equality of a schema mapping and a value dict, the check
zip_dict amounts to: zip_dict iterates the union of the key sets and
raises KeyError at the first key missing from either side, so it
succeeds exactly when the key sets coincide (iteration order over the
union is then modelled as the schema's insertion order, which the
order-insensitive dict equality of every claim cannot distinguish). -/
def keySetEq (ks1 ks2 : List String) : Bool :=
  ks1.all (fun k => ks2.contains k) && ks2.all (fun k => ks1.contains k)

/-- Python iteration over a value: lists yield their elements, strings
their characters as one-character strings, dicts their keys; everything
else raises TypeError. -/
def pyIterate : PyVal → Except PyErr (List PyVal)
  | .list es => .ok es.toList
  | .str s => .ok (s.data.map (fun c => PyVal.str ⟨[c]⟩))
  | .dict es => .ok (es.keys.map PyVal.str)
  | _ => .error .typeError

/-- Dispatch of encode_example over the leaf features.  Composite
schemas never reach this point (the nested traversal handles them
first). -/
def leafEncode : Schema → PyVal → Except PyErr PyBytes
  | .text, v => textEncode v
  | .json, v => jsonEncode v
  | .tensor shape dtype, v => tensorEncode shape dtype v
  | .scalar dtype, v => tensorEncode [] dtype v
  | .audio _ _ _, v => audioEncode v
  | _, _ => .error .typeError

/-- Dispatch of decode_example over the leaf features. -/
def leafDecode : Schema → PyVal → DecodeRes
  | .text, v => textDecode v
  | .json, v => jsonDecode v
  | .tensor shape dtype, v => tensorDecode shape dtype v
  | .scalar dtype, v => tensorDecode [] dtype v
  | .audio shape dtype sr, v => audioDecode shape dtype sr v
  | _, _ => ⟨.error .typeError, false, false⟩

/-! ## Nested traversal (features.py encode_nested_example /
decode_nested_example)

zip_dict iterates the key-set union and raises KeyError at the first
one-sided key, so the mapping branches check key-set equality and then
walk the schema in insertion order.  Python's decode wrapper
decode_nested_example([feature], x), which treats x as a list of
feature, is inlined at its three call sites (the recursion is then
structural on the schema). -/

mutual
def encode_nested_example : Schema → PyVal → Nat → Except PyErr PyVal
  | .sdict es, obj, level =>
    if level = 0 ∧ obj = .none then .error .valueError
    else
      match obj with
      | .none => .ok .none
      | .dict od =>
        if keySetEq es.keys od.keys then
          match encodeDictEntries es od level with
          | .ok out => .ok (.dict out)
          | .error e => .error e
        else .error .keyError
      | _ => .error .typeError
  | .slist es, obj, level =>
    match es with
    | .nil => .error .indexError
    | .cons sub _ =>
      match obj with
      | .none => .ok .none
      | _ =>
        match pyIterate obj with
        | .error e => .error e
        | .ok elems =>
          if elems.isEmpty then .ok (.list .nil)
          else
            match elems.mapM (fun o => encode_nested_example sub o (level + 1)) with
            | .ok out => .ok (.list (PyList.ofList out))
            | .error e => .error e
  | .sequence (.featDict fs) _, obj, level =>
    match obj with
    | .none => .ok .none
    | .list structs =>
      if structs.toList.all (fun o =>
          match o with
          | PyVal.dict _ => true
          | _ => false) then
        if structs.toList.all (fun o =>
            match o with
            | PyVal.dict od => keySetEq fs.keys od.keys
            | _ => false) then
          match encodeStructLists fs structs.toList level with
          | .ok out => .ok (.dict out)
          | .error e => .error e
        else .error .keyError
      else .error .typeError
    | .dict od =>
      if keySetEq fs.keys od.keys then
        match encodeStructSingle fs od level with
        | .ok out => .ok (.dict out)
        | .error e => .error e
      else .error .keyError
    | _ => .error .typeError
  | .sequence (.featPlain sub) _, obj, level =>
    match obj with
    | .none => .ok .none
    | .str _ => .error .valueError
    | _ =>
      match pyIterate obj with
      | .error e => .error e
      | .ok elems =>
        if elems.isEmpty then .ok (.list .nil)
        else
          match elems.mapM (fun o => encode_nested_example sub o (level + 1)) with
          | .ok out => .ok (.list (PyList.ofList out))
          | .error e => .error e
  | s, obj, _ =>
    if obj = .none then .ok .none
    else
      match leafEncode s obj with
      | .ok b => .ok (.bytes b)
      | .error e => .error e
def encodeDictEntries : SchemaDict → PyDict → Nat → Except PyErr PyDict
  | .nil, _, _ => .ok .nil
  | .cons k sub rest, od, level =>
    match od.lookup k with
    | Option.none => .error .keyError
    | some v =>
      match encode_nested_example sub v (level + 1) with
      | .error e => .error e
      | .ok ev =>
        match encodeDictEntries rest od level with
        | .error e => .error e
        | .ok out => .ok (.cons k ev out)
def encodeStructLists : SchemaDict → List PyVal → Nat → Except PyErr PyDict
  | .nil, _, _ => .ok .nil
  | .cons k sub rest, structs, level =>
    match structs.mapM (fun o =>
        match o with
        | PyVal.dict od =>
          match od.lookup k with
          | some v => encode_nested_example sub v (level + 1)
          | Option.none => .error .keyError
        | _ => .error .typeError) with
    | .error e => .error e
    | .ok vs =>
      match encodeStructLists rest structs level with
      | .error e => .error e
      | .ok out => .ok (.cons k (.list (PyList.ofList vs)) out)
def encodeStructSingle : SchemaDict → PyDict → Nat → Except PyErr PyDict
  | .nil, _, _ => .ok .nil
  | .cons k sub rest, od, level =>
    match od.lookup k with
    | Option.none => .error .keyError
    | some subObjs =>
      match pyIterate subObjs with
      | .error e => .error e
      | .ok elems =>
        match elems.mapM (fun o => encode_nested_example sub o (level + 1)) with
        | .error e => .error e
        | .ok vs =>
          match encodeStructSingle rest od level with
          | .error e => .error e
          | .ok out => .ok (.cons k (.list (PyList.ofList vs)) out)
end

mutual
def decode_nested_example : Schema → PyVal → Except PyErr PyVal
  | .sdict es, obj =>
    match obj with
    | .none => .ok .none
    | .dict od =>
      if keySetEq es.keys od.keys then
        match decodeDictEntries es od with
        | .ok out => .ok (.dict out)
        | .error e => .error e
      else .error .keyError
    | _ => .error .typeError
  | .slist es, obj =>
    match es with
    | .nil => .error .indexError
    | .cons sub _ =>
      match obj with
      | .none => .ok .none
      | _ =>
        match pyIterate obj with
        | .error e => .error e
        | .ok elems =>
          if elems.isEmpty then .ok (.list .nil)
          else
            match elems.mapM (fun o => decode_nested_example sub o) with
            | .ok out => .ok (.list (PyList.ofList out))
            | .error e => .error e
  | .sequence (.featDict fs) _, obj => 
    match decodeSeqStruct fs obj with
    | .ok out => .ok (.dict out)
    | .error e => .error e
  | .sequence (.featPlain sub) _, obj =>
    match obj with
    | .none => .ok .none
    | _ =>
      match pyIterate obj with
      | .error e => .error e
      | .ok elems =>
        if elems.isEmpty then .ok (.list .nil)
        else
          match elems.mapM (fun o => decode_nested_example sub o) with
          | .ok out => .ok (.list (PyList.ofList out))
          | .error e => .error e
  | s, obj =>
    if obj = .none then .ok .none
    else (leafDecode s obj).result
def decodeDictEntries : SchemaDict → PyDict → Except PyErr PyDict
  | .nil, _ => .ok .nil
  | .cons k sub rest, od =>
    match od.lookup k with
    | Option.none => .error .keyError
    | some v =>
      match decode_nested_example sub v with
      | .error e => .error e
      | .ok dv =>
        match decodeDictEntries rest od with
        | .error e => .error e
        | .ok out => .ok (.cons k dv out)
def decodeSeqStruct : SchemaDict → PyVal → Except PyErr PyDict
  | .nil, _ => .ok .nil
  | .cons k sub rest, obj =>
    match (match obj with
           | PyVal.dict od =>
             match od.lookup k with
             | some v => Except.ok v
             | Option.none => Except.error PyErr.keyError
           | _ => Except.error PyErr.typeError) with
    | .error e => .error e
    | .ok v =>
      match (match v with
             | PyVal.none => Except.ok PyVal.none
             | _ =>
               match pyIterate v with
               | .error e => Except.error e
               | .ok elems =>
                 if elems.isEmpty then Except.ok (PyVal.list .nil)
                 else
                   match elems.mapM (fun o => decode_nested_example sub o) with
                   | .ok out => Except.ok (PyVal.list (PyList.ofList out))
                   | .error e => Except.error e) with
      | .error e => .error e
      | .ok dv =>
        match decodeSeqStruct rest obj with
        | .error e => .error e
        | .ok out => .ok (.cons k dv out)
end

/-! ## Tar members and packing (writers/tar_writer.py)

tarfile is an external collaborator: an archive is modelled as the
sequence of members added to it; a member carries its name, flag and
content.  Member names are kept as the list of path components that the
writer joins with slashes and the reader splits at slashes; for the
slash-free components the writer emits, the component list determines
the joined name and conversely. -/

structure TarMember where
  path : List String
  isdir : Bool
  content : PyBytes
  deriving DecidableEq, Repr

/-- _add_dir_to_tar: a DIRTYPE entry (mode 0755) with no content. -/
def addDirMember (path : List String) : TarMember := ⟨path, true, .raw []⟩

/-! _write_to_tar: a dict emits its directory entry then one subtree per
key (all-digit keys are reserved and raise ValueError); a list emits its
directory entry then one subtree per position, named by the decimal
position; bytes become a file entry of their length; None becomes a
zero-size file entry; any other payload fails in tarfile (TypeError).
The returned number is the total payload size. -/
mutual
def writeToTar : List String → PyVal → Except PyErr (List TarMember × Nat)
  | pfx, .dict es =>
    match writeDictToTar pfx es with
    | .ok (ms, n) => .ok (addDirMember pfx :: ms, n)
    | .error e => .error e
  | pfx, .list es =>
    match writeListToTar pfx 0 es with
    | .ok (ms, n) => .ok (addDirMember pfx :: ms, n)
    | .error e => .error e
  | pfx, .none => .ok ([⟨pfx, false, .raw []⟩], 0)
  | pfx, .bytes b => .ok ([⟨pfx, false, b⟩], b.len)
  | _, _ => .error .typeError
def writeDictToTar : List String → PyDict → Except PyErr (List TarMember × Nat)
  | _, .nil => .ok ([], 0)
  | pfx, .cons k v rest =>
    if pyIsDigit k then .error .valueError
    else
      match writeToTar (pfx ++ [k]) v with
      | .error e => .error e
      | .ok (ms, n) =>
        match writeDictToTar pfx rest with
        | .error e => .error e
        | .ok (ms2, n2) => .ok (ms ++ ms2, n + n2)
def writeListToTar : List String → Nat → PyList → Except PyErr (List TarMember × Nat)
  | _, _, .nil => .ok ([], 0)
  | pfx, i, .cons v rest =>
    match writeToTar (pfx ++ [natToStr i]) v with
    | .error e => .error e
    | .ok (ms, n) =>
      match writeListToTar pfx (i + 1) rest with
      | .error e => .error e
      | .ok (ms2, n2) => .ok (ms ++ ms2, n + n2)
end

/-- TarWriter: the open tar stream (its members so far), the schema, and
the set of indices already written. -/
structure TarWriterState where
  features : SchemaDict
  members : List TarMember
  written_idx : List String
  deriving Repr

def tarWriterInit (features : SchemaDict) : TarWriterState :=
  ⟨features, [], []⟩

/-- TarWriter.write(idx, objects): reject a column set differing from the
schema's, reject an index already written in this shard, then encode the
record, pack it under the index prefix, record the index, and return the
payload size.  Each raise happens before the corresponding mutation, so
an erroring call leaves the state as it was (the one exception, a
packing error after some members were emitted, is not reachable for a
record the encoder accepted, every encoded tree being digit-key-free
bytes-or-container data). -/
def tarWriterWrite (st : TarWriterState) (idx : String) (objects : PyVal) :
    TarWriterState × Except PyErr Nat :=
  match objects with
  | .dict od =>
    if ¬ keySetEq od.keys st.features.keys then (st, .error .valueError)
    else if st.written_idx.contains idx then (st, .error .valueError)
    else
      match encode_nested_example (.sdict st.features) objects 0 with
      | .error e => (st, .error e)
      | .ok written =>
        match writeToTar [idx] written with
        | .error e => (st, .error e)
        | .ok (ms, size) =>
          ({ st with
             members := st.members ++ ms
             written_idx := st.written_idx ++ [idx] }, .ok size)
  | _ => (st, .error .attributeError)

/-! ## Shard writer (writers/shard_writer.py)

The rolling logic only reads the running count and byte tally; the
underlying TarWriter.write(str(count), obj) call is represented by the
payload size it returns. -/

def padZeros (w : Nat) (s : String) : String :=
  ⟨List.replicate (w - s.data.length) '0' ++ s.data⟩

/-- Basename of shard i under the default pattern "%05d" plus ".tar". -/
def shardBasename (i : Nat) : String := padZeros 5 (natToStr i) ++ ".tar"

structure ShardWriterState where
  max_count : Nat
  max_size : Nat
  writer_open : Bool
  fname : Option Nat
  shard : Nat
  count : Nat
  size : Nat
  total_count : Nat
  file_list : List String
  files_created : List String
  deriving DecidableEq, Repr

/-- ShardWriter.finish: close the current shard, if any, and append its
basename to the manifest file list. -/
def shardFinish (st : ShardWriterState) : ShardWriterState :=
  if st.writer_open then
    { st with
      writer_open := false
      file_list := st.file_list ++ [shardBasename (st.fname.getD 0)] }
  else st

/-- ShardWriter.next_stream: finish the current shard, then open shard
number self.shard (creating its tar file) and reset count and size. -/
def shardNextStream (st : ShardWriterState) : ShardWriterState :=
  let st1 := shardFinish st
  { st1 with
    fname := some st1.shard
    shard := st1.shard + 1
    writer_open := true
    files_created := st1.files_created ++ [shardBasename st1.shard]
    count := 0
    size := 0 }

/-- ShardWriter construction: manifest file_list starts empty and the
first shard is opened immediately. -/
def shardInit (maxCount maxSize : Nat) : ShardWriterState :=
  shardNextStream
    ⟨maxCount, maxSize, false, Option.none, 0, 0, 0, 0, [], []⟩

/-- ShardWriter.write: roll when no stream is open, the count has
reached max_count, or the byte tally exceeds max_size; then delegate to
the tar writer (recSize is the size it returns) and bump the
counters. -/
def shardWrite (st : ShardWriterState) (recSize : Nat) : ShardWriterState :=
  let st1 :=
    if ¬ st.writer_open ∨ st.count ≥ st.max_count ∨ st.size > st.max_size
    then shardNextStream st else st
  { st1 with
    count := st1.count + 1
    size := st1.size + recSize
    total_count := st1.total_count + 1 }

/-- ShardWriter.close: finish the last shard (the manifest JSON write
has no effect on the fields the claims observe). -/
def shardClose (st : ShardWriterState) : ShardWriterState := shardFinish st

/-- Construct, write the given record sizes in order, close. -/
def shardRun (maxCount maxSize : Nat) (sizes : List Nat) : ShardWriterState :=
  shardClose (sizes.foldl shardWrite (shardInit maxCount maxSize))

/-! ## Tar unpacking (readers/tar_reader.py) -/

/-- _get_tar_index: the first path component of the member name. -/
def tarIndex (m : TarMember) : String := m.path.headD ""

/-- _feature_stream grouping: consecutive members sharing an index form
one group, emitted when the next member's index differs or the archive
ends. -/
def groupAux (idx : String) (grp : List TarMember) :
    List TarMember → List (String × List TarMember)
  | [] => [(idx, grp.reverse)]
  | m :: rest =>
    if tarIndex m = idx then groupAux idx (m :: grp) rest
    else (idx, grp.reverse) :: groupAux (tarIndex m) [m] rest

def featureGroups : List TarMember → List (String × List TarMember)
  | [] => []
  | m :: rest => groupAux (tarIndex m) [m] rest

/-- _get_inner_fobj: extractfile wrapped in a StreamWrapper; tarfile
yields no file object for a non-regular member, which the code turns
into ExtractError. -/
def getInnerFobj (m : TarMember) : Except PyErr PyVal :=
  if m.isdir then .error .extractError else .ok (.stream m.content)

/-- Python dict assignment d key = v: existing keys keep their position,
new keys append. -/
def PyDict.setKey : PyDict → String → PyVal → PyDict
  | .nil, k, v => .cons k v .nil
  | .cons k' v' rest, k, v =>
    if k' = k then .cons k' v rest else .cons k' v' (rest.setKey k v)

/-- The path componentwise walk of _compose_feature: descend the
components before the last (creating empty dicts as needed, in place),
then assign the last component.  Descending into an existing non-dict
value indexes a StreamWrapper and fails. -/
def insertPath : PyDict → List String → PyVal → Except PyErr PyDict
  | _, [], _ => .error .typeError
  | d, [last], v => .ok (d.setKey last v)
  | d, part :: next :: rest, v =>
    match d.lookup part with
    | some (.dict sub) =>
      match insertPath sub (next :: rest) v with
      | .ok sub2 => .ok (d.setKey part (.dict sub2))
      | .error e => .error e
    | some _ => .error .typeError
    | Option.none =>
      match insertPath .nil (next :: rest) v with
      | .ok sub2 => .ok (d.setKey part (.dict sub2))
      | .error e => .error e

/-- The components _compose_feature walks for one member: the name split
at slashes, minus the leading index component (parts obtained as
parts one-to-minus-one plus the last part; a single-component name keeps
that component). -/
def memberKeyPath (path : List String) : List String :=
  if 2 ≤ path.length then path.tail else path

/-- The member loop of the nested case of _compose_feature: directory
entries are skipped, file entries are inserted at their key path. -/
def composeNested (d : PyDict) : List TarMember → Except PyErr PyDict
  | [] => .ok d
  | m :: rest =>
    if m.isdir then composeNested d rest
    else
      match getInnerFobj m with
      | .error e => .error e
      | .ok leaf =>
        match insertPath d (memberKeyPath m.path) leaf with
        | .ok d2 => composeNested d2 rest
        | .error e => .error e

/-! _transform_dict: rebuild each nested dict value, then turn any dict
all of whose keys are digit strings into the list of its values sorted
by the integer value of the key. -/
mutual
def transformNode : PyVal → PyVal
  | .dict es =>
    let es2 := transformEntries es
    if es2.keys.all pyIsDigit then
      .list (PyList.ofList
        (((es2.entries).insertionSort
            (fun a b => parseNatStr a.1 ≤ parseNatStr b.1)).map Prod.snd))
    else .dict es2
  | v => v
def transformEntries : PyDict → PyDict
  | .nil => .nil
  | .cons k v rest => .cons k (transformNode v) (transformEntries rest)
end

/-- _compose_feature. -/
def composeFeature (group : List TarMember) : Except PyErr PyVal :=
  match group with
  | [m] => if m.isdir then .error .assertionError else getInnerFobj m
  | _ =>
    match composeNested .nil group with
    | .ok nested => .ok (transformNode (.dict nested))
    | .error e => .error e

/-- _feature_stream over a member list. -/
def featureStream (ms : List TarMember) : List (String × Except PyErr PyVal) :=
  (featureGroups ms).map (fun g => (g.1, composeFeature g.2))

/-! ## Round-trip of packing and unpacking

The record trees the writer accepts and the reader reproduces: interior
nodes are nonempty string-keyed dicts (keys distinct, slash-free and not
all-digit) or nonempty lists, leaves are bytes or None.  Emptiness
matters: an empty container leaves no file entry behind and the reader
rebuilds an empty list in its place. -/
mutual
def goodTreeB : PyVal → Bool
  | .bytes _ => true
  | .none => true
  | .dict es => (¬ es = .nil : Bool) && goodDictB es
  | .list es => (¬ es = .nil : Bool) && goodListB es
  | _ => false
def goodDictB : PyDict → Bool
  | .nil => true
  | .cons k v rest =>
    !pyIsDigit k && !k.data.contains '/' && !rest.keys.contains k &&
      goodTreeB v && goodDictB rest
def goodListB : PyList → Bool
  | .nil => true
  | .cons v rest => goodTreeB v && goodListB rest
end

/-! What unpacking hands back for a packed tree: each bytes leaf as a
stream of the same bytes, each None leaf as a stream of zero-length
content, containers rebuilt recursively. -/
mutual
def readBack : PyVal → PyVal
  | .bytes b => .stream b
  | .none => .stream (.raw [])
  | .dict es => .dict (readBackDict es)
  | .list es => .list (readBackList es)
  | v => v
def readBackDict : PyDict → PyDict
  | .nil => .nil
  | .cons k v rest => .cons k (readBack v) (readBackDict rest)
def readBackList : PyList → PyList
  | .nil => .nil
  | .cons v rest => .cons (readBack v) (readBackList rest)
end

/-! The nested dict _compose_feature builds before _transform_dict runs:
streams at the leaves, list positions still keyed by their decimal
index. -/
mutual
def rawOf : PyVal → PyVal
  | .bytes b => .stream b
  | .none => .stream (.raw [])
  | .dict es => .dict (rawOfDict es)
  | .list es => .dict (rawOfList 0 es)
  | v => v
def rawOfDict : PyDict → PyDict
  | .nil => .nil
  | .cons k v rest => .cons k (rawOf v) (rawOfDict rest)
def rawOfList : Nat → PyList → PyDict
  | _, .nil => .nil
  | i, .cons v rest => .cons (natToStr i) (rawOf v) (rawOfList (i + 1) rest)
end

/-! The member sequence _write_to_tar emits for a good tree, as a plain
function of the tree. -/
mutual
def membersOf : List String → PyVal → List TarMember
  | pfx, .bytes b => [⟨pfx, false, b⟩]
  | pfx, .none => [⟨pfx, false, .raw []⟩]
  | pfx, .dict es => addDirMember pfx :: membersOfDict pfx es
  | pfx, .list es => addDirMember pfx :: membersOfList pfx 0 es
  | _, _ => []
def membersOfDict : List String → PyDict → List TarMember
  | _, .nil => []
  | pfx, .cons k v rest => membersOf (pfx ++ [k]) v ++ membersOfDict pfx rest
def membersOfList : List String → Nat → PyList → List TarMember
  | _, _, .nil => []
  | pfx, i, .cons v rest =>
    membersOf (pfx ++ [natToStr i]) v ++ membersOfList pfx (i + 1) rest
end

/-! The file entries of a packed tree, with paths relative to the tree's
own prefix. -/
mutual
def filesRel : PyVal → List (List String × PyBytes)
  | .bytes b => [([], b)]
  | .none => [([], .raw [])]
  | .dict es => filesRelDict es
  | .list es => filesRelList 0 es
  | _ => []
def filesRelDict : PyDict → List (List String × PyBytes)
  | .nil => []
  | .cons k v rest =>
    (filesRel v).map (fun p => (k :: p.1, p.2)) ++ filesRelDict rest
def filesRelList : Nat → PyList → List (List String × PyBytes)
  | _, .nil => []
  | i, .cons v rest =>
    (filesRel v).map (fun p => (natToStr i :: p.1, p.2)) ++ filesRelList (i + 1) rest
end

/-- Appending a fresh entry at the end of a dict. -/
def PyDict.append : PyDict → String → PyVal → PyDict
  | .nil, k, v => .cons k v .nil
  | .cons k2 v2 rest, k, v => .cons k2 v2 (rest.append k v)

/-- Dict concatenation. -/
def PyDict.cat : PyDict → PyDict → PyDict
  | .nil, e => e
  | .cons k v rest, e => .cons k v (rest.cat e)

/-- Inserting a run of (relative path, content) file entries in order. -/
def insertPairs (d : PyDict) : List (List String × PyBytes) → Except PyErr PyDict
  | [] => .ok d
  | (p, b) :: rest =>
    match insertPath d p (.stream b) with
    | .ok d2 => insertPairs d2 rest
    | .error e => .error e

/-- The numbered dict a packed list reads back as, before the digit-key
rule turns it into a list. -/
def numberedOf : Nat → PyList → PyDict
  | _, .nil => .nil
  | i, .cons v rest => .cons (natToStr i) (readBack v) (numberedOf (i + 1) rest)

/-! _write_to_tar on a good tree succeeds and emits exactly the member
sequence membersOf describes. -/
mutual
theorem writeToTar_eq : ∀ (t : PyVal) (pfx : List String), goodTreeB t = true →
    ∃ n, writeToTar pfx t = .ok (membersOf pfx t, n)
  | .bytes b, _, _ => ⟨b.len, rfl⟩
  | .none, _, _ => ⟨0, rfl⟩
  | .dict es, pfx, h => by
    simp only [goodTreeB, Bool.and_eq_true, decide_eq_true_eq] at h
    obtain ⟨n, hn⟩ := writeDictToTar_eq es pfx h.2
    exact ⟨n, by simp [writeToTar, membersOf, hn]⟩
  | .list es, pfx, h => by
    simp only [goodTreeB, Bool.and_eq_true, decide_eq_true_eq] at h
    obtain ⟨n, hn⟩ := writeListToTar_eq es pfx 0 h.2
    exact ⟨n, by simp [writeToTar, membersOf, hn]⟩
  | .bool b, _, h => by simp [goodTreeB] at h
  | .int i, _, h => by simp [goodTreeB] at h
  | .str s, _, h => by simp [goodTreeB] at h
  | .arr a, _, h => by simp [goodTreeB] at h
  | .stream s, _, h => by simp [goodTreeB] at h
  | .audioDecoder a b c d e, _, h => by simp [goodTreeB] at h
theorem writeDictToTar_eq : ∀ (es : PyDict) (pfx : List String), goodDictB es = true →
    ∃ n, writeDictToTar pfx es = .ok (membersOfDict pfx es, n)
  | .nil, _, _ => ⟨0, rfl⟩
  | .cons k v rest, pfx, h => by
    simp only [goodDictB, Bool.and_eq_true, Bool.not_eq_true'] at h
    obtain ⟨⟨⟨⟨hd, _⟩, _⟩, hv⟩, hr⟩ := h
    obtain ⟨n1, h1⟩ := writeToTar_eq v (pfx ++ [k]) hv
    obtain ⟨n2, h2⟩ := writeDictToTar_eq rest pfx hr
    exact ⟨n1 + n2, by simp [writeDictToTar, hd, h1, h2, membersOfDict]⟩
theorem writeListToTar_eq : ∀ (es : PyList) (pfx : List String) (i : Nat),
    goodListB es = true →
    ∃ n, writeListToTar pfx i es = .ok (membersOfList pfx i es, n)
  | .nil, _, _, _ => ⟨0, rfl⟩
  | .cons v rest, pfx, i, h => by
    simp only [goodListB, Bool.and_eq_true] at h
    obtain ⟨n1, h1⟩ := writeToTar_eq v (pfx ++ [natToStr i]) h.1
    obtain ⟨n2, h2⟩ := writeListToTar_eq rest pfx (i + 1) h.2
    exact ⟨n1 + n2, by simp [writeListToTar, h1, h2, membersOfList]⟩
end

/-! Every member of a packed tree keeps the prefix's first component as
its index. -/
mutual
theorem membersOf_head : ∀ (t : PyVal) (i : String) (pfx : List String)
    (m : TarMember), m ∈ membersOf (i :: pfx) t → m.path.headD "" = i
  | .bytes b, i, pfx, m, hm => by
    simp only [membersOf, List.mem_singleton] at hm
    simp [hm]
  | .none, i, pfx, m, hm => by
    simp only [membersOf, List.mem_singleton] at hm
    simp [hm]
  | .dict es, i, pfx, m, hm => by
    simp only [membersOf, List.mem_cons] at hm
    rcases hm with rfl | hm
    · simp [addDirMember]
    · exact membersOfDict_head es i pfx m hm
  | .list es, i, pfx, m, hm => by
    simp only [membersOf, List.mem_cons] at hm
    rcases hm with rfl | hm
    · simp [addDirMember]
    · exact membersOfList_head es i pfx 0 m hm
  | .bool b, _, _, _, hm => by simp [membersOf] at hm
  | .int j, _, _, _, hm => by simp [membersOf] at hm
  | .str s, _, _, _, hm => by simp [membersOf] at hm
  | .arr a, _, _, _, hm => by simp [membersOf] at hm
  | .stream s, _, _, _, hm => by simp [membersOf] at hm
  | .audioDecoder a b c d e, _, _, _, hm => by simp [membersOf] at hm
theorem membersOfDict_head : ∀ (es : PyDict) (i : String) (pfx : List String)
    (m : TarMember), m ∈ membersOfDict (i :: pfx) es → m.path.headD "" = i
  | .cons k v rest, i, pfx, m, hm => by
    simp only [membersOfDict, List.mem_append] at hm
    rcases hm with hm | hm
    · rw [List.cons_append] at hm
      exact membersOf_head v i (pfx ++ [k]) m hm
    · exact membersOfDict_head rest i pfx m hm
theorem membersOfList_head : ∀ (es : PyList) (i : String) (pfx : List String)
    (j : Nat) (m : TarMember), m ∈ membersOfList (i :: pfx) j es →
    m.path.headD "" = i
  | .cons v rest, i, pfx, j, m, hm => by
    simp only [membersOfList, List.mem_append] at hm
    rcases hm with hm | hm
    · rw [List.cons_append] at hm
      exact membersOf_head v i (pfx ++ [natToStr j]) m hm
    · exact membersOfList_head rest i pfx (j + 1) m hm
end

/-! The non-directory members of a packed tree are exactly its file
entries, each path the prefix followed by the entry's relative path. -/
mutual
theorem membersOf_files : ∀ (t : PyVal) (pfx : List String),
    (membersOf pfx t).filter (fun m => !m.isdir) =
      (filesRel t).map (fun p => ⟨pfx ++ p.1, false, p.2⟩)
  | .bytes b, pfx => by simp [membersOf, filesRel, List.filter]
  | .none, pfx => by simp [membersOf, filesRel, List.filter]
  | .dict es, pfx => by
    simp only [membersOf, filesRel, List.filter, addDirMember, Bool.not_true]
    exact membersOfDict_files es pfx
  | .list es, pfx => by
    simp only [membersOf, filesRel, List.filter, addDirMember, Bool.not_true]
    exact membersOfList_files es pfx 0
  | .bool b, pfx => by simp [membersOf, filesRel]
  | .int i, pfx => by simp [membersOf, filesRel]
  | .str s, pfx => by simp [membersOf, filesRel]
  | .arr a, pfx => by simp [membersOf, filesRel]
  | .stream s, pfx => by simp [membersOf, filesRel]
  | .audioDecoder a b c d e, pfx => by simp [membersOf, filesRel]
theorem membersOfDict_files : ∀ (es : PyDict) (pfx : List String),
    (membersOfDict pfx es).filter (fun m => !m.isdir) =
      (filesRelDict es).map (fun p => ⟨pfx ++ p.1, false, p.2⟩)
  | .nil, pfx => by simp [membersOfDict, filesRelDict]
  | .cons k v rest, pfx => by
    have h1 := membersOf_files v (pfx ++ [k])
    have h2 := membersOfDict_files rest pfx
    simp only [membersOfDict, filesRelDict, List.filter_append, h1, h2,
      List.map_append, List.map_map]
    congr 1
    apply List.map_congr_left
    intro p _
    simp [List.append_assoc]
theorem membersOfList_files : ∀ (es : PyList) (pfx : List String) (i : Nat),
    (membersOfList pfx i es).filter (fun m => !m.isdir) =
      (filesRelList i es).map (fun p => ⟨pfx ++ p.1, false, p.2⟩)
  | .nil, pfx, i => by simp [membersOfList, filesRelList]
  | .cons v rest, pfx, i => by
    have h1 := membersOf_files v (pfx ++ [natToStr i])
    have h2 := membersOfList_files rest pfx (i + 1)
    simp only [membersOfList, filesRelList, List.filter_append, h1, h2,
      List.map_append, List.map_map]
    congr 1
    apply List.map_congr_left
    intro p _
    simp [List.append_assoc]
end

/-! A good tree always owns at least one file entry. -/
mutual
theorem filesRel_ne_nil : ∀ (t : PyVal), goodTreeB t = true → filesRel t ≠ []
  | .bytes b, _ => by simp [filesRel]
  | .none, _ => by simp [filesRel]
  | .dict es, h => by
    simp only [goodTreeB, Bool.and_eq_true, decide_eq_true_eq] at h
    exact filesRelDict_ne_nil es h.1 h.2
  | .list es, h => by
    simp only [goodTreeB, Bool.and_eq_true, decide_eq_true_eq] at h
    exact filesRelList_ne_nil es 0 h.1 h.2
  | .bool b, h => by simp [goodTreeB] at h
  | .int i, h => by simp [goodTreeB] at h
  | .str s, h => by simp [goodTreeB] at h
  | .arr a, h => by simp [goodTreeB] at h
  | .stream s, h => by simp [goodTreeB] at h
  | .audioDecoder a b c d e, h => by simp [goodTreeB] at h
theorem filesRelDict_ne_nil : ∀ (es : PyDict), ¬ es = .nil →
    goodDictB es = true → filesRelDict es ≠ []
  | .nil, hne, _ => by simp at hne
  | .cons k v rest, _, h => by
    simp only [goodDictB, Bool.and_eq_true, Bool.not_eq_true'] at h
    have hv := filesRel_ne_nil v h.1.2
    simp only [filesRelDict, ne_eq, List.append_eq_nil, List.map_eq_nil_iff,
      not_and]
    intro hcon
    exact absurd hcon hv
theorem filesRelList_ne_nil : ∀ (es : PyList) (i : Nat), ¬ es = .nil →
    goodListB es = true → filesRelList i es ≠ []
  | .nil, _, hne, _ => by simp at hne
  | .cons v rest, i, _, h => by
    simp only [goodListB, Bool.and_eq_true] at h
    have hv := filesRel_ne_nil v h.1
    simp only [filesRelList, ne_eq, List.append_eq_nil, List.map_eq_nil_iff,
      not_and]
    intro hcon
    exact absurd hcon hv
end

/-- Every relative file path below a dict node is nonempty (it starts
with the child's key). -/
theorem filesRelDict_path_ne : ∀ (es : PyDict) (p : List String × PyBytes),
    p ∈ filesRelDict es → p.1 ≠ []
  | .nil, p, hp => by simp [filesRelDict] at hp
  | .cons k v rest, p, hp => by
    simp only [filesRelDict, List.mem_append, List.mem_map] at hp
    rcases hp with ⟨a, _, rfl⟩ | hp
    · simp
    · exact filesRelDict_path_ne rest p hp

/-- Every relative file path below a list node is nonempty (it starts
with the position's decimal name). -/
theorem filesRelList_path_ne : ∀ (es : PyList) (i : Nat)
    (p : List String × PyBytes), p ∈ filesRelList i es → p.1 ≠ []
  | .nil, _, p, hp => by simp [filesRelList] at hp
  | .cons v rest, i, p, hp => by
    simp only [filesRelList, List.mem_append, List.mem_map] at hp
    rcases hp with ⟨a, _, rfl⟩ | hp
    · simp
    · exact filesRelList_path_ne rest (i + 1) p hp

/-- A run of members sharing one index folds into a single group. -/
theorem groupAux_all (i : String) : ∀ (ms : List TarMember)
    (grp : List TarMember), (∀ m ∈ ms, tarIndex m = i) →
    groupAux i grp ms = [(i, grp.reverse ++ ms)]
  | [], grp, _ => by simp [groupAux]
  | m :: rest, grp, h => by
    have hm : tarIndex m = i := h m (List.mem_cons_self m rest)
    rw [groupAux, if_pos hm, groupAux_all i rest (m :: grp)
      (fun x hx => h x (List.mem_cons_of_mem m hx))]
    simp

/-- _feature_stream of a nonempty archive whose members all share index
i yields the single group (i, all members). -/
theorem featureGroups_all (i : String) (m : TarMember) (rest : List TarMember)
    (h : ∀ x ∈ m :: rest, tarIndex x = i) :
    featureGroups (m :: rest) = [(i, m :: rest)] := by
  rw [featureGroups, h m (List.mem_cons_self m rest),
    groupAux_all i rest [m] (fun x hx => h x (List.mem_cons_of_mem m hx))]
  simp

theorem PyDict.lookup_setKey_self : ∀ (d : PyDict) (k : String) (v : PyVal),
    (d.setKey k v).lookup k = some v
  | .nil, k, v => by simp [PyDict.setKey, PyDict.lookup]
  | .cons k2 v2 rest, k, v => by
    by_cases hk : k2 = k
    · simp [PyDict.setKey, hk, PyDict.lookup]
    · simp [PyDict.setKey, hk, PyDict.lookup,
        PyDict.lookup_setKey_self rest k v]

theorem PyDict.setKey_setKey : ∀ (d : PyDict) (k : String) (v w : PyVal),
    (d.setKey k v).setKey k w = d.setKey k w
  | .nil, k, v, w => by simp [PyDict.setKey]
  | .cons k2 v2 rest, k, v, w => by
    by_cases hk : k2 = k
    · simp [PyDict.setKey, hk]
    · simp [PyDict.setKey, hk, PyDict.setKey_setKey rest k v w]

theorem PyDict.setKey_of_lookup : ∀ (d : PyDict) (k : String) (v : PyVal),
    d.lookup k = some v → d.setKey k v = d
  | .nil, k, v, h => by simp [PyDict.lookup] at h
  | .cons k2 v2 rest, k, v, h => by
    by_cases hk : k2 = k
    · rw [PyDict.lookup, if_pos hk] at h
      simp only [Option.some.injEq] at h
      simp [PyDict.setKey, hk, h]
    · rw [PyDict.lookup, if_neg hk] at h
      simp [PyDict.setKey, hk, PyDict.setKey_of_lookup rest k v h]

theorem PyDict.setKey_of_lookup_none : ∀ (d : PyDict) (k : String) (v : PyVal),
    d.lookup k = Option.none → d.setKey k v = d.append k v
  | .nil, k, v, _ => by simp [PyDict.setKey, PyDict.append]
  | .cons k2 v2 rest, k, v, h => by
    by_cases hk : k2 = k
    · rw [PyDict.lookup, if_pos hk] at h
      simp at h
    · rw [PyDict.lookup, if_neg hk] at h
      simp [PyDict.setKey, hk, PyDict.append,
        PyDict.setKey_of_lookup_none rest k v h]

theorem PyDict.lookup_append_ne : ∀ (d : PyDict) (k k2 : String) (v : PyVal),
    ¬ k = k2 → (d.append k v).lookup k2 = d.lookup k2
  | .nil, k, k2, v, h => by simp [PyDict.append, PyDict.lookup, h]
  | .cons k3 v3 rest, k, k2, v, h => by
    by_cases hk : k3 = k2
    · simp [PyDict.append, PyDict.lookup, hk]
    · simp [PyDict.append, PyDict.lookup, hk,
        PyDict.lookup_append_ne rest k k2 v h]

theorem PyDict.cat_append : ∀ (d : PyDict) (k : String) (v : PyVal)
    (e : PyDict), (d.append k v).cat e = d.cat (.cons k v e)
  | .nil, k, v, e => by simp [PyDict.append, PyDict.cat]
  | .cons k2 v2 rest, k, v, e => by
    simp [PyDict.append, PyDict.cat, PyDict.cat_append rest k v e]

theorem insertPairs_append : ∀ (a b : List (List String × PyBytes))
    (d : PyDict), insertPairs d (a ++ b) =
      match insertPairs d a with
      | .ok d2 => insertPairs d2 b
      | .error e => .error e
  | [], b, d => by simp [insertPairs]
  | (p, c) :: rest, b, d => by
    rw [List.cons_append, insertPairs, insertPairs]
    cases insertPath d p (.stream c) with
    | ok d2 => exact insertPairs_append rest b d2
    | error e => rfl

/-- Inserting entries all prefixed by a key under which a sub-dict
already sits updates that sub-dict in place. -/
theorem insertPairs_descend : ∀ (gs : List (List String × PyBytes))
    (d : PyDict) (k : String) (sub : PyDict), (∀ p ∈ gs, p.1 ≠ []) →
    d.lookup k = some (.dict sub) →
    insertPairs d (gs.map (fun p => (k :: p.1, p.2))) =
      match insertPairs sub gs with
      | .ok s => .ok (d.setKey k (.dict s))
      | .error e => .error e
  | [], d, k, sub, _, hl => by
    simp [insertPairs, PyDict.setKey_of_lookup d k _ hl]
  | (p, b) :: gs2, d, k, sub, hne, hl => by
    have hp : p ≠ [] := hne (p, b) (List.mem_cons_self _ _)
    obtain ⟨q, qs, rfl⟩ : ∃ q qs, p = q :: qs := by
      cases p with
      | nil => exact absurd rfl hp
      | cons q qs => exact ⟨q, qs, rfl⟩
    rw [List.map_cons, insertPairs, insertPairs]
    simp only [insertPath, hl]
    cases hins : insertPath sub (q :: qs) (.stream b) with
    | error e => rfl
    | ok sub2 =>
      show insertPairs (d.setKey k (.dict sub2))
          (gs2.map (fun p => (k :: p.1, p.2))) =
        match insertPairs sub2 gs2 with
        | .ok s => .ok (d.setKey k (.dict s))
        | .error e => .error e
      rw [insertPairs_descend gs2 (d.setKey k (.dict sub2)) k sub2
        (fun x hx => hne x (List.mem_cons_of_mem _ hx))
        (PyDict.lookup_setKey_self d k _)]
      cases insertPairs sub2 gs2 with
      | ok s => simp [PyDict.setKey_setKey]
      | error e => rfl

/-- Inserting entries all prefixed by a fresh key appends one sub-dict
entry holding their insertion. -/
theorem insertPairs_fresh (gs : List (List String × PyBytes)) (d : PyDict)
    (k : String) (hgs : gs ≠ []) (hne : ∀ p ∈ gs, p.1 ≠ [])
    (hl : d.lookup k = Option.none) :
    insertPairs d (gs.map (fun p => (k :: p.1, p.2))) =
      match insertPairs .nil gs with
      | .ok s => .ok (d.append k (.dict s))
      | .error e => .error e := by
  obtain ⟨⟨p, b⟩, gs2, rfl⟩ : ∃ x gs2, gs = x :: gs2 := by
    cases gs with
    | nil => exact absurd rfl hgs
    | cons x gs2 => exact ⟨x, gs2, rfl⟩
  have hp : p ≠ [] := hne (p, b) (List.mem_cons_self _ _)
  obtain ⟨q, qs, rfl⟩ : ∃ q qs, p = q :: qs := by
    cases p with
    | nil => exact absurd rfl hp
    | cons q qs => exact ⟨q, qs, rfl⟩
  rw [List.map_cons, insertPairs, insertPairs]
  simp only [insertPath, hl]
  cases hins : insertPath .nil (q :: qs) (.stream b) with
  | error e => rfl
  | ok sub2 =>
    show insertPairs (d.setKey k (.dict sub2))
        (gs2.map (fun p => (k :: p.1, p.2))) =
      match insertPairs sub2 gs2 with
      | .ok s => .ok (d.append k (.dict s))
      | .error e => .error e
    rw [insertPairs_descend gs2 (d.setKey k (.dict sub2)) k sub2
      (fun x hx => hne x (List.mem_cons_of_mem _ hx))
      (PyDict.lookup_setKey_self d k _)]
    cases insertPairs sub2 gs2 with
    | ok s =>
      simp only [PyDict.setKey_setKey]
      rw [PyDict.setKey_of_lookup_none d k _ hl]
    | error e => rfl

theorem PyDict.cat_nil : ∀ (d : PyDict), d.cat .nil = d
  | .nil => rfl
  | .cons k v rest => by simp [PyDict.cat, PyDict.cat_nil rest]

/-! Inserting the relative file entries of a good tree rebuilds exactly
the raw nested dict the reader's transform then postprocesses. -/
mutual
theorem insertPairs_child : ∀ (t : PyVal) (d : PyDict) (k : String),
    goodTreeB t = true → d.lookup k = Option.none →
    insertPairs d ((filesRel t).map (fun p => (k :: p.1, p.2))) =
      .ok (d.append k (rawOf t))
  | .bytes b, d, k, _, hl => by
    simp [filesRel, insertPairs, insertPath, rawOf,
      PyDict.setKey_of_lookup_none d k _ hl]
  | .none, d, k, _, hl => by
    simp [filesRel, insertPairs, insertPath, rawOf,
      PyDict.setKey_of_lookup_none d k _ hl]
  | .dict es, d, k, h, hl => by
    simp only [goodTreeB, Bool.and_eq_true, decide_eq_true_eq] at h
    rw [show filesRel (.dict es) = filesRelDict es from rfl,
      insertPairs_fresh (filesRelDict es) d k
        (filesRelDict_ne_nil es h.1 h.2) (filesRelDict_path_ne es) hl,
      insertPairs_dict es .nil h.2 (fun _ _ => rfl)]
    rfl
  | .list es, d, k, h, hl => by
    simp only [goodTreeB, Bool.and_eq_true, decide_eq_true_eq] at h
    rw [show filesRel (.list es) = filesRelList 0 es from rfl,
      insertPairs_fresh (filesRelList 0 es) d k
        (filesRelList_ne_nil es 0 h.1 h.2) (filesRelList_path_ne es 0) hl,
      insertPairs_list es .nil 0 h.2 (fun _ _ => rfl)]
    rfl
  | .bool b, _, _, h, _ => by simp [goodTreeB] at h
  | .int i, _, _, h, _ => by simp [goodTreeB] at h
  | .str s, _, _, h, _ => by simp [goodTreeB] at h
  | .arr a, _, _, h, _ => by simp [goodTreeB] at h
  | .stream s, _, _, h, _ => by simp [goodTreeB] at h
  | .audioDecoder a b c d e, _, _, h, _ => by simp [goodTreeB] at h
theorem insertPairs_dict : ∀ (es : PyDict) (d : PyDict),
    goodDictB es = true → (∀ k2 ∈ es.keys, d.lookup k2 = Option.none) →
    insertPairs d (filesRelDict es) = .ok (d.cat (rawOfDict es))
  | .nil, d, _, _ => by simp [filesRelDict, insertPairs, rawOfDict, PyDict.cat_nil]
  | .cons k v rest, d, h, hfresh => by
    simp only [goodDictB, Bool.and_eq_true, Bool.not_eq_true'] at h
    obtain ⟨⟨⟨⟨_, _⟩, hf⟩, hv⟩, hr⟩ := h
    have hchild := insertPairs_child v d k hv
      (hfresh k (List.mem_cons_self _ _))
    simp only [filesRelDict, insertPairs_append, hchild]
    rw [insertPairs_dict rest (d.append k (rawOf v)) hr (fun k2 hk2 => by
      have hne : ¬ k = k2 := by
        intro heq
        subst heq
        simp at hf
        exact hf hk2
      rw [PyDict.lookup_append_ne d k k2 _ hne]
      exact hfresh k2 (List.mem_cons_of_mem _ hk2))]
    rw [PyDict.cat_append]
    rfl
theorem insertPairs_list : ∀ (es : PyList) (d : PyDict) (i : Nat),
    goodListB es = true →
    (∀ j, i ≤ j → d.lookup (natToStr j) = Option.none) →
    insertPairs d (filesRelList i es) = .ok (d.cat (rawOfList i es))
  | .nil, d, i, _, _ => by simp [filesRelList, insertPairs, rawOfList, PyDict.cat_nil]
  | .cons v rest, d, i, h, hfresh => by
    simp only [goodListB, Bool.and_eq_true] at h
    have hchild := insertPairs_child v d (natToStr i) h.1
      (hfresh i (Nat.le_refl i))
    simp only [filesRelList, insertPairs_append, hchild]
    rw [insertPairs_list rest (d.append (natToStr i) (rawOf v)) (i + 1) h.2
      (fun j hj => by
        have hne : ¬ natToStr i = natToStr j := by
          intro heq
          have := natToStr_injective heq
          omega
        rw [PyDict.lookup_append_ne d (natToStr i) (natToStr j) _ hne]
        exact hfresh j (by omega))]
    rw [PyDict.cat_append]
    rfl
end

theorem PyList.ofList_toList : ∀ (l : PyList), PyList.ofList l.toList = l
  | .nil => rfl
  | .cons v rest => by
    simp [PyList.toList, PyList.ofList, PyList.ofList_toList rest]

theorem readBackDict_keys : ∀ (es : PyDict), (readBackDict es).keys = es.keys
  | .nil => rfl
  | .cons k v rest => by
    simp [readBackDict, PyDict.keys, readBackDict_keys rest]

theorem numberedOf_keys_digit : ∀ (es : PyList) (i : Nat),
    ((numberedOf i es).keys).all pyIsDigit = true
  | .nil, i => by simp [numberedOf, PyDict.keys]
  | .cons v rest, i => by
    simp [numberedOf, PyDict.keys, List.all_cons, pyIsDigit_natToStr,
      numberedOf_keys_digit rest (i + 1)]

theorem numberedOf_entries_key : ∀ (es : PyList) (i : Nat)
    (p : String × PyVal), p ∈ (numberedOf i es).entries →
    ∃ j, i ≤ j ∧ p.1 = natToStr j
  | .nil, i, p, hp => by simp [numberedOf, PyDict.entries] at hp
  | .cons v rest, i, p, hp => by
    rw [numberedOf, PyDict.entries, List.mem_cons] at hp
    rcases hp with rfl | hp
    · exact ⟨i, Nat.le_refl i, rfl⟩
    · obtain ⟨j, hj, hpj⟩ := numberedOf_entries_key rest (i + 1) p hp
      exact ⟨j, by omega, hpj⟩

theorem numberedOf_sorted : ∀ (es : PyList) (i : Nat),
    List.Sorted (fun a b : String × PyVal => parseNatStr a.1 ≤ parseNatStr b.1)
      ((numberedOf i es).entries)
  | .nil, i => by simp [numberedOf, PyDict.entries]
  | .cons v rest, i => by
    rw [numberedOf, PyDict.entries]
    refine List.sorted_cons.mpr ⟨?_, numberedOf_sorted rest (i + 1)⟩
    intro b hb
    obtain ⟨j, hj, hbj⟩ := numberedOf_entries_key rest (i + 1) b hb
    rw [hbj]
    simp only [parseNatStr_natToStr]
    omega

theorem numberedOf_values : ∀ (es : PyList) (i : Nat),
    ((numberedOf i es).entries).map Prod.snd = (readBackList es).toList
  | .nil, i => rfl
  | .cons v rest, i => by
    simp [numberedOf, PyDict.entries, readBackList, PyList.toList,
      numberedOf_values rest (i + 1)]

/-! _transform_dict turns the raw nested dict of a good tree into the
tree's read-back form: dict nodes keep their (non-digit) keys, numbered
nodes become lists again, ordered by integer key. -/
mutual
theorem transformNode_rawOf : ∀ (t : PyVal), goodTreeB t = true →
    transformNode (rawOf t) = readBack t
  | .bytes b, _ => rfl
  | .none, _ => rfl
  | .dict es, h => by
    simp only [goodTreeB, Bool.and_eq_true, decide_eq_true_eq] at h
    obtain ⟨hne, hg⟩ := h
    obtain ⟨k, v, rest, rfl⟩ : ∃ k v rest, es = .cons k v rest := by
      cases es with
      | nil => exact absurd rfl hne
      | cons k v rest => exact ⟨k, v, rest, rfl⟩
    have hd : pyIsDigit k = false := by
      simp only [goodDictB, Bool.and_eq_true, Bool.not_eq_true'] at hg
      exact hg.1.1.1.1
    rw [show rawOf (.dict (.cons k v rest)) =
      .dict (rawOfDict (.cons k v rest)) from rfl, transformNode,
      transformEntries_rawOfDict (.cons k v rest) hg]
    have hkeys : (readBackDict (.cons k v rest)).keys.all pyIsDigit = false := by
      rw [readBackDict_keys]
      simp [PyDict.keys, List.all_cons, hd]
    rw [if_neg (by rw [hkeys]; exact Bool.false_ne_true)]
    rfl
  | .list es, h => by
    simp only [goodTreeB, Bool.and_eq_true, decide_eq_true_eq] at h
    rw [show rawOf (.list es) = .dict (rawOfList 0 es) from rfl, transformNode,
      transformEntries_rawOfList es 0 h.2]
    rw [if_pos (numberedOf_keys_digit es 0),
      List.Sorted.insertionSort_eq (numberedOf_sorted es 0),
      numberedOf_values es 0, PyList.ofList_toList]
    rfl
  | .bool b, h => by simp [goodTreeB] at h
  | .int i, h => by simp [goodTreeB] at h
  | .str s, h => by simp [goodTreeB] at h
  | .arr a, h => by simp [goodTreeB] at h
  | .stream s, h => by simp [goodTreeB] at h
  | .audioDecoder a b c d e, h => by simp [goodTreeB] at h
theorem transformEntries_rawOfDict : ∀ (es : PyDict), goodDictB es = true →
    transformEntries (rawOfDict es) = readBackDict es
  | .nil, _ => rfl
  | .cons k v rest, h => by
    simp only [goodDictB, Bool.and_eq_true, Bool.not_eq_true'] at h
    rw [show rawOfDict (.cons k v rest) =
      .cons k (rawOf v) (rawOfDict rest) from rfl, transformEntries,
      transformNode_rawOf v h.1.2, transformEntries_rawOfDict rest h.2]
    rfl
theorem transformEntries_rawOfList : ∀ (es : PyList) (i : Nat),
    goodListB es = true → transformEntries (rawOfList i es) = numberedOf i es
  | .nil, _, _ => rfl
  | .cons v rest, i, h => by
    simp only [goodListB, Bool.and_eq_true] at h
    rw [show rawOfList i (.cons v rest) =
      .cons (natToStr i) (rawOf v) (rawOfList (i + 1) rest) from rfl,
      transformEntries, transformNode_rawOf v h.1,
      transformEntries_rawOfList rest (i + 1) h.2]
    rfl
end

/-- The member loop skips directories and inserts each file at its key
path: it is insertPairs over the filtered, key-path-mapped files. -/
theorem composeNested_eq : ∀ (ms : List TarMember) (d : PyDict),
    composeNested d ms = insertPairs d
      ((ms.filter (fun m => !m.isdir)).map
        (fun m => (memberKeyPath m.path, m.content)))
  | [], _ => rfl
  | m :: rest, d => by
    rw [composeNested]
    by_cases hdir : m.isdir = true
    · rw [if_pos hdir, composeNested_eq rest d]
      simp [List.filter_cons, hdir]
    · have hdf : m.isdir = false := by revert hdir; cases m.isdir <;> simp
      rw [if_neg hdir, getInnerFobj, if_neg hdir]
      simp only [List.filter_cons, hdf, Bool.not_false, if_true,
        List.map_cons, insertPairs]
      cases hip : insertPath d (memberKeyPath m.path) (.stream m.content) with
      | ok d2 => exact composeNested_eq rest d2
      | error e => rfl

/-- For a name of at least two components the walked key path is the
name minus its index component. -/
theorem memberKeyPath_cons (i : String) (p : List String) (hp : p ≠ []) :
    memberKeyPath (i :: p) = p := by
  obtain ⟨q, qs, rfl⟩ : ∃ q qs, p = q :: qs := by
    cases p with
    | nil => exact absurd rfl hp
    | cons q qs => exact ⟨q, qs, rfl⟩
  rw [memberKeyPath, if_pos (by simp)]
  rfl

theorem composeFeature_cons2 (a b : TarMember) (l : List TarMember) :
    composeFeature (a :: b :: l) =
      match composeNested .nil (a :: b :: l) with
      | .ok nested => .ok (transformNode (.dict nested))
      | .error e => .error e := rfl

/-- _compose_feature rebuilds a packed good tree (leaves as streams). -/
theorem composeFeature_membersOf (I : String) (t : PyVal)
    (h : goodTreeB t = true) :
    composeFeature (membersOf [I] t) = .ok (readBack t) := by
  cases t with
  | bytes b => rfl
  | none => rfl
  | dict es =>
    have hparts : (¬ es = .nil) ∧ goodDictB es = true := by
      simpa [goodTreeB, Bool.and_eq_true, decide_eq_true_eq] using h
    have hfiles := membersOfDict_files es [I]
    have hfr_ne := filesRelDict_ne_nil es hparts.1 hparts.2
    have hmne : membersOfDict [I] es ≠ [] := by
      intro h0
      rw [h0] at hfiles
      exact hfr_ne (by simpa using hfiles.symm)
    obtain ⟨m1, ms1, hms⟩ : ∃ m1 ms1, membersOfDict [I] es = m1 :: ms1 := by
      cases hcase : membersOfDict [I] es with
      | nil => exact absurd hcase hmne
      | cons m1 ms1 => exact ⟨m1, ms1, rfl⟩
    rw [show membersOf [I] (PyVal.dict es) =
      addDirMember [I] :: membersOfDict [I] es from rfl, hms,
      composeFeature_cons2, ← hms, composeNested_eq]
    rw [show (addDirMember [I] :: membersOfDict [I] es).filter
        (fun m => !m.isdir) =
      (membersOfDict [I] es).filter (fun m => !m.isdir) from by
        simp [List.filter_cons, addDirMember]]
    rw [hfiles, List.map_map]
    rw [List.map_congr_left (fun p hp => by
      have hne2 := filesRelDict_path_ne es p hp
      show (memberKeyPath (([I] ++ p.1 : List String)), p.2) = id p
      rw [show ([I] ++ p.1 : List String) = I :: p.1 from rfl,
        memberKeyPath_cons I p.1 hne2]
      exact Prod.mk.eta), List.map_id]
    rw [insertPairs_dict es .nil hparts.2 (fun _ _ => rfl)]
    show Except.ok (transformNode (.dict (rawOfDict es))) =
      Except.ok (readBack (.dict es))
    rw [show PyVal.dict (rawOfDict es) = rawOf (.dict es) from rfl,
      transformNode_rawOf _ h]
  | list es =>
    have hparts : (¬ es = .nil) ∧ goodListB es = true := by
      simpa [goodTreeB, Bool.and_eq_true, decide_eq_true_eq] using h
    have hfiles := membersOfList_files es [I] 0
    have hfr_ne := filesRelList_ne_nil es 0 hparts.1 hparts.2
    have hmne : membersOfList [I] 0 es ≠ [] := by
      intro h0
      rw [h0] at hfiles
      exact hfr_ne (by simpa using hfiles.symm)
    obtain ⟨m1, ms1, hms⟩ : ∃ m1 ms1, membersOfList [I] 0 es = m1 :: ms1 := by
      cases hcase : membersOfList [I] 0 es with
      | nil => exact absurd hcase hmne
      | cons m1 ms1 => exact ⟨m1, ms1, rfl⟩
    rw [show membersOf [I] (PyVal.list es) =
      addDirMember [I] :: membersOfList [I] 0 es from rfl, hms,
      composeFeature_cons2, ← hms, composeNested_eq]
    rw [show (addDirMember [I] :: membersOfList [I] 0 es).filter
        (fun m => !m.isdir) =
      (membersOfList [I] 0 es).filter (fun m => !m.isdir) from by
        simp [List.filter_cons, addDirMember]]
    rw [hfiles, List.map_map]
    rw [List.map_congr_left (fun p hp => by
      have hne2 := filesRelList_path_ne es 0 p hp
      show (memberKeyPath (([I] ++ p.1 : List String)), p.2) = id p
      rw [show ([I] ++ p.1 : List String) = I :: p.1 from rfl,
        memberKeyPath_cons I p.1 hne2]
      exact Prod.mk.eta), List.map_id]
    rw [insertPairs_list es .nil 0 hparts.2 (fun _ _ => rfl)]
    show Except.ok (transformNode (.dict (rawOfList 0 es))) =
      Except.ok (readBack (.list es))
    rw [show PyVal.dict (rawOfList 0 es) = rawOf (.list es) from rfl,
      transformNode_rawOf _ h]
  | bool b => simp [goodTreeB] at h
  | int i => simp [goodTreeB] at h
  | str s => simp [goodTreeB] at h
  | arr a => simp [goodTreeB] at h
  | stream s => simp [goodTreeB] at h
  | audioDecoder a b c d e => simp [goodTreeB] at h

theorem membersOf_ne_nil (pfx : List String) (t : PyVal)
    (h : goodTreeB t = true) : membersOf pfx t ≠ [] := by
  cases t with
  | bytes b => simp [membersOf]
  | none => simp [membersOf]
  | dict es => simp [membersOf]
  | list es => simp [membersOf]
  | bool b => simp [goodTreeB] at h
  | int i => simp [goodTreeB] at h
  | str s => simp [goodTreeB] at h
  | arr a => simp [goodTreeB] at h
  | stream s => simp [goodTreeB] at h
  | audioDecoder a b c d e => simp [goodTreeB] at h

/-- C1: amended tar layout fidelity.  For a slash-free index and a good
record tree (nonempty string-keyed dicts with distinct, slash-free,
non-digit keys or nonempty lists inside, bytes or None at the leaves),
packing with _write_to_tar and unpacking the member sequence with
_feature_stream / _compose_feature yields the single group (I, tree)
with bytes leaves read back verbatim as streams, None leaves as
zero-length streams, and list order reconstructed.  The claim's
unrestricted form fails on empty containers (see the counterexample):
an empty dict or list leaves only directory entries behind and is read
back as the empty list. -/
theorem c1_tar_roundtrip (I : String) (t : PyVal)
    (hI : I.data.contains '/' = false) (ht : goodTreeB t = true) :
    ∃ (ms : List TarMember) (n : Nat), writeToTar [I] t = .ok (ms, n) ∧
      featureStream ms = [(I, .ok (readBack t))] := by
  obtain ⟨n, hw⟩ := writeToTar_eq t [I] ht
  refine ⟨membersOf [I] t, n, hw, ?_⟩
  obtain ⟨m1, ms1, hms⟩ : ∃ m1 ms1, membersOf [I] t = m1 :: ms1 := by
    cases hcase : membersOf [I] t with
    | nil => exact absurd hcase (membersOf_ne_nil [I] t ht)
    | cons m1 ms1 => exact ⟨m1, ms1, rfl⟩
  have hidx : ∀ x ∈ m1 :: ms1, tarIndex x = I := by
    rw [← hms]
    intro x hx
    exact membersOf_head t I [] x hx
  rw [featureStream, hms, featureGroups_all I m1 ms1 hidx, ← hms]
  simp only [List.map_cons, List.map_nil]
  rw [composeFeature_membersOf I t ht]

/-- C1 witness: the singleton record {"k": bytes [1, 2]} under index
"i" packs and unpacks to itself, the leaf read back as a stream. -/
theorem c1_tar_roundtrip_witness :
    ∃ (ms : List TarMember) (n : Nat),
      writeToTar ["i"] (.dict (.cons "k" (.bytes (.raw [1, 2])) .nil)) =
        .ok (ms, n) ∧
      featureStream ms =
        [("i", .ok (readBack
          (.dict (.cons "k" (.bytes (.raw [1, 2])) .nil))))] :=
  c1_tar_roundtrip "i" (.dict (.cons "k" (.bytes (.raw [1, 2])) .nil))
    (by decide) (by decide)

/-- C1 counterexample: the tree {"a": []} is an interior-noded tree with
a string-keyed mapping and an ordered list, yet packing it under index
"i" and unpacking yields the empty list, not the tree: the empty list
leaves only directory entries behind, composition skips them all, and
the vacuously all-digit empty mapping becomes []. -/
theorem c1_counterexample :
    writeToTar ["i"] (.dict (.cons "a" (.list .nil) .nil)) =
      .ok ([addDirMember ["i"], addDirMember ["i", "a"]], 0) ∧
    featureStream [addDirMember ["i"], addDirMember ["i", "a"]] =
      [("i", .ok (.list .nil))] ∧
    PyVal.list .nil ≠ PyVal.dict (.cons "a" (.list .nil) .nil) := by
  decide

theorem composeNested_all_dir : ∀ (ms : List TarMember) (d : PyDict),
    (∀ m ∈ ms, m.isdir = true) → composeNested d ms = .ok d
  | [], _, _ => rfl
  | m :: rest, d, h => by
    rw [composeNested, if_pos (h m (List.mem_cons_self _ _))]
    exact composeNested_all_dir rest d
      (fun x hx => h x (List.mem_cons_of_mem _ hx))

/-- C10: a group of two or more members that are all directory entries
composes to the empty list: every member is skipped, the nested mapping
stays empty, and _transform_dict turns the empty mapping (whose keys
are vacuously all digits) into [] — never an empty mapping.  The second
conjunct is that vacuous conversion itself. -/
theorem c10_empty_group_is_list :
    (∀ group : List TarMember, 2 ≤ group.length →
      (∀ m ∈ group, m.isdir = true) →
      composeFeature group = .ok (.list .nil)) ∧
    transformNode (.dict .nil) = .list .nil := by
  constructor
  · intro group h2 hdir
    obtain ⟨a, b, l, rfl⟩ : ∃ a b l, group = a :: b :: l := by
      cases group with
      | nil => simp at h2
      | cons a rest =>
        cases rest with
        | nil => simp at h2
        | cons b l => exact ⟨a, b, l, rfl⟩
    rw [composeFeature_cons2, composeNested_all_dir _ _ hdir]
    rfl
  · decide

/-- C10 witness: a concrete all-directory group (a packed empty list)
composes to []. -/
theorem c10_empty_group_is_list_witness :
    composeFeature [addDirMember ["j"], addDirMember ["j", "x"]] =
      .ok (.list .nil) :=
  c10_empty_group_is_list.1 [addDirMember ["j"], addDirMember ["j", "x"]]
    (by decide) (by decide)

/-- The shard writer's state mid-run: shard number q is open holding c
records and sz bytes, q full shards are already in the manifest. -/
def shardMid (M S q c sz tc : Nat) : ShardWriterState :=
  ⟨M, S, true, some q, q + 1, c, sz, tc,
   (List.range q).map shardBasename, (List.range (q + 1)).map shardBasename⟩

theorem shardWrite_no_roll (M S q c sz tc s : Nat) (hc : c < M)
    (hsz : ¬ sz > S) :
    shardWrite (shardMid M S q c sz tc) s =
      shardMid M S q (c + 1) (sz + s) (tc + 1) := by
  rw [shardWrite, if_neg (by
    push_neg
    refine ⟨by simp [shardMid], by simp [shardMid]; omega,
      by simp [shardMid]; omega⟩)]
  simp [shardMid]

theorem shardWrite_roll (M S q sz tc s : Nat) :
    shardWrite (shardMid M S q M sz tc) s =
      shardMid M S (q + 1) 1 s (tc + 1) := by
  rw [shardWrite, if_pos (by right; left; simp [shardMid])]
  rw [shardNextStream, shardFinish, if_pos (by simp [shardMid])]
  simp [shardMid, List.range_succ]

/-- The write loop from any mid-run state: counts roll every M records,
no byte roll fires while the whole remaining budget fits, and both file
lists stay the shard basenames in creation order. -/
theorem shardLoop : ∀ (l : List Nat) (M S q c sz tc : Nat), 1 ≤ M → 1 ≤ c →
    c ≤ M → sz + l.sum ≤ S →
    ∃ sz2, l.foldl shardWrite (shardMid M S q c sz tc) =
      shardMid M S (q + (c + l.length - 1) / M) ((c + l.length - 1) % M + 1)
        sz2 (tc + l.length)
  | [], M, S, q, c, sz, tc, _, hc1, hcM, _ => by
    refine ⟨sz, ?_⟩
    rw [List.foldl_nil]
    have h2 : (c + ([] : List Nat).length - 1) / M = 0 := by
      rw [show c + ([] : List Nat).length - 1 = c - 1 from by simp]
      exact Nat.div_eq_of_lt (by omega)
    have h3 : (c + ([] : List Nat).length - 1) % M + 1 = c := by
      rw [show c + ([] : List Nat).length - 1 = c - 1 from by simp,
        Nat.mod_eq_of_lt (by omega)]
      omega
    rw [h2, h3, Nat.add_zero,
      show tc + ([] : List Nat).length = tc from by simp]
  | s :: rest, M, S, q, c, sz, tc, hM, hc1, hcM, hsum => by
    rw [List.foldl_cons]
    have hsum2 : sz + s + rest.sum ≤ S := by
      simp only [List.sum_cons] at hsum
      omega
    by_cases hc : c = M
    · subst hc
      rw [shardWrite_roll]
      obtain ⟨sz2, hrest⟩ := shardLoop rest c S (q + 1) 1 s (tc + 1) hM
        (Nat.le_refl 1) hM (by omega)
      refine ⟨sz2, ?_⟩
      rw [hrest]
      have hq : q + 1 + (1 + rest.length - 1) / c =
          q + (c + (s :: rest).length - 1) / c := by
        rw [show 1 + rest.length - 1 = rest.length from by omega,
          show c + (s :: rest).length - 1 = rest.length + c from by
            simp only [List.length_cons]; omega,
          Nat.add_div_right _ (by omega)]
        omega
      have hr : (1 + rest.length - 1) % c =
          (c + (s :: rest).length - 1) % c := by
        rw [show 1 + rest.length - 1 = rest.length from by omega,
          show c + (s :: rest).length - 1 = rest.length + c from by
            simp only [List.length_cons]; omega,
          Nat.add_mod_right]
      rw [hq, hr, show tc + 1 + rest.length = tc + (s :: rest).length from by
        simp only [List.length_cons]; omega]
    · have hlt : c < M := by omega
      rw [shardWrite_no_roll M S q c sz tc s hlt (by omega)]
      obtain ⟨sz2, hrest⟩ := shardLoop rest M S q (c + 1) (sz + s) (tc + 1) hM
        (by omega) (by omega) (by omega)
      refine ⟨sz2, ?_⟩
      rw [hrest]
      rw [show c + 1 + rest.length - 1 = c + (s :: rest).length - 1 from by
        simp only [List.length_cons]; omega,
        show tc + 1 + rest.length = tc + (s :: rest).length from by
        simp only [List.length_cons]; omega]

theorem shardWrite_first (M S s : Nat) (hM : 1 ≤ M) :
    shardWrite (shardInit M S) s = shardMid M S 0 1 s 1 := by
  rw [show shardInit M S =
    ⟨M, S, true, some 0, 1, 0, 0, 0, [], [shardBasename 0]⟩ from rfl]
  rw [shardWrite, if_neg (by
    push_neg
    refine ⟨by simp, by simp; omega, by simp⟩)]
  simp [shardMid, List.range_succ]

/-- C3: amended shard rolling count.  With max_count M ≥ 1 and a byte
budget covering every record (so no byte-size roll fires), writing
N ≥ 1 records and closing yields exactly ⌈N/M⌉ = (N + M - 1) / M shard
files; the manifest file_list and the created-file list are exactly
those shard basenames in creation order.  The claim's N = 0 case fails
(see the counterexample): construction already opens shard 0, so an
empty run still produces one shard file, not ⌈0/M⌉ = 0. -/
theorem c3_shard_count (M S : Nat) (sizes : List Nat) (hM : 1 ≤ M)
    (hS : sizes.sum ≤ S) (hne : sizes ≠ []) :
    (shardRun M S sizes).file_list =
      (List.range ((sizes.length - 1) / M + 1)).map shardBasename ∧
    (shardRun M S sizes).files_created = (shardRun M S sizes).file_list ∧
    (shardRun M S sizes).file_list.length = (sizes.length + M - 1) / M := by
  obtain ⟨s, rest, rfl⟩ : ∃ s rest, sizes = s :: rest := by
    cases sizes with
    | nil => exact absurd rfl hne
    | cons s rest => exact ⟨s, rest, rfl⟩
  have hsum : s + rest.sum ≤ S := by simpa [List.sum_cons] using hS
  obtain ⟨sz2, hloop⟩ := shardLoop rest M S 0 1 s 1 hM (Nat.le_refl 1) hM hsum
  have hrun : shardRun M S (s :: rest) =
      shardFinish (shardMid M S (0 + (1 + rest.length - 1) / M)
        ((1 + rest.length - 1) % M + 1) sz2 (1 + rest.length)) := by
    rw [shardRun, List.foldl_cons, shardWrite_first M S s hM, hloop, shardClose]
  have hfl : (shardRun M S (s :: rest)).file_list =
      (List.range (0 + (1 + rest.length - 1) / M + 1)).map shardBasename := by
    rw [hrun, shardFinish, if_pos (by simp [shardMid])]
    simp [shardMid, List.range_succ]
  have hfc : (shardRun M S (s :: rest)).files_created =
      (List.range (0 + (1 + rest.length - 1) / M + 1)).map shardBasename := by
    rw [hrun, shardFinish, if_pos (by simp [shardMid])]
    simp [shardMid]
  have hQ : 0 + (1 + rest.length - 1) / M = ((s :: rest).length - 1) / M := by
    rw [show 1 + rest.length - 1 = rest.length from by omega,
      show (s :: rest).length - 1 = rest.length from by
        simp only [List.length_cons]; omega]
    omega
  refine ⟨by rw [hfl, hQ], by rw [hfc, hfl], ?_⟩
  rw [hfl]
  simp only [List.length_map, List.length_range]
  rw [show 1 + rest.length - 1 = rest.length from by omega,
    show (s :: rest).length + M - 1 = rest.length + M from by
      simp only [List.length_cons]; omega,
    Nat.add_div_right _ (by omega)]
  omega

/-- C3 witness: three zero-size records with max_count 2 roll into
⌈3/2⌉ = 2 shard files, listed in creation order. -/
theorem c3_shard_count_witness :
    (shardRun 2 0 [0, 0, 0]).file_list =
      (List.range (([0, 0, 0].length - 1) / 2 + 1)).map shardBasename ∧
    (shardRun 2 0 [0, 0, 0]).files_created =
      (shardRun 2 0 [0, 0, 0]).file_list ∧
    (shardRun 2 0 [0, 0, 0]).file_list.length = ([0, 0, 0].length + 2 - 1) / 2 :=
  c3_shard_count 2 0 [0, 0, 0] (by decide) (by decide) (by decide)

/-- C3 counterexample: with max_count 1 and no records, the writer
still creates and lists one shard file, though ⌈0/1⌉ = 0. -/
theorem c3_counterexample :
    (shardRun 1 0 []).file_list = [shardBasename 0] ∧
    (shardRun 1 0 []).file_list.length = 1 ∧ (0 + 1 - 1) / 1 = 0 := by
  decide

deriving instance DecidableEq for TarWriterState

/-- C7: index uniqueness within a shard.  After TarWriter.write(i, r1)
succeeds, a second write of any record under the same index fails with
ValueError before touching the stream: the state — members written and
the set of recorded indices — is returned unchanged.  (The duplicate
check fires even before the column check can pass, so the result is the
same ValueError for any dict-shaped second record.) -/
theorem c7_index_unique (st : TarWriterState) (i : String) (r1 : PyVal)
    (od2 : PyDict) (st1 : TarWriterState) (n : Nat)
    (h : tarWriterWrite st i r1 = (st1, .ok n)) :
    tarWriterWrite st1 i (.dict od2) = (st1, .error .valueError) := by
  have hcont : st1.written_idx.contains i = true := by
    cases r1 with
    | dict od1 =>
      rw [tarWriterWrite] at h
      split at h
      · simp at h
      · split at h
        · simp at h
        · split at h
          · simp at h
          · split at h
            · simp at h
            · simp only [Prod.mk.injEq] at h
              rw [← h.1]
              simp
    | none => simp [tarWriterWrite] at h
    | bool b => simp [tarWriterWrite] at h
    | int m => simp [tarWriterWrite] at h
    | str s => simp [tarWriterWrite] at h
    | bytes b => simp [tarWriterWrite] at h
    | list l => simp [tarWriterWrite] at h
    | arr a => simp [tarWriterWrite] at h
    | stream s => simp [tarWriterWrite] at h
    | audioDecoder a b c d e => simp [tarWriterWrite] at h
  rw [tarWriterWrite]
  by_cases hk : keySetEq od2.keys st1.features.keys = true
  · rw [if_neg (not_not_intro hk), if_pos hcont]
  · rw [if_pos hk]

/-- C7 witness: a concrete double write of index "0" on the empty
schema — the second call fails with ValueError and returns the state of
the first unchanged. -/
theorem c7_index_unique_witness :
    tarWriterWrite (tarWriterWrite (tarWriterInit .nil) "0" (.dict .nil)).1
        "0" (.dict .nil) =
      ((tarWriterWrite (tarWriterInit .nil) "0" (.dict .nil)).1,
        .error .valueError) :=
  c7_index_unique (tarWriterInit .nil) "0" (.dict .nil) .nil
    (tarWriterWrite (tarWriterInit .nil) "0" (.dict .nil)).1 0 (by decide)

/-- C6: amended string-as-list rejection.  For every Sequence schema
whose feature is not a mapping, encode_nested_example applied to a
string value does reject it — but with ValueError, not the TypeError
the claim states (the source raises ValueError("Got a string but
expected a list instead") before ever iterating the string). -/
theorem c6_string_rejected (sub : Schema) (len : Int) (s : String)
    (level : Nat) :
    encode_nested_example (.sequence (.featPlain sub) len) (.str s) level =
      .error .valueError ∧ (PyErr.valueError ≠ PyErr.typeError) :=
  ⟨rfl, by decide⟩

/-- C6 counterexample: encoding the string "abc" against
Sequence(Text()) raises ValueError, not the TypeError the claim
names. -/
theorem c6_counterexample :
    encode_nested_example (.sequence (.featPlain .text) (-1)) (.str "abc") 0 =
      .error .valueError ∧
    encode_nested_example (.sequence (.featPlain .text) (-1)) (.str "abc") 0 ≠
      .error .typeError := by
  decide

/-! ## The Sequence-of-struct transform as the spec words it

Spec-side definitions, written from the claim: a list of structs
reshapes to a struct of per-field lists, a struct of lists keeps its
shape with each list element encoded, and decoding restores the struct
of per-field decoded lists (never a list of structs). -/

/-- The claim's per-field gather: field k of every struct in order,
each encoded against the field's feature. -/
def fieldGather (sub : Schema) (k : String) (structs : List PyVal)
    (level : Nat) : Except PyErr (List PyVal) :=
  structs.mapM (fun o =>
    match o with
    | PyVal.dict od =>
      match od.lookup k with
      | some v => encode_nested_example sub v (level + 1)
      | Option.none => .error .keyError
    | _ => .error .typeError)

/-- The claim's struct-of-lists: one entry per schema field, holding
the gathered list. -/
def specStructOfLists : SchemaDict → List PyVal → Nat → Except PyErr PyDict
  | .nil, _, _ => .ok .nil
  | .cons k sub rest, structs, level =>
    match fieldGather sub k structs level with
    | .error e => .error e
    | .ok vs =>
      match specStructOfLists rest structs level with
      | .error e => .error e
      | .ok out => .ok (.cons k (.list (PyList.ofList vs)) out)

/-- The claim's pass-through case: a single struct whose values are
lists keeps its shape, each list element encoded. -/
def specStructSingle : SchemaDict → PyDict → Nat → Except PyErr PyDict
  | .nil, _, _ => .ok .nil
  | .cons k sub rest, od, level =>
    match od.lookup k with
    | Option.none => .error .keyError
    | some (PyVal.list vs) =>
      match vs.toList.mapM (fun o => encode_nested_example sub o (level + 1)) with
      | .error e => .error e
      | .ok out =>
        match specStructSingle rest od level with
        | .error e => .error e
        | .ok rest2 => .ok (.cons k (.list (PyList.ofList out)) rest2)
    | some _ => .error .typeError

/-- The claim's decode: one entry per schema field, the field's list
decoded elementwise — a struct of lists. -/
def specSeqStructDecode : SchemaDict → PyDict → Except PyErr PyDict
  | .nil, _ => .ok .nil
  | .cons k sub rest, od =>
    match od.lookup k with
    | Option.none => .error .keyError
    | some (PyVal.list vs) =>
      match vs.toList.mapM (fun o => decode_nested_example sub o) with
      | .error e => .error e
      | .ok out =>
        match specSeqStructDecode rest od with
        | .error e => .error e
        | .ok rest2 => .ok (.cons k (.list (PyList.ofList out)) rest2)
    | some _ => .error .typeError

theorem encodeStructLists_spec : ∀ (fs : SchemaDict) (structs : List PyVal)
    (level : Nat),
    encodeStructLists fs structs level = specStructOfLists fs structs level
  | .nil, _, _ => rfl
  | .cons k sub rest, structs, level => by
    rw [encodeStructLists, specStructOfLists]
    rw [show fieldGather sub k structs level = structs.mapM (fun o =>
      match o with
      | PyVal.dict od =>
        match od.lookup k with
        | some v => encode_nested_example sub v (level + 1)
        | Option.none => .error .keyError
      | _ => .error .typeError) from rfl]
    cases structs.mapM (fun o =>
      match o with
      | PyVal.dict od =>
        match od.lookup k with
        | some v => encode_nested_example sub v (level + 1)
        | Option.none => .error .keyError
      | _ => .error .typeError) with
    | error e => rfl
    | ok vs =>
      show (match encodeStructLists rest structs level with
        | Except.error e => (Except.error e : Except PyErr PyDict)
        | Except.ok out => Except.ok (.cons k (.list (PyList.ofList vs)) out)) =
        (match specStructOfLists rest structs level with
        | Except.error e => (Except.error e : Except PyErr PyDict)
        | Except.ok out => Except.ok (.cons k (.list (PyList.ofList vs)) out))
      rw [encodeStructLists_spec rest structs level]

theorem encodeStructSingle_spec : ∀ (fs : SchemaDict) (od : PyDict)
    (level : Nat),
    (∀ k v, od.lookup k = some v → ∃ vs, v = PyVal.list vs) →
    encodeStructSingle fs od level = specStructSingle fs od level
  | .nil, _, _, _ => rfl
  | .cons k sub rest, od, level, hvals => by
    rw [encodeStructSingle, specStructSingle]
    cases hlk : od.lookup k with
    | none => rfl
    | some v =>
      obtain ⟨vs, rfl⟩ := hvals k v hlk
      show (match pyIterate (.list vs) with
        | Except.error e => (Except.error e : Except PyErr PyDict)
        | Except.ok elems =>
          match elems.mapM (fun o => encode_nested_example sub o (level + 1)) with
          | Except.error e => Except.error e
          | Except.ok out =>
            match encodeStructSingle rest od level with
            | Except.error e => Except.error e
            | Except.ok rest2 =>
              Except.ok (.cons k (.list (PyList.ofList out)) rest2)) =
        (match vs.toList.mapM (fun o => encode_nested_example sub o (level + 1)) with
        | Except.error e => (Except.error e : Except PyErr PyDict)
        | Except.ok out =>
          match specStructSingle rest od level with
          | Except.error e => Except.error e
          | Except.ok rest2 =>
            Except.ok (.cons k (.list (PyList.ofList out)) rest2))
      rw [show pyIterate (.list vs) = .ok vs.toList from rfl]
      show (match vs.toList.mapM (fun o => encode_nested_example sub o (level + 1)) with
        | Except.error e => (Except.error e : Except PyErr PyDict)
        | Except.ok out =>
          match encodeStructSingle rest od level with
          | Except.error e => Except.error e
          | Except.ok rest2 =>
            Except.ok (.cons k (.list (PyList.ofList out)) rest2)) = _
      cases vs.toList.mapM (fun o => encode_nested_example sub o (level + 1)) with
      | error e => rfl
      | ok out =>
        show (match encodeStructSingle rest od level with
          | Except.error e => (Except.error e : Except PyErr PyDict)
          | Except.ok rest2 =>
            Except.ok (.cons k (.list (PyList.ofList out)) rest2)) = _
        rw [encodeStructSingle_spec rest od level hvals]

theorem decodeSeqStruct_spec : ∀ (fs : SchemaDict) (od : PyDict),
    (∀ k v, od.lookup k = some v → ∃ vs, v = PyVal.list vs) →
    decodeSeqStruct fs (.dict od) = specSeqStructDecode fs od
  | .nil, _, _ => rfl
  | .cons k sub rest, od, hvals => by
    rw [decodeSeqStruct, specSeqStructDecode]
    cases hlk : od.lookup k with
    | none => simp only [hlk]
    | some v =>
      obtain ⟨vs, rfl⟩ := hvals k v hlk
      simp only [hlk]
      rw [show pyIterate (.list vs) = .ok vs.toList from rfl]
      show (match (if vs.toList.isEmpty = true then Except.ok (PyVal.list .nil)
          else match vs.toList.mapM (fun o => decode_nested_example sub o) with
            | Except.ok out => Except.ok (PyVal.list (PyList.ofList out))
            | Except.error e => Except.error e) with
        | Except.error e => (Except.error e : Except PyErr PyDict)
        | Except.ok dv =>
          match decodeSeqStruct rest (PyVal.dict od) with
          | Except.error e => Except.error e
          | Except.ok out => Except.ok (PyDict.cons k dv out)) = _
      by_cases hemp : vs.toList.isEmpty = true
      · have hnil : vs.toList = [] := by
          cases hv : vs.toList with
          | nil => rfl
          | cons a l => rw [hv] at hemp; simp at hemp
        rw [if_pos hemp, hnil, decodeSeqStruct_spec rest od hvals]
        simp only [List.mapM_nil]
        cases specSeqStructDecode rest od with
        | error e => rfl
        | ok out => rfl
      · rw [if_neg hemp, decodeSeqStruct_spec rest od hvals]
        cases hm : vs.toList.mapM (fun o => decode_nested_example sub o) with
        | error e => rfl
        | ok out => rfl

/-- C2: the Sequence-of-struct transform and its deliberate asymmetry.
For a Sequence whose feature is a mapping: (1) a list of structs, each
with exactly the schema's keys, encodes to the struct of per-field
gathered lists; (2) a single struct whose values are lists passes
through with each list element encoded; (3) decoding a struct restores
the struct of per-field decoded lists — a struct of lists, never
re-inverted to a list of structs. -/
theorem c2_seq_struct_transform (fs : SchemaDict) (len : Int) (level : Nat)
    (structs : PyList) (od : PyDict)
    (hall : ∀ o ∈ structs.toList,
      ∃ d, o = PyVal.dict d ∧ keySetEq fs.keys d.keys = true)
    (hvals : ∀ k v, od.lookup k = some v → ∃ vs, v = PyVal.list vs) :
    (encode_nested_example (.sequence (.featDict fs) len) (.list structs)
        level =
      match specStructOfLists fs structs.toList level with
      | .ok out => .ok (.dict out)
      | .error e => .error e) ∧
    (keySetEq fs.keys od.keys = true →
      encode_nested_example (.sequence (.featDict fs) len) (.dict od) level =
      match specStructSingle fs od level with
      | .ok out => .ok (.dict out)
      | .error e => .error e) ∧
    (decode_nested_example (.sequence (.featDict fs) len) (.dict od) =
      match specSeqStructDecode fs od with
      | .ok out => .ok (.dict out)
      | .error e => .error e) := by
  refine ⟨?_, ?_, ?_⟩
  · have h1 : structs.toList.all (fun o =>
        match o with
        | PyVal.dict _ => true
        | _ => false) = true :=
      List.all_eq_true.mpr (fun o ho => by
        obtain ⟨d, rfl, _⟩ := hall o ho
        rfl)
    have h2 : structs.toList.all (fun o =>
        match o with
        | PyVal.dict d => keySetEq fs.keys d.keys
        | _ => false) = true :=
      List.all_eq_true.mpr (fun o ho => by
        obtain ⟨d, rfl, hk⟩ := hall o ho
        exact hk)
    rw [encode_nested_example, if_pos h1, if_pos h2,
      encodeStructLists_spec fs structs.toList level]
  · intro hks
    rw [encode_nested_example, if_pos hks,
      encodeStructSingle_spec fs od level hvals]
  · rw [decode_nested_example, decodeSeqStruct_spec fs od hvals]

/-- C2 witness: schema {a: Text}, the two-struct list
[{a: "x"}, {a: "y"}] and the struct-of-lists {a: ["x"]}. -/
theorem c2_seq_struct_transform_witness :
    (encode_nested_example
        (.sequence (.featDict (.cons "a" .text .nil)) (-1))
        (.list (.cons (.dict (.cons "a" (.str "x") .nil))
          (.cons (.dict (.cons "a" (.str "y") .nil)) .nil))) 0 =
      match specStructOfLists (.cons "a" .text .nil)
          (PyList.cons (.dict (.cons "a" (.str "x") .nil))
            (.cons (.dict (.cons "a" (.str "y") .nil)) .nil)).toList 0 with
      | .ok out => .ok (.dict out)
      | .error e => .error e) ∧
    (encode_nested_example
        (.sequence (.featDict (.cons "a" .text .nil)) (-1))
        (.dict (.cons "a" (.list (.cons (.str "x") .nil)) .nil)) 0 =
      match specStructSingle (.cons "a" .text .nil)
          (.cons "a" (.list (.cons (.str "x") .nil)) .nil) 0 with
      | .ok out => .ok (.dict out)
      | .error e => .error e) ∧
    (decode_nested_example
        (.sequence (.featDict (.cons "a" .text .nil)) (-1))
        (.dict (.cons "a" (.list (.cons (.str "x") .nil)) .nil)) =
      match specSeqStructDecode (.cons "a" .text .nil)
          (.cons "a" (.list (.cons (.str "x") .nil)) .nil) with
      | .ok out => .ok (.dict out)
      | .error e => .error e) := by
  have h := c2_seq_struct_transform (.cons "a" .text .nil) (-1) 0
    (.cons (.dict (.cons "a" (.str "x") .nil))
      (.cons (.dict (.cons "a" (.str "y") .nil)) .nil))
    (.cons "a" (.list (.cons (.str "x") .nil)) .nil)
    (by
      intro o ho
      simp only [PyList.toList, List.mem_cons, List.not_mem_nil,
        or_false] at ho
      rcases ho with rfl | rfl
      · exact ⟨_, rfl, by decide⟩
      · exact ⟨_, rfl, by decide⟩)
    (by
      intro k v hkv
      rw [PyDict.lookup] at hkv
      by_cases hk : "a" = k
      · rw [if_pos hk] at hkv
        simp only [Option.some.injEq] at hkv
        exact ⟨_, hkv.symm⟩
      · rw [if_neg hk] at hkv
        simp [PyDict.lookup] at hkv)
  exact ⟨h.1, h.2.1 (by decide), h.2.2⟩

theorem PyBytes.nonempty_of_len_zero (c : PyBytes) (h : c.len = 0) :
    c.nonempty = false := by
  cases c with
  | raw bs =>
    cases bs with
    | nil => rfl
    | cons a l => simp [PyBytes.len] at h
  | utf8 s =>
    simp only [PyBytes.len] at h
    simp [PyBytes.nonempty, String.isEmpty, String.endPos, h]

/-- C4: amended null propagation on empty stream.  Text, Tensor and
Scalar decode a stream handle by fully reading and closing it, and a
zero-length read yields None.  Json also reads and closes the handle,
but a zero-length read does NOT propagate null: json.loads(None) raises
TypeError.  Audio does not follow the rule at all: its decode wraps the
handle in an AudioDecoder without reading or closing it. -/
theorem c4_empty_stream (c : PyBytes) (hlen : c.len = 0)
    (shape : List (Option Nat)) (dtype : String) (sr : Option Int) :
    ((leafDecode .text (.stream c)).result = .ok .none ∧
      (leafDecode .text (.stream c)).readAll = true ∧
      (leafDecode .text (.stream c)).closed = true) ∧
    ((leafDecode .json (.stream c)).result = .error .typeError ∧
      (leafDecode .json (.stream c)).readAll = true ∧
      (leafDecode .json (.stream c)).closed = true) ∧
    ((leafDecode (.tensor shape dtype) (.stream c)).result = .ok .none ∧
      (leafDecode (.tensor shape dtype) (.stream c)).readAll = true ∧
      (leafDecode (.tensor shape dtype) (.stream c)).closed = true) ∧
    ((leafDecode (.scalar dtype) (.stream c)).result = .ok .none ∧
      (leafDecode (.scalar dtype) (.stream c)).readAll = true ∧
      (leafDecode (.scalar dtype) (.stream c)).closed = true) ∧
    ((leafDecode (.audio shape dtype sr) (.stream c)).readAll = false ∧
      (leafDecode (.audio shape dtype sr) (.stream c)).closed = false ∧
      (leafDecode (.audio shape dtype sr) (.stream c)).result =
        .ok (.audioDecoder true c dtype shape sr)) := by
  have hne : c.nonempty = false := PyBytes.nonempty_of_len_zero c hlen
  refine ⟨⟨?_, ?_, ?_⟩, ⟨?_, ?_, ?_⟩, ⟨?_, ?_, ?_⟩, ⟨?_, ?_, ?_⟩,
    ⟨?_, ?_, ?_⟩⟩ <;>
    simp [leafDecode, textDecode, jsonDecode, tensorDecode, audioDecode,
      jsonLoads, hne]

/-- C4 witness: the empty raw stream under Text/Json/Tensor/Scalar/
Audio at a concrete shape and dtype. -/
theorem c4_empty_stream_witness :
    ((leafDecode .text (.stream (.raw []))).result = .ok .none ∧
      (leafDecode .text (.stream (.raw []))).readAll = true ∧
      (leafDecode .text (.stream (.raw []))).closed = true) ∧
    ((leafDecode .json (.stream (.raw []))).result = .error .typeError ∧
      (leafDecode .json (.stream (.raw []))).readAll = true ∧
      (leafDecode .json (.stream (.raw []))).closed = true) ∧
    ((leafDecode (.tensor [Option.none] "int16") (.stream (.raw []))).result
        = .ok .none ∧
      (leafDecode (.tensor [Option.none] "int16")
        (.stream (.raw []))).readAll = true ∧
      (leafDecode (.tensor [Option.none] "int16")
        (.stream (.raw []))).closed = true) ∧
    ((leafDecode (.scalar "int16") (.stream (.raw []))).result = .ok .none ∧
      (leafDecode (.scalar "int16") (.stream (.raw []))).readAll = true ∧
      (leafDecode (.scalar "int16") (.stream (.raw []))).closed = true) ∧
    ((leafDecode (.audio [Option.none] "int16" (some 16000))
        (.stream (.raw []))).readAll = false ∧
      (leafDecode (.audio [Option.none] "int16" (some 16000))
        (.stream (.raw []))).closed = false ∧
      (leafDecode (.audio [Option.none] "int16" (some 16000))
        (.stream (.raw []))).result =
        .ok (.audioDecoder true (.raw []) "int16" [Option.none]
          (some 16000))) :=
  c4_empty_stream (.raw []) (by decide) [Option.none] "int16" (some 16000)

/-- C4 counterexample: Json on a zero-length stream errors instead of
propagating null, and Audio on a nonempty stream returns an unread,
unclosed AudioDecoder handle. -/
theorem c4_counterexample :
    (leafDecode .json (.stream (.raw []))).result = .error .typeError ∧
    (leafDecode .json (.stream (.raw []))).result ≠ .ok .none ∧
    leafDecode (.audio [Option.none] "int16" (some 16000))
        (.stream (.raw [0, 1])) =
      ⟨.ok (.audioDecoder true (.raw [0, 1]) "int16" [Option.none]
        (some 16000)), false, false⟩ := by
  decide

/-- A fully known declared shape compatible with a realized shape is
that shape: the known dims multiply to the same size and the dim list
reads back verbatim. -/
theorem shapeCompatible_known : ∀ (ashape : List Nat)
    (shape : List (Option Nat)), shapeCompatible ashape shape = true →
    shape.countP (fun d => d.isNone) = 0 →
    (shape.filterMap id).prod = ashape.prod ∧
    ∀ x, shape.map (fun d => d.getD x) = ashape
  | [], [], _, _ => ⟨rfl, fun _ => rfl⟩
  | a :: as, some k :: ds, hc, hcnt => by
    simp only [shapeCompatible, Bool.and_eq_true, decide_eq_true_eq] at hc
    have hcnt2 : ds.countP (fun d => d.isNone) = 0 := by
      simpa [List.countP_cons] using hcnt
    obtain ⟨hprod, hmap⟩ := shapeCompatible_known as ds hc.2 hcnt2
    refine ⟨?_, fun x => ?_⟩
    · simp [List.filterMap_cons, List.prod_cons, hprod, hc.1]
    · simp [List.map_cons, Option.getD_some, hc.1, hmap x]
  | a :: as, Option.none :: ds, _, hcnt => by
    simp [List.countP_cons] at hcnt
  | [], _ :: _, hc, _ => by simp [shapeCompatible] at hc
  | _ :: _, [], hc, _ => by simp [shapeCompatible] at hc

/-- A declared shape with one unknown dim, compatible with a realized
shape: the realized size factors through the known dims, the quotient
being the realized dim at the unknown position. -/
theorem shapeCompatible_one_unknown : ∀ (ashape : List Nat)
    (shape : List (Option Nat)), shapeCompatible ashape shape = true →
    shape.countP (fun d => d.isNone) = 1 →
    ∃ u, ashape.prod = (shape.filterMap id).prod * u ∧
      shape.map (fun d => d.getD u) = ashape
  | [], [], _, hcnt => by simp at hcnt
  | a :: as, some k :: ds, hc, hcnt => by
    simp only [shapeCompatible, Bool.and_eq_true, decide_eq_true_eq] at hc
    have hcnt2 : ds.countP (fun d => d.isNone) = 1 := by
      simpa [List.countP_cons] using hcnt
    obtain ⟨u, hu, hmap⟩ := shapeCompatible_one_unknown as ds hc.2 hcnt2
    refine ⟨u, ?_, ?_⟩
    · simp only [List.filterMap_cons, id_eq, List.prod_cons, hu, hc.1]
      ring
    · simp [List.map_cons, Option.getD_some, hc.1, hmap]
  | a :: as, Option.none :: ds, hc, hcnt => by
    simp only [shapeCompatible, Bool.and_eq_true] at hc
    have hcnt2 : ds.countP (fun d => d.isNone) = 0 := by
      simpa [List.countP_cons] using hcnt
    obtain ⟨hprod, hmap⟩ := shapeCompatible_known as ds hc.2 hcnt2
    refine ⟨a, ?_, ?_⟩
    · simp only [List.filterMap_cons, id_eq, List.prod_cons, hprod]
      ring
    · simp [List.map_cons, Option.getD_none, hmap a]
  | [], _ :: _, hc, _ => by simp [shapeCompatible] at hc
  | _ :: _, [], hc, _ => by simp [shapeCompatible] at hc

/-- Reshaping a compatible realized size against a declared shape with
no unknown, or one unknown over nonzero known dims, returns the
realized shape. -/
theorem npReshape_compatible (ashape : List Nat) (shape : List (Option Nat))
    (hc : shapeCompatible ashape shape = true)
    (hunk : shape.countP (fun d => d.isNone) = 0 ∨
      (shape.countP (fun d => d.isNone) = 1 ∧
        (shape.filterMap id).prod ≠ 0)) :
    npReshape ashape.prod shape = .ok ashape := by
  rcases hunk with hz | ⟨ho, hkn⟩
  · obtain ⟨hprod, hmap⟩ := shapeCompatible_known ashape shape hc hz
    simp only [npReshape, hz]
    rw [if_neg (by omega), if_neg (by omega), if_pos hprod]
    exact congrArg Except.ok (hmap 0)
  · obtain ⟨u, hu, hmap⟩ := shapeCompatible_one_unknown ashape shape hc ho
    simp only [npReshape, ho]
    rw [if_neg (by omega), if_pos trivial, if_neg hkn,
      if_pos (by rw [hu]; exact Nat.mul_mod_right _ _)]
    have hdiv : ashape.prod / (shape.filterMap id).prod = u := by
      rw [hu]
      exact Nat.mul_div_cancel_left u (Nat.pos_of_ne_zero hkn)
    rw [hdiv]
    exact congrArg Except.ok hmap

/-- C5: amended leaf round-trip.  Text, Json, Tensor and Scalar decode
their own encoding back: Text gives the string, Json any value its
printer accepts, Tensor any well-formed array of the declared dtype
whose shape fits a declared shape with no unknown dim (or exactly one
unknown dim over nonzero known dims), Scalar any in-range integer (read
back, as numpy does, as the 0-d array holding it — elementwise
equality).  The claim's unrestricted form fails for Audio (decode wraps
the bytes in an AudioDecoder handle, never the encoded value) and for
Tensor shapes with several unknown dims, where reshape raises; see the
counterexample. -/
theorem c5_leaf_roundtrip :
    (∀ s : String, textEncode (.str s) = .ok (.utf8 s) ∧
      (textDecode (.bytes (.utf8 s))).result = .ok (.str s)) ∧
    (∀ (v : PyVal) (s : String), jsonDumps v = .ok s →
      jsonEncode v = .ok (.utf8 s) ∧
      (jsonDecode (.bytes (.utf8 s))).result = .ok v) ∧
    (∀ (shape : List (Option Nat)) (dtype : String) (dt : DType)
        (a : NDArray), dtypeOfName dtype = some dt → a.dtype = dt → a.wf →
      shapeCompatible a.shape shape = true →
      (shape.countP (fun d => d.isNone) = 0 ∨
        (shape.countP (fun d => d.isNone) = 1 ∧
          (shape.filterMap id).prod ≠ 0)) →
      tensorEncode shape dtype (.arr a) = .ok (ndarrayToBytes a) ∧
      (tensorDecode shape dtype (.bytes (ndarrayToBytes a))).result =
        .ok (.arr a)) ∧
    (∀ (dtype : String) (dt : DType) (n : Int), dtypeOfName dtype = some dt →
      dt.inRange n →
      tensorEncode [] dtype (.int n) = .ok (ndarrayToBytes ⟨[], dt, [n]⟩) ∧
      (tensorDecode [] dtype (.bytes (ndarrayToBytes ⟨[], dt, [n]⟩))).result =
        .ok (.arr ⟨[], dt, [n]⟩)) := by
  refine ⟨fun s => ⟨rfl, rfl⟩, fun v s hdump => ⟨?_, ?_⟩, ?_, ?_⟩
  · rw [jsonEncode, hdump]
    rfl
  · show jsonLoads (some s) = .ok v
    exact jsonLoads_jsonDumps v s hdump
  · intro shape dtype dt a hdt hadt hwf hc hunk
    constructor
    · simp only [tensorEncode, hdt]
      rw [if_neg (by rw [hadt]; simp), if_pos hc]
    · have hfb : npFrombuffer (ndarrayToBytes a) dt = .ok a.data := by
        rw [← hadt]
        exact npFrombuffer_toBytes a hwf.2
      have hrs : npReshape a.data.length shape = .ok a.shape := by
        rw [hwf.1]
        exact npReshape_compatible a.shape shape hc hunk
      show tensorDecode.tensorDecodeBytes shape dtype (ndarrayToBytes a) =
        .ok (.arr a)
      simp only [tensorDecode.tensorDecodeBytes, hdt, hfb, hrs]
      rw [← hadt]
  · intro dtype dt n hdt hrange
    constructor
    · have hna : npAsarray (.int n) dt = .ok ⟨[], dt, [n]⟩ := by
        rw [npAsarray, if_pos hrange]
      simp [tensorEncode, hdt, hna, shapeCompatible]
    · have hfb : npFrombuffer (ndarrayToBytes ⟨[], dt, [n]⟩) dt = .ok [n] :=
        npFrombuffer_toBytes ⟨[], dt, [n]⟩ (by
          intro x hx
          simp only [List.mem_singleton] at hx
          rw [hx]
          exact hrange)
      show tensorDecode.tensorDecodeBytes [] dtype (ndarrayToBytes ⟨[], dt, [n]⟩) =
        .ok (.arr ⟨[], dt, [n]⟩)
      simp only [tensorDecode.tensorDecodeBytes, hdt, hfb]
      rfl

/-- C5 witness: "hi" through Text, 7 through Json, the int16 pair
[1, 2] through Tensor at declared shape (2,), and the int16 scalar 5
through Scalar. -/
theorem c5_leaf_roundtrip_witness :
    (textEncode (.str "hi") = .ok (.utf8 "hi") ∧
      (textDecode (.bytes (.utf8 "hi"))).result = .ok (.str "hi")) ∧
    (jsonEncode (.int 7) = .ok (.utf8 "7") ∧
      (jsonDecode (.bytes (.utf8 "7"))).result = .ok (.int 7)) ∧
    (tensorEncode [some 2] "int16" (.arr ⟨[2], .int16, [1, 2]⟩) =
        .ok (ndarrayToBytes ⟨[2], .int16, [1, 2]⟩) ∧
      (tensorDecode [some 2] "int16"
          (.bytes (ndarrayToBytes ⟨[2], .int16, [1, 2]⟩))).result =
        .ok (.arr ⟨[2], .int16, [1, 2]⟩)) ∧
    (tensorEncode [] "int16" (.int 5) =
        .ok (ndarrayToBytes ⟨[], .int16, [5]⟩) ∧
      (tensorDecode [] "int16"
          (.bytes (ndarrayToBytes ⟨[], .int16, [5]⟩))).result =
        .ok (.arr ⟨[], .int16, [5]⟩)) :=
  ⟨c5_leaf_roundtrip.1 "hi",
   c5_leaf_roundtrip.2.1 (.int 7) "7" (by decide),
   c5_leaf_roundtrip.2.2.1 [some 2] "int16" .int16 ⟨[2], .int16, [1, 2]⟩
     (by decide) rfl (by decide) (by decide) (Or.inl (by decide)),
   c5_leaf_roundtrip.2.2.2 "int16" .int16 5 (by decide) (by decide)⟩

/-- C5 counterexample: Audio.decode of Audio.encode of a stream is an
AudioDecoder handle, not the stream; and a Tensor with two unknown
declared dims encodes a valid 1×1 array whose decode then fails in
reshape. -/
theorem c5_counterexample :
    audioEncode (.stream (.raw [1])) = .ok (.raw [1]) ∧
    (audioDecode [Option.none] "int16" (some 8000)
        (.bytes (.raw [1]))).result =
      .ok (.audioDecoder false (.raw [1]) "int16" [Option.none] (some 8000)) ∧
    (PyVal.audioDecoder false (.raw [1]) "int16" [Option.none] (some 8000)) ≠
      .stream (.raw [1]) ∧
    tensorEncode [Option.none, Option.none] "int16"
        (.arr ⟨[1, 1], .int16, [5]⟩) = .ok (.raw [5, 0]) ∧
    (tensorDecode [Option.none, Option.none] "int16"
        (.bytes (.raw [5, 0]))).result = .error .valueError := by
  decide

/-! ## StreamWrapper lifetimes (utils.py StreamWrapper)

A run of wrapper constructions and close/autoclose calls is replayed
over a list of wrapper records indexed by construction order; the
parent reference becomes the parent's index.  The wrapped file object
and name play no part in the counter logic and are omitted. -/

structure SW where
  parent : Option Nat
  child_counter : Int
  close_on_last_child : Bool
  closed : Bool
  deriving DecidableEq, Repr

/-- In-place update of the wrapper at index i. -/
def swModify : List SW → Nat → (SW → SW) → List SW
  | [], _, _ => []
  | w :: rest, 0, f => f w :: rest
  | w :: rest, i + 1, f => w :: swModify rest i f

/-- StreamWrapper.__init__: the new wrapper starts with counter 0,
flag clear, open; a parent reference bumps the parent's counter. -/
def swConstruct (st : List SW) (parent : Option Nat) : List SW :=
  (match parent with
   | Option.none => st
   | some p => swModify st p (fun pw =>
      { pw with child_counter := pw.child_counter + 1 })) ++
  [⟨parent, 0, false, false⟩]

/-- StreamWrapper.close: return if already closed; else decrement the
parent's counter, close the parent too when its counter hits zero and
its close_on_last_child flag is set, and finally mark this wrapper
closed.  The parent chain strictly descends in construction order, so
the fuel only needs to exceed the index. -/
def swClose : Nat → List SW → Nat → List SW
  | 0, st, _ => st
  | fuel + 1, st, i =>
    match st.get? i with
    | Option.none => st
    | some w =>
      if w.closed then st
      else
        let st1 :=
          match w.parent with
          | Option.none => st
          | some p =>
            let st2 := swModify st p (fun pw =>
              { pw with child_counter := pw.child_counter - 1 })
            match st2.get? p with
            | some pw2 =>
              if pw2.child_counter = 0 ∧ pw2.close_on_last_child then
                swClose fuel st2 p
              else st2
            | Option.none => st2
        swModify st1 i (fun w2 => { w2 with closed := true })

/-- StreamWrapper.autoclose: set the flag, and close right away when no
child is open. -/
def swAutoclose (fuel : Nat) (st : List SW) (i : Nat) : List SW :=
  match st.get? i with
  | Option.none => st
  | some w =>
    let st1 := swModify st i (fun w2 =>
      { w2 with close_on_last_child := true })
    if w.child_counter = 0 then swClose fuel st1 i else st1

inductive SWOp where
  | construct (parent : Option Nat)
  | close (i : Nat)
  | autoclose (i : Nat)
  deriving DecidableEq, Repr

def swStep (st : List SW) : SWOp → List SW
  | .construct p => swConstruct st p
  | .close i => swClose (i + 1) st i
  | .autoclose i => swAutoclose (i + 1) st i

def swRun (ops : List SWOp) : List SW := ops.foldl swStep []

/-- An op only ever references wrappers that exist (Python holds real
references: a parent is a StreamWrapper and close/autoclose are method
calls on one). -/
def validOp (n : Nat) : SWOp → Bool
  | .construct (some p) => p < n
  | .construct Option.none => true
  | .close i => i < n
  | .autoclose i => i < n

def validOps : Nat → List SWOp → Bool
  | _, [] => true
  | n, op :: rest =>
    validOp n op &&
    validOps (match op with | .construct _ => n + 1 | _ => n) rest

/-- The wrappers whose parent is index p and which are still open. -/
def countOpenChildren (p : Nat) : List SW → Nat
  | [] => 0
  | w :: rest =>
    (if w.parent = some p ∧ w.closed = false then 1 else 0) +
      countOpenChildren p rest

/-- The reference-count invariant: every wrapper's child counter is the
number of its still-open children. -/
def swInv (st : List SW) : Prop :=
  ∀ i w, st.get? i = some w →
    w.child_counter = (countOpenChildren i st : Int)

/-- Parent references strictly descend in construction order. -/
def swWf (st : List SW) : Prop :=
  ∀ i w p, st.get? i = some w → w.parent = some p → p < i

theorem swModify_get? : ∀ (st : List SW) (i : Nat) (f : SW → SW) (j : Nat),
    (swModify st i f).get? j =
      if i = j then Option.map f (st.get? j) else st.get? j
  | [], i, f, j => by
    simp [swModify]
  | w :: rest, 0, f, j => by
    cases j with
    | zero => simp [swModify]
    | succ j2 => simp [swModify]
  | w :: rest, i + 1, f, j => by
    cases j with
    | zero => simp [swModify]
    | succ j2 =>
      simp only [swModify, List.get?_cons_succ, swModify_get? rest i f j2]
      by_cases h : i = j2
      · simp [h]
      · simp [h, fun hc : i + 1 = j2 + 1 => h (by omega)]

theorem swModify_length : ∀ (st : List SW) (i : Nat) (f : SW → SW),
    (swModify st i f).length = st.length
  | [], _, _ => rfl
  | w :: rest, 0, f => rfl
  | w :: rest, i + 1, f => by
    simp [swModify, swModify_length rest i f]

theorem swModify_comm : ∀ (st : List SW) (i j : Nat) (f g : SW → SW),
    ¬ i = j → swModify (swModify st i f) j g = swModify (swModify st j g) i f
  | [], _, _, _, _, _ => rfl
  | w :: rest, 0, 0, f, g, h => absurd rfl h
  | w :: rest, 0, j + 1, f, g, _ => rfl
  | w :: rest, i + 1, 0, f, g, _ => rfl
  | w :: rest, i + 1, j + 1, f, g, h => by
    simp only [swModify]
    rw [swModify_comm rest i j f g (fun hc => h (by omega))]

theorem countOpenChildren_modify : ∀ (st : List SW) (i : Nat) (f : SW → SW)
    (w : SW) (p : Nat), st.get? i = some w →
    countOpenChildren p (swModify st i f) +
      (if w.parent = some p ∧ w.closed = false then 1 else 0) =
    countOpenChildren p st +
      (if (f w).parent = some p ∧ (f w).closed = false then 1 else 0)
  | [], i, f, w, p, h => by simp at h
  | x :: rest, 0, f, w, p, h => by
    simp only [List.get?_cons_zero, Option.some.injEq] at h
    subst h
    simp only [swModify, countOpenChildren]
    omega
  | x :: rest, i + 1, f, w, p, h => by
    simp only [List.get?_cons_succ] at h
    simp only [swModify, countOpenChildren]
    have := countOpenChildren_modify rest i f w p h
    omega

theorem countOpenChildren_append (p : Nat) : ∀ (xs ys : List SW),
    countOpenChildren p (xs ++ ys) =
      countOpenChildren p xs + countOpenChildren p ys
  | [], ys => by simp [countOpenChildren]
  | x :: xs, ys => by
    have ih := countOpenChildren_append p xs ys
    show (if x.parent = some p ∧ x.closed = false then 1 else 0) +
        countOpenChildren p (xs ++ ys) =
      ((if x.parent = some p ∧ x.closed = false then 1 else 0) +
        countOpenChildren p xs) + countOpenChildren p ys
    omega

theorem swWf_modify (st : List SW) (j : Nat) (g : SW → SW)
    (hg : ∀ w, (g w).parent = w.parent) (hwf : swWf st) :
    swWf (swModify st j g) := by
  intro i w p hi hp
  rw [swModify_get? st j g i] at hi
  by_cases hji : j = i
  · rw [if_pos hji] at hi
    cases hst : st.get? i with
    | none => rw [hst] at hi; simp at hi
    | some w0 =>
      rw [hst] at hi
      simp only [Option.map_some', Option.some.injEq] at hi
      subst hi
      apply hwf i w0 p hst
      rw [← hg w0]
      exact hp
  · rw [if_neg hji] at hi
    exact hwf i w p hi hp

/-- Closing index p commutes with a parent-preserving update of a
higher index i: the close walk only ever reads and writes indices at or
below its start. -/
theorem swClose_modify_comm : ∀ (fuel : Nat) (st : List SW) (p i : Nat)
    (f : SW → SW), p < i → swWf st → (∀ w, (f w).parent = w.parent) →
    swClose fuel (swModify st i f) p = swModify (swClose fuel st p) i f
  | 0, st, p, i, f, _, _, _ => rfl
  | fuel + 1, st, p, i, f, hpi, hwf, hf => by
    rw [swClose, swClose, swModify_get? st i f p,
      if_neg (show ¬ i = p from by omega)]
    cases hp : st.get? p with
    | none => rfl
    | some w =>
      by_cases hcl : w.closed = true
      · simp only [hcl, if_true]
      · simp only [hcl, if_false, Bool.false_eq_true]
        cases hw : w.parent with
        | none =>
          exact swModify_comm st i p f _ (by omega)
        | some q =>
          have hq : q < p := hwf p w q hp hw
          simp only []
          rw [swModify_comm st i q f _ (show ¬ i = q from by omega),
            swModify_get? (swModify st q _) i f q,
            if_neg (show ¬ i = q from by omega)]
          cases hq2 : (swModify st q (fun pw =>
              { pw with child_counter := pw.child_counter - 1 })).get? q with
          | none =>
            exact swModify_comm _ i p f _ (by omega)
          | some pw2 =>
            simp only []
            by_cases hcond : pw2.child_counter = 0 ∧
                pw2.close_on_last_child = true
            · rw [if_pos hcond, if_pos hcond,
                swClose_modify_comm fuel
                  (swModify st q (fun pw =>
                    { pw with child_counter := pw.child_counter - 1 }))
                  q i f (by omega)
                  (swWf_modify st q (fun pw =>
                    { pw with child_counter := pw.child_counter - 1 })
                    (fun _ => rfl) hwf) hf,
                swModify_comm _ i p f _ (show ¬ i = p from by omega)]
            · rw [if_neg hcond, if_neg hcond,
                swModify_comm _ i p f _ (show ¬ i = p from by omega)]

/-- Decrementing the parent of a newly closed child and marking the
child closed together preserve the reference-count invariant. -/
theorem swInv_close_mark (st : List SW) (i p : Nat) (w pw : SW)
    (hi : st.get? i = some w) (hp : st.get? p = some pw)
    (hw : w.parent = some p) (hcl : w.closed = false) (hpi : ¬ p = i)
    (hinv : swInv st) :
    swInv (swModify (swModify st p (fun x =>
      { x with child_counter := x.child_counter - 1 })) i
      (fun x => { x with closed := true })) := by
  intro j w' hj
  have hi2 : (swModify st p (fun x =>
      { x with child_counter := x.child_counter - 1 })).get? i = some w := by
    rw [swModify_get?, if_neg hpi]
    exact hi
  have hc2 : ∀ q, countOpenChildren q (swModify st p (fun x =>
      { x with child_counter := x.child_counter - 1 })) =
      countOpenChildren q st := by
    intro q
    have hl := countOpenChildren_modify st p
      (fun x => { x with child_counter := x.child_counter - 1 }) pw q hp
    simp only [] at hl
    omega
  have hcM : ∀ q, countOpenChildren q (swModify (swModify st p (fun x =>
      { x with child_counter := x.child_counter - 1 })) i
      (fun x => { x with closed := true })) +
      (if w.parent = some q ∧ w.closed = false then 1 else 0) =
      countOpenChildren q st := by
    intro q
    have hl := countOpenChildren_modify (swModify st p (fun x =>
      { x with child_counter := x.child_counter - 1 })) i
      (fun x => { x with closed := true }) w q hi2
    simp only [and_false, if_false] at hl
    rw [hc2 q] at hl
    simpa using hl
  rw [swModify_get?] at hj
  by_cases hji : i = j
  · rw [if_pos hji] at hj
    rw [← hji] at hj
    rw [hi2] at hj
    simp only [Option.map_some', Option.some.injEq] at hj
    subst hj
    have hq := hcM i
    rw [hw] at hq
    have : (if (some p = some i ∧ w.closed = false) then 1 else 0) = 0 := by
      simp [hpi]
    rw [this] at hq
    show w.child_counter = _
    rw [hinv i w hi, ← hji]
    omega
  · rw [if_neg hji, swModify_get?] at hj
    by_cases hpj : p = j
    · rw [if_pos hpj] at hj
      rw [← hpj] at hj
      rw [hp] at hj
      simp only [Option.map_some', Option.some.injEq] at hj
      subst hj
      have hq := hcM p
      rw [hw] at hq
      have hone : (if (some p = some p ∧ w.closed = false) then 1 else 0)
          = 1 := by simp [hcl]
      rw [hone] at hq
      show pw.child_counter - 1 = _
      rw [← hpj, hinv p pw hp]
      omega
    · rw [if_neg hpj] at hj
      have hq := hcM j
      rw [hw] at hq
      have : (if (some p = some j ∧ w.closed = false) then 1 else 0) = 0 := by
        simp [hpj]
      rw [this] at hq
      rw [hinv j w' hj]
      omega

theorem swModify_none : ∀ (st : List SW) (i : Nat) (f : SW → SW),
    st.get? i = Option.none → swModify st i f = st
  | [], _, _, _ => rfl
  | w :: rest, 0, f, h => by simp at h
  | w :: rest, i + 1, f, h => by
    simp only [List.get?_cons_succ] at h
    simp [swModify, swModify_none rest i f h]

/-- Marking closed a wrapper whose parent reference points at no record
(no parent, or an index with no wrapper) preserves the invariant. -/
theorem swInv_mark_orphan (st : List SW) (i : Nat) (w : SW)
    (hi : st.get? i = some w)
    (hnop : ∀ q, w.parent = some q → st.get? q = Option.none)
    (hinv : swInv st) :
    swInv (swModify st i (fun x => { x with closed := true })) := by
  intro j w' hj
  have hcnt : ∀ q, st.get? q ≠ Option.none →
      countOpenChildren q (swModify st i
        (fun x => { x with closed := true })) = countOpenChildren q st := by
    intro q hq
    have hl := countOpenChildren_modify st i
      (fun x => { x with closed := true }) w q hi
    have hz : (if w.parent = some q ∧ w.closed = false then 1 else 0) = 0 := by
      by_cases hwq : w.parent = some q
      · exact absurd (hnop q hwq) hq
      · simp [hwq]
    rw [hz] at hl
    simp only [and_false, if_false] at hl
    simpa using hl
  rw [swModify_get?] at hj
  by_cases hij : i = j
  · rw [if_pos hij, ← hij, hi] at hj
    simp only [Option.map_some', Option.some.injEq] at hj
    subst hj
    show w.child_counter = _
    rw [hinv i w hi, ← hij]
    rw [hcnt i (by rw [hi]; simp)]
  · rw [if_neg hij] at hj
    rw [hinv j w' hj, hcnt j (by rw [hj]; simp)]

theorem swClose_length : ∀ (fuel : Nat) (st : List SW) (i : Nat),
    (swClose fuel st i).length = st.length
  | 0, _, _ => rfl
  | fuel + 1, st, i => by
    rw [swClose]
    cases hi : st.get? i with
    | none => rfl
    | some w =>
      by_cases hcl : w.closed = true
      · simp only [hcl, if_true]
      · simp only [hcl, if_false, Bool.false_eq_true]
        cases hw : w.parent with
        | none => exact swModify_length st i _
        | some p =>
          simp only []
          cases hq2 : (swModify st p (fun pw =>
              { pw with child_counter := pw.child_counter - 1 })).get? p with
          | none =>
            simp only []
            rw [swModify_length, swModify_length]
          | some pw2 =>
            simp only []
            by_cases hcond : pw2.child_counter = 0 ∧
                pw2.close_on_last_child = true
            · rw [if_pos hcond, swModify_length, swClose_length fuel _ p,
                swModify_length]
            · rw [if_neg hcond, swModify_length, swModify_length]

/-! Canonical-form equations for one close step, by case on the target. -/

theorem swClose_eq_none (fuel : Nat) (st : List SW) (i : Nat)
    (hi : st.get? i = Option.none) : swClose (fuel + 1) st i = st := by
  rw [swClose, hi]

theorem swClose_eq_closed (fuel : Nat) (st : List SW) (i : Nat) (w : SW)
    (hi : st.get? i = some w) (hcl : w.closed = true) :
    swClose (fuel + 1) st i = st := by
  rw [swClose, hi]
  simp [hcl]

theorem swClose_eq_orphan (fuel : Nat) (st : List SW) (i : Nat) (w : SW)
    (hi : st.get? i = some w) (hclf : w.closed = false)
    (hw : w.parent = Option.none) :
    swClose (fuel + 1) st i =
      swModify st i (fun w2 => { w2 with closed := true }) := by
  rw [swClose, hi]
  simp [hclf, hw]

theorem swClose_eq_pnone (fuel : Nat) (st : List SW) (i : Nat) (w : SW)
    (p : Nat) (hi : st.get? i = some w) (hclf : w.closed = false)
    (hw : w.parent = some p) (hpn : st.get? p = Option.none) :
    swClose (fuel + 1) st i =
      swModify st i (fun w2 => { w2 with closed := true }) := by
  rw [swClose, hi]
  simp only [hclf, Bool.false_eq_true, if_false, hw]
  rw [swModify_none st p _ hpn, hpn]

theorem swClose_eq_norec (fuel : Nat) (st : List SW) (i : Nat) (w : SW)
    (p : Nat) (pw2 : SW) (hi : st.get? i = some w) (hclf : w.closed = false)
    (hw : w.parent = some p)
    (hq2 : (swModify st p (fun pw =>
      { pw with child_counter := pw.child_counter - 1 })).get? p = some pw2)
    (hcond : ¬ (pw2.child_counter = 0 ∧ pw2.close_on_last_child = true)) :
    swClose (fuel + 1) st i =
      swModify (swModify st p (fun pw =>
        { pw with child_counter := pw.child_counter - 1 })) i
        (fun w2 => { w2 with closed := true }) := by
  rw [swClose, hi]
  simp only [hclf, Bool.false_eq_true, if_false, hw, hq2]
  rw [if_neg hcond]

theorem swClose_eq_rec (fuel : Nat) (st : List SW) (i : Nat) (w : SW)
    (p : Nat) (pw2 : SW) (hi : st.get? i = some w) (hclf : w.closed = false)
    (hw : w.parent = some p)
    (hq2 : (swModify st p (fun pw =>
      { pw with child_counter := pw.child_counter - 1 })).get? p = some pw2)
    (hcond : pw2.child_counter = 0 ∧ pw2.close_on_last_child = true) :
    swClose (fuel + 1) st i =
      swModify (swClose fuel (swModify st p (fun pw =>
        { pw with child_counter := pw.child_counter - 1 })) p) i
        (fun w2 => { w2 with closed := true }) := by
  rw [swClose, hi]
  simp only [hclf, Bool.false_eq_true, if_false, hw, hq2]
  rw [if_pos hcond]

/-- Everything close guarantees: the invariant and the descending-parent
property persist, indices above the closed one are untouched, parent
references and autoclose flags are never changed, and the target
wrapper ends closed. -/
theorem swClose_props : ∀ (fuel : Nat) (st : List SW) (i : Nat),
    swWf st → swInv st → i < fuel →
    swInv (swClose fuel st i) ∧ swWf (swClose fuel st i) ∧
    (∀ j, i < j → (swClose fuel st i).get? j = st.get? j) ∧
    (∀ j w0, st.get? j = some w0 → ∃ w2,
      (swClose fuel st i).get? j = some w2 ∧ w2.parent = w0.parent ∧
      w2.close_on_last_child = w0.close_on_last_child) ∧
    (∀ w0, st.get? i = some w0 → ∃ w2,
      (swClose fuel st i).get? i = some w2 ∧ w2.closed = true ∧
      w2.child_counter = w0.child_counter)
  | fuel + 1, st, i, hwf, hinv, hif => by
    cases hi : st.get? i with
    | none =>
      rw [swClose_eq_none fuel st i hi]
      refine ⟨hinv, hwf, fun j _ => rfl, fun j w0 hj => ⟨w0, hj, rfl, rfl⟩,
        fun w0 h0 => ?_⟩
      exact absurd h0 (by simp)
    | some w =>
      by_cases hcl : w.closed = true
      · rw [swClose_eq_closed fuel st i w hi hcl]
        refine ⟨hinv, hwf, fun j _ => rfl, fun j w0 hj => ⟨w0, hj, rfl, rfl⟩,
          fun w0 h0 => ?_⟩
        injection h0 with h0
        subst h0
        exact ⟨w, hi, hcl, rfl⟩
      · have hclf : w.closed = false := by revert hcl; cases w.closed <;> simp
        cases hw : w.parent with
        | none =>
          rw [swClose_eq_orphan fuel st i w hi hclf hw]
          refine ⟨swInv_mark_orphan st i w hi (fun q hq => by
              rw [hw] at hq; exact absurd hq (by simp)) hinv,
            swWf_modify st i _ (fun _ => rfl) hwf,
            fun j hj => by rw [swModify_get?, if_neg (by omega)],
            fun j w0 hj => ?_, fun w0 h0 => ?_⟩
          · rw [swModify_get?]
            by_cases hij : i = j
            · refine ⟨{ w0 with closed := true }, ?_, rfl, rfl⟩
              rw [if_pos hij, hj]
              rfl
            · exact ⟨w0, by rw [if_neg hij]; exact hj, rfl, rfl⟩
          · injection h0 with h0
            subst h0
            refine ⟨{ w with closed := true }, ?_, rfl, rfl⟩
            rw [swModify_get?, if_pos rfl, hi]
            rfl
        | some p =>
          have hpi : p < i := hwf i w p hi hw
          cases hq2 : (swModify st p (fun pw =>
              { pw with child_counter := pw.child_counter - 1 })).get? p with
          | none =>
            have hpn : st.get? p = Option.none := by
              have h := swModify_get? st p (fun pw =>
                { pw with child_counter := pw.child_counter - 1 }) p
              rw [if_pos rfl] at h
              rw [h] at hq2
              cases hsp : st.get? p with
              | none => rfl
              | some x => rw [hsp] at hq2; simp at hq2
            rw [swClose_eq_pnone fuel st i w p hi hclf hw hpn]
            refine ⟨swInv_mark_orphan st i w hi (fun q hq => by
                rw [hw] at hq
                injection hq with hq
                rw [← hq]
                exact hpn) hinv,
              swWf_modify st i _ (fun _ => rfl) hwf,
              fun j hj => by rw [swModify_get?, if_neg (by omega)],
              fun j w0 hj => ?_, fun w0 h0 => ?_⟩
            · rw [swModify_get?]
              by_cases hij : i = j
              · refine ⟨{ w0 with closed := true }, ?_, rfl, rfl⟩
                rw [if_pos hij, hj]
                rfl
              · exact ⟨w0, by rw [if_neg hij]; exact hj, rfl, rfl⟩
            · injection h0 with h0
              subst h0
              refine ⟨{ w with closed := true }, ?_, rfl, rfl⟩
              rw [swModify_get?, if_pos rfl, hi]
              rfl
          | some pw2 =>
            have hsp : ∃ pw, st.get? p = some pw := by
              have h := swModify_get? st p (fun pw =>
                { pw with child_counter := pw.child_counter - 1 }) p
              rw [if_pos rfl] at h
              rw [h] at hq2
              cases hx : st.get? p with
              | none => rw [hx] at hq2; simp at hq2
              | some pw => exact ⟨pw, rfl⟩
            obtain ⟨pw, hp⟩ := hsp
            have hMInv : swInv (swModify (swModify st p (fun pw =>
                { pw with child_counter := pw.child_counter - 1 })) i
                (fun x => { x with closed := true })) :=
              swInv_close_mark st i p w pw hi hp hw hclf (by omega) hinv
            have hMWf : swWf (swModify (swModify st p (fun pw =>
                { pw with child_counter := pw.child_counter - 1 })) i
                (fun x => { x with closed := true })) :=
              swWf_modify _ i _ (fun _ => rfl)
                (swWf_modify st p _ (fun _ => rfl) hwf)
            by_cases hcond : pw2.child_counter = 0 ∧
                pw2.close_on_last_child = true
            · rw [swClose_eq_rec fuel st i w p pw2 hi hclf hw hq2 hcond,
                show swModify (swClose fuel (swModify st p (fun pw =>
                    { pw with child_counter := pw.child_counter - 1 })) p) i
                    (fun w2 => { w2 with closed := true }) =
                  swClose fuel (swModify (swModify st p (fun pw =>
                    { pw with child_counter := pw.child_counter - 1 })) i
                    (fun w2 => { w2 with closed := true })) p from
                  (swClose_modify_comm fuel (swModify st p (fun pw =>
                    { pw with child_counter := pw.child_counter - 1 })) p i
                    (fun w2 => { w2 with closed := true }) hpi
                    (swWf_modify st p (fun pw =>
                      { pw with child_counter := pw.child_counter - 1 })
                      (fun _ => rfl) hwf) (fun _ => rfl)).symm]
              obtain ⟨ih1, ih2, ih3, ih4, ih5⟩ := swClose_props fuel
                (swModify (swModify st p (fun pw =>
                  { pw with child_counter := pw.child_counter - 1 })) i
                  (fun w2 => { w2 with closed := true })) p hMWf hMInv
                (by omega)
              refine ⟨ih1, ih2, fun j hj => ?_, fun j w0 hj0 => ?_,
                fun w0 h0 => ?_⟩
              · rw [ih3 j (by omega), swModify_get?, if_neg (by omega),
                  swModify_get?, if_neg (by omega)]
              · have hstM : ∃ w1, (swModify (swModify st p (fun pw =>
                    { pw with child_counter := pw.child_counter - 1 })) i
                    (fun w2 => { w2 with closed := true })).get? j = some w1 ∧
                    w1.parent = w0.parent ∧
                    w1.close_on_last_child = w0.close_on_last_child := by
                  rw [swModify_get?]
                  by_cases hij : i = j
                  · rw [if_pos hij, swModify_get?,
                      if_neg (show ¬ p = j from by omega), hj0]
                    exact ⟨_, rfl, rfl, rfl⟩
                  · rw [if_neg hij, swModify_get?]
                    by_cases hpj : p = j
                    · rw [if_pos hpj, hj0]
                      exact ⟨_, rfl, rfl, rfl⟩
                    · rw [if_neg hpj]
                      exact ⟨w0, hj0, rfl, rfl⟩
                obtain ⟨w1, hw1, hpar, hflag⟩ := hstM
                obtain ⟨w2, hw2, hpar2, hflag2⟩ := ih4 j w1 hw1
                exact ⟨w2, hw2, by rw [hpar2, hpar], by rw [hflag2, hflag]⟩
              · injection h0 with h0
                subst h0
                refine ⟨{ w with closed := true }, ?_, rfl, rfl⟩
                rw [ih3 i (by omega), swModify_get?, if_pos rfl,
                  swModify_get?, if_neg (show ¬ p = i from by omega), hi]
                rfl
            · rw [swClose_eq_norec fuel st i w p pw2 hi hclf hw hq2 hcond]
              refine ⟨hMInv, hMWf, fun j hj => ?_, fun j w0 hj0 => ?_,
                fun w0 h0 => ?_⟩
              · rw [swModify_get?, if_neg (by omega), swModify_get?,
                  if_neg (by omega)]
              · rw [swModify_get?]
                by_cases hij : i = j
                · rw [if_pos hij, swModify_get?,
                    if_neg (show ¬ p = j from by omega), hj0]
                  exact ⟨_, rfl, rfl, rfl⟩
                · rw [if_neg hij, swModify_get?]
                  by_cases hpj : p = j
                  · rw [if_pos hpj, hj0]
                    exact ⟨_, rfl, rfl, rfl⟩
                  · rw [if_neg hpj]
                    exact ⟨w0, hj0, rfl, rfl⟩
              · injection h0 with h0
                subst h0
                refine ⟨{ w with closed := true }, ?_, rfl, rfl⟩
                rw [swModify_get?, if_pos rfl, swModify_get?,
                  if_neg (show ¬ p = i from by omega), hi]
                rfl

theorem countOpenChildren_zero : ∀ (st : List SW) (q : Nat),
    (∀ j w, st.get? j = some w → ¬ w.parent = some q) →
    countOpenChildren q st = 0
  | [], _, _ => rfl
  | w :: rest, q, h => by
    simp only [countOpenChildren]
    rw [countOpenChildren_zero rest q (fun j w2 hj =>
      h (j + 1) w2 (by simpa using hj))]
    have hw := h 0 w (by simp)
    simp [hw]

theorem sw_get?_append_lt : ∀ (xs : List SW) (v : SW) (j : Nat),
    j < xs.length → (xs ++ [v]).get? j = xs.get? j
  | [], _, _, h => by simp at h
  | x :: xs, v, 0, _ => rfl
  | x :: xs, v, j + 1, h => by
    simp only [List.cons_append, List.get?_cons_succ]
    exact sw_get?_append_lt xs v j (by simpa using h)

theorem sw_get?_append_len : ∀ (xs : List SW) (v : SW),
    (xs ++ [v]).get? xs.length = some v
  | [], _ => rfl
  | x :: xs, v => by
    simp only [List.cons_append, List.length_cons, List.get?_cons_succ]
    exact sw_get?_append_len xs v

theorem sw_get?_append_gt : ∀ (xs : List SW) (v : SW) (j : Nat),
    xs.length < j → (xs ++ [v]).get? j = Option.none
  | [], v, 0, h => by simp at h
  | [], v, j + 1, _ => rfl
  | x :: xs, v, 0, h => by simp at h
  | x :: xs, v, j + 1, h => by
    simp only [List.cons_append, List.get?_cons_succ]
    exact sw_get?_append_gt xs v j (by simpa using h)

theorem sw_get?_some_lt (st : List SW) (p : Nat) (w : SW)
    (h : st.get? p = some w) : p < st.length := by
  by_contra hc
  rw [List.get?_eq_none.mpr (by omega)] at h
  simp at h

/-- Setting the autoclose flag leaves counters, parents and closedness
alone, so the invariant persists. -/
theorem swInv_flag (st : List SW) (i : Nat) (hinv : swInv st) :
    swInv (swModify st i (fun w2 =>
      { w2 with close_on_last_child := true })) := by
  cases hsi : st.get? i with
  | none => rw [swModify_none st i _ hsi]; exact hinv
  | some w =>
    intro j w' hj
    have hcnt : ∀ q, countOpenChildren q (swModify st i (fun w2 =>
        { w2 with close_on_last_child := true })) =
        countOpenChildren q st := by
      intro q
      have hl := countOpenChildren_modify st i
        (fun w2 => { w2 with close_on_last_child := true }) w q hsi
      simp only [] at hl
      omega
    rw [swModify_get?] at hj
    by_cases hij : i = j
    · rw [if_pos hij, ← hij, hsi] at hj
      simp only [Option.map_some', Option.some.injEq] at hj
      subst hj
      show w.child_counter = _
      rw [hinv i w hsi, ← hij, hcnt i]
    · rw [if_neg hij] at hj
      rw [hinv j w' hj, hcnt j]

/-- Construction preserves the invariant and the descending-parent
property: the parent's counter and its open-children count both grow by
one, and the new wrapper starts with no children and counter zero. -/
theorem swConstruct_props (st : List SW) (parent : Option Nat)
    (hwf : swWf st) (hinv : swInv st)
    (hval : ∀ p, parent = some p → p < st.length) :
    swInv (swConstruct st parent) ∧ swWf (swConstruct st parent) ∧
    (swConstruct st parent).length = st.length + 1 := by
  cases parent with
  | none =>
    rw [show swConstruct st Option.none =
      st ++ [⟨Option.none, 0, false, false⟩] from rfl]
    refine ⟨?_, ?_, by simp⟩
    · intro j w' hj
      have hzero : countOpenChildren st.length
          (st ++ [⟨Option.none, 0, false, false⟩]) = 0 := by
        apply countOpenChildren_zero
        intro j2 w2 hj2
        rcases Nat.lt_trichotomy j2 st.length with hlt | heq | hgt
        · rw [sw_get?_append_lt st _ j2 hlt] at hj2
          have := hwf j2 w2
          intro hpar
          have := this st.length hj2 hpar
          omega
        · rw [heq, sw_get?_append_len] at hj2
          injection hj2 with hj2
          rw [← hj2]
          simp
        · rw [sw_get?_append_gt st _ j2 hgt] at hj2
          simp at hj2
      rcases Nat.lt_trichotomy j st.length with hlt | heq | hgt
      · rw [sw_get?_append_lt st _ j hlt] at hj
        rw [hinv j w' hj, countOpenChildren_append]
        simp [countOpenChildren]
      · rw [heq, sw_get?_append_len] at hj
        injection hj with hj
        rw [← hj, heq]
        show (0 : Int) = _
        rw [hzero]
        rfl
      · rw [sw_get?_append_gt st _ j hgt] at hj
        simp at hj
    · intro j w' p hj hp
      rcases Nat.lt_trichotomy j st.length with hlt | heq | hgt
      · rw [sw_get?_append_lt st _ j hlt] at hj
        exact hwf j w' p hj hp
      · rw [heq, sw_get?_append_len] at hj
        injection hj with hj
        rw [← hj] at hp
        simp at hp
      · rw [sw_get?_append_gt st _ j hgt] at hj
        simp at hj
  | some p =>
    have hplen : p < st.length := hval p rfl
    have hpw : ∃ pw, st.get? p = some pw := by
      cases hx : st.get? p with
      | none =>
        rw [List.get?_eq_none] at hx
        omega
      | some pw => exact ⟨pw, rfl⟩
    obtain ⟨pw, hp⟩ := hpw
    rw [show swConstruct st (some p) =
      swModify st p (fun pw => { pw with
        child_counter := pw.child_counter + 1 }) ++
      [⟨some p, 0, false, false⟩] from rfl]
    have hlen1 : (swModify st p (fun pw => { pw with
        child_counter := pw.child_counter + 1 })).length = st.length :=
      swModify_length st p _
    have hparpres : ∀ j w2, (swModify st p (fun pw => { pw with
        child_counter := pw.child_counter + 1 })).get? j = some w2 →
        ∃ w3, st.get? j = some w3 ∧ w2.parent = w3.parent ∧
          w2.closed = w3.closed := by
      intro j w2 hj2
      rw [swModify_get?] at hj2
      by_cases hpj : p = j
      · rw [if_pos hpj, ← hpj, hp] at hj2
        simp only [Option.map_some', Option.some.injEq] at hj2
        exact ⟨pw, by rw [← hpj]; exact hp, by rw [← hj2], by rw [← hj2]⟩
      · rw [if_neg hpj] at hj2
        exact ⟨w2, hj2, rfl, rfl⟩
    have hcnt1 : ∀ q, countOpenChildren q (swModify st p (fun pw =>
        { pw with child_counter := pw.child_counter + 1 })) =
        countOpenChildren q st := by
      intro q
      have hl := countOpenChildren_modify st p
        (fun pw => { pw with child_counter := pw.child_counter + 1 }) pw q hp
      simp only [] at hl
      omega
    refine ⟨?_, ?_, by simp [hlen1]⟩
    · intro j w' hj
      have hzero : countOpenChildren st.length
          (swModify st p (fun pw => { pw with
            child_counter := pw.child_counter + 1 }) ++
          [⟨some p, 0, false, false⟩]) = 0 := by
        apply countOpenChildren_zero
        intro j2 w2 hj2
        rcases Nat.lt_trichotomy j2 st.length with hlt | heq | hgt
        · rw [sw_get?_append_lt _ _ j2 (by omega)] at hj2
          obtain ⟨w3, hw3, hpar3, _⟩ := hparpres j2 w2 hj2
          intro hpar
          rw [hpar3] at hpar
          have := hwf j2 w3 st.length hw3 hpar
          omega
        · rw [show j2 = (swModify st p (fun pw => { pw with
              child_counter := pw.child_counter + 1 })).length from by omega,
            sw_get?_append_len] at hj2
          injection hj2 with hj2
          rw [← hj2]
          simp
          omega
        · rw [sw_get?_append_gt _ _ j2 (by omega)] at hj2
          simp at hj2
      rcases Nat.lt_trichotomy j st.length with hlt | heq | hgt
      · rw [sw_get?_append_lt _ _ j (by omega)] at hj
        rw [countOpenChildren_append, hcnt1 j]
        rw [swModify_get?] at hj
        by_cases hpj : p = j
        · rw [if_pos hpj, ← hpj, hp] at hj
          simp only [Option.map_some', Option.some.injEq] at hj
          subst hj
          show pw.child_counter + 1 = _
          rw [hinv p pw hp, hpj]
          simp [countOpenChildren, hpj]
        · rw [if_neg hpj] at hj
          rw [hinv j w' hj]
          simp [countOpenChildren, hpj]
      · rw [show j = (swModify st p (fun pw => { pw with
            child_counter := pw.child_counter + 1 })).length from by omega,
          sw_get?_append_len] at hj
        injection hj with hj
        rw [← hj, heq]
        show (0 : Int) = _
        rw [hzero]
        rfl
      · rw [sw_get?_append_gt _ _ j (by omega)] at hj
        simp at hj
    · intro j w' q hj hq
      rcases Nat.lt_trichotomy j st.length with hlt | heq | hgt
      · rw [sw_get?_append_lt _ _ j (by omega)] at hj
        obtain ⟨w3, hw3, hpar3, _⟩ := hparpres j w' hj
        rw [hpar3] at hq
        exact hwf j w3 q hw3 hq
      · rw [show j = (swModify st p (fun pw => { pw with
            child_counter := pw.child_counter + 1 })).length from by omega,
          sw_get?_append_len] at hj
        injection hj with hj
        rw [← hj] at hq
        simp only [Option.some.injEq] at hq
        omega
      · rw [sw_get?_append_gt _ _ j (by omega)] at hj
        simp at hj

theorem swAutoclose_props (fuel : Nat) (st : List SW) (i : Nat)
    (hwf : swWf st) (hinv : swInv st) (hfl : i < fuel) :
    swInv (swAutoclose fuel st i) ∧ swWf (swAutoclose fuel st i) ∧
    (swAutoclose fuel st i).length = st.length := by
  rw [swAutoclose]
  cases hsi : st.get? i with
  | none => exact ⟨hinv, hwf, rfl⟩
  | some w =>
    simp only []
    have hinv1 := swInv_flag st i hinv
    have hwf1 := swWf_modify st i
      (fun w2 => { w2 with close_on_last_child := true }) (fun _ => rfl) hwf
    by_cases hc : w.child_counter = 0
    · rw [if_pos hc]
      obtain ⟨p1, p2, _⟩ := swClose_props fuel
        (swModify st i (fun w2 => { w2 with close_on_last_child := true }))
        i hwf1 hinv1 hfl
      exact ⟨p1, p2, by rw [swClose_length, swModify_length]⟩
    · rw [if_neg hc]
      exact ⟨hinv1, hwf1, swModify_length st i _⟩

theorem swStep_props (st : List SW) (op : SWOp) (hwf : swWf st)
    (hinv : swInv st) (hval : validOp st.length op = true) :
    swInv (swStep st op) ∧ swWf (swStep st op) ∧
    (swStep st op).length =
      (match op with
       | .construct _ => st.length + 1
       | _ => st.length) := by
  cases op with
  | construct parent =>
    refine swConstruct_props st parent hwf hinv (fun p hp => ?_)
    rw [hp] at hval
    simpa [validOp] using hval
  | close i =>
    obtain ⟨p1, p2, _⟩ := swClose_props (i + 1) st i hwf hinv (by omega)
    exact ⟨p1, p2, swClose_length (i + 1) st i⟩
  | autoclose i =>
    exact swAutoclose_props (i + 1) st i hwf hinv (by omega)

theorem swRun_aux : ∀ (ops : List SWOp) (st : List SW), swWf st →
    swInv st → validOps st.length ops = true →
    swInv (ops.foldl swStep st) ∧ swWf (ops.foldl swStep st)
  | [], st, hwf, hinv, _ => ⟨hinv, hwf⟩
  | op :: rest, st, hwf, hinv, hval => by
    simp only [validOps, Bool.and_eq_true] at hval
    rw [List.foldl_cons]
    obtain ⟨h1, h2, h3⟩ := swStep_props st op hwf hinv hval.1
    refine swRun_aux rest (swStep st op) h2 h1 ?_
    have hv2 := hval.2
    cases op with
    | construct parent => rw [h3]; exact hv2
    | close i => rw [h3]; exact hv2
    | autoclose i => rw [h3]; exact hv2

/-- C9: the stream handle reference-count invariant.  (1) After any
valid run of constructions, closes and autocloses, every wrapper's
child counter equals the number of its still-open children.
(2) Constructing a child bumps the parent's counter by one and starts
the child at counter zero, open, flag clear.  (3) close() on a closed
wrapper changes nothing, and (4) a close marks its target closed — so a
second close is a no-op.  (5) The first close of an open child
decrements its parent's counter; a parent with the autoclose flag set
ends closed exactly when that decrement reaches zero, and one without
the flag stays open. -/
theorem c9_stream_wrapper :
    (∀ ops : List SWOp, validOps 0 ops = true →
      ∀ i w, (swRun ops).get? i = some w →
        w.child_counter = (countOpenChildren i (swRun ops) : Int)) ∧
    (∀ (st : List SW) (p : Nat) (pw : SW), st.get? p = some pw →
      (swConstruct st (some p)).get? p =
        some { pw with child_counter := pw.child_counter + 1 } ∧
      (swConstruct st (some p)).get? st.length =
        some ⟨some p, 0, false, false⟩) ∧
    (∀ (fuel : Nat) (st : List SW) (i : Nat) (w : SW), st.get? i = some w →
      w.closed = true → swClose fuel st i = st) ∧
    (∀ (st : List SW) (i : Nat) (w : SW), swWf st → swInv st →
      st.get? i = some w → ∃ w2, (swClose (i + 1) st i).get? i = some w2 ∧
        w2.closed = true) ∧
    (∀ (st : List SW) (i p : Nat) (w pw : SW), swWf st → swInv st →
      st.get? i = some w → w.closed = false → w.parent = some p →
      st.get? p = some pw → pw.closed = false →
      ∃ pw2, (swClose (i + 1) st i).get? p = some pw2 ∧
        pw2.child_counter = pw.child_counter - 1 ∧
        (pw.close_on_last_child = true →
          (pw2.closed = true ↔ pw.child_counter - 1 = 0)) ∧
        (pw.close_on_last_child = false → pw2.closed = false)) := by
  refine ⟨?_, ?_, ?_, ?_, ?_⟩
  · intro ops hval
    exact (swRun_aux ops [] (fun i w p hi => by simp at hi)
      (fun i w hi => by simp at hi) hval).1
  · intro st p pw hp
    have hplen : p < st.length := sw_get?_some_lt st p pw hp
    constructor
    · rw [show swConstruct st (some p) =
        swModify st p (fun pw => { pw with
          child_counter := pw.child_counter + 1 }) ++
        [⟨some p, 0, false, false⟩] from rfl,
        sw_get?_append_lt _ _ p (by rw [swModify_length]; omega),
        swModify_get?, if_pos rfl, hp]
      rfl
    · rw [show swConstruct st (some p) =
        swModify st p (fun pw => { pw with
          child_counter := pw.child_counter + 1 }) ++
        [⟨some p, 0, false, false⟩] from rfl,
        show st.length = (swModify st p (fun pw => { pw with
          child_counter := pw.child_counter + 1 })).length from
          (swModify_length st p _).symm,
        sw_get?_append_len]
  · intro fuel st i w hi hcl
    cases fuel with
    | zero => rfl
    | succ fuel2 => exact swClose_eq_closed fuel2 st i w hi hcl
  · intro st i w hwf hinv hi
    obtain ⟨w2, hw2, hcl2, _⟩ :=
      (swClose_props (i + 1) st i hwf hinv (by omega)).2.2.2.2 w hi
    exact ⟨w2, hw2, hcl2⟩
  · intro st i p w pw hwf hinv hi hclf hw hp hpcl
    have hpi : p < i := hwf i w p hi hw
    have hq2 : (swModify st p (fun pw =>
        { pw with child_counter := pw.child_counter - 1 })).get? p =
        some { pw with child_counter := pw.child_counter - 1 } := by
      rw [swModify_get?, if_pos rfl, hp]
      rfl
    by_cases hcond : ({ pw with child_counter :=
        pw.child_counter - 1 } : SW).child_counter = 0 ∧
      ({ pw with child_counter :=
        pw.child_counter - 1 } : SW).close_on_last_child = true
    · rw [swClose_eq_rec i st i w p _ hi hclf hw hq2 hcond,
        show swModify (swClose i (swModify st p (fun pw =>
            { pw with child_counter := pw.child_counter - 1 })) p) i
            (fun w2 => { w2 with closed := true }) =
          swClose i (swModify (swModify st p (fun pw =>
            { pw with child_counter := pw.child_counter - 1 })) i
            (fun w2 => { w2 with closed := true })) p from
          (swClose_modify_comm i (swModify st p (fun pw =>
            { pw with child_counter := pw.child_counter - 1 })) p i
            (fun w2 => { w2 with closed := true }) hpi
            (swWf_modify st p (fun pw =>
              { pw with child_counter := pw.child_counter - 1 })
              (fun _ => rfl) hwf) (fun _ => rfl)).symm]
      have hMInv : swInv (swModify (swModify st p (fun pw =>
          { pw with child_counter := pw.child_counter - 1 })) i
          (fun x => { x with closed := true })) :=
        swInv_close_mark st i p w pw hi hp hw hclf (by omega) hinv
      have hMWf : swWf (swModify (swModify st p (fun pw =>
          { pw with child_counter := pw.child_counter - 1 })) i
          (fun x => { x with closed := true })) :=
        swWf_modify _ i _ (fun _ => rfl)
          (swWf_modify st p _ (fun _ => rfl) hwf)
      have hstM : (swModify (swModify st p (fun pw =>
          { pw with child_counter := pw.child_counter - 1 })) i
          (fun w2 => { w2 with closed := true })).get? p =
          some { pw with child_counter := pw.child_counter - 1 } := by
        rw [swModify_get?, if_neg (show ¬ i = p from by omega)]
        exact hq2
      obtain ⟨pw2, hpw2, hpcl2, hpcnt2⟩ :=
        (swClose_props i (swModify (swModify st p (fun pw =>
          { pw with child_counter := pw.child_counter - 1 })) i
          (fun w2 => { w2 with closed := true })) p hMWf hMInv
          (by omega)).2.2.2.2 _ hstM
      refine ⟨pw2, hpw2, by rw [hpcnt2], fun _ => ?_, fun hff => ?_⟩
      · constructor
        · intro _
          exact hcond.1
        · intro _
          exact hpcl2
      · exact absurd hcond.2 (by rw [show ({ pw with child_counter :=
          pw.child_counter - 1 } : SW).close_on_last_child =
          pw.close_on_last_child from rfl, hff]; simp)
    · rw [swClose_eq_norec i st i w p _ hi hclf hw hq2 hcond]
      refine ⟨{ pw with child_counter := pw.child_counter - 1 }, ?_, rfl,
        fun hft => ?_, fun _ => hpcl⟩
      · rw [swModify_get?, if_neg (show ¬ i = p from by omega)]
        exact hq2
      · constructor
        · intro hcl2
          exact absurd hcl2 (by
            rw [show ({ pw with child_counter :=
              pw.child_counter - 1 } : SW).closed = pw.closed from rfl, hpcl]
            simp)
        · intro hz
          exact absurd ⟨hz, hft⟩ hcond

/-- C9 witness: a root wrapper with one child; the counter invariant
after a three-op run, and closing the child of an autoclose-flagged
root, which decrements the counter to zero and closes the root. -/
theorem c9_stream_wrapper_witness :
    ((⟨Option.none, 0, false, false⟩ : SW).child_counter =
      (countOpenChildren 0 (swRun [SWOp.construct Option.none,
        SWOp.construct (some 0), SWOp.close 1]) : Int)) ∧
    (∃ w2, (swClose (1 + 1) [⟨Option.none, 1, true, false⟩,
        ⟨some 0, 0, false, false⟩] 1).get? 1 = some w2 ∧
      w2.closed = true) ∧
    (∃ pw2, (swClose (1 + 1) [⟨Option.none, 1, true, false⟩,
        ⟨some 0, 0, false, false⟩] 1).get? 0 = some pw2 ∧
      pw2.child_counter =
        (⟨Option.none, 1, true, false⟩ : SW).child_counter - 1 ∧
      ((⟨Option.none, 1, true, false⟩ : SW).close_on_last_child = true →
        (pw2.closed = true ↔
          (⟨Option.none, 1, true, false⟩ : SW).child_counter - 1 = 0)) ∧
      ((⟨Option.none, 1, true, false⟩ : SW).close_on_last_child = false →
        pw2.closed = false)) := by
  have hwf1 : swWf [⟨Option.none, 1, true, false⟩,
      ⟨some 0, 0, false, false⟩] := by
    intro i w p hi hp
    match i with
    | 0 =>
      injection hi with hi
      rw [← hi] at hp
      simp at hp
    | 1 =>
      injection hi with hi
      rw [← hi] at hp
      simp only [] at hp
      injection hp with hp
      omega
    | n + 2 => simp at hi
  have hinv1 : swInv [⟨Option.none, 1, true, false⟩,
      ⟨some 0, 0, false, false⟩] := by
    intro i w hi
    match i with
    | 0 =>
      injection hi with hi
      rw [← hi]
      decide
    | 1 =>
      injection hi with hi
      rw [← hi]
      decide
    | n + 2 => simp at hi
  exact ⟨c9_stream_wrapper.1 [SWOp.construct Option.none,
      SWOp.construct (some 0), SWOp.close 1] (by decide) 0
      ⟨Option.none, 0, false, false⟩ (by decide),
    c9_stream_wrapper.2.2.2.1 [⟨Option.none, 1, true, false⟩,
      ⟨some 0, 0, false, false⟩] 1 ⟨some 0, 0, false, false⟩ hwf1 hinv1
      (by decide),
    c9_stream_wrapper.2.2.2.2 [⟨Option.none, 1, true, false⟩,
      ⟨some 0, 0, false, false⟩] 1 0 ⟨some 0, 0, false, false⟩
      ⟨Option.none, 1, true, false⟩ hwf1 hinv1 (by decide) (by decide)
      (by decide) (by decide) (by decide)⟩

/-! ## Manifest serialization (info.py DatasetInfo, utils.asdict,
features.generate_from_dict)

asdict turns each feature dataclass into its field dict: fields with
init=False (the _type discriminators) are always kept, fields that
equal an actual default (Sequence.length = -1, DatasetInfo's three
None-defaulted fields) are dropped, fields with no default or a
default_factory (description, file_list, shape, dtype, sample_rate)
are always kept.  Tuples serialize as JSON arrays. -/

/-- np.dtype validity for the names this library's schemas use (the
numpy collaborator accepts many spellings; the schemas the claims
quantify over stay within these). -/
def npIsValidDtype (s : String) : Bool :=
  ["bool", "int8", "int16", "int32", "int64", "uint8", "uint16",
    "uint32", "uint64", "float16", "float32", "float64"].contains s

def serializeShape (shape : List (Option Nat)) : PyVal :=
  .list (PyList.ofList (shape.map (fun d =>
    match d with
    | some n => PyVal.int n
    | Option.none => PyVal.none)))

/-- tuple(shape) of a JSON array: dims are sizes (ints) or None; the
schemas under the claims carry no other dim values. -/
def parseShape (v : PyVal) : Except PyErr (List (Option Nat)) :=
  match v with
  | .list es =>
    match es.toList.mapM (fun e =>
      match e with
      | PyVal.int n => if 0 ≤ n then some (some n.toNat) else Option.none
      | PyVal.none => some Option.none
      | _ => Option.none) with
    | some dims => .ok dims
    | Option.none => .error .typeError
  | _ => .error .typeError

def optIntVal : Option Int → PyVal
  | some n => .int n
  | Option.none => .none

/-! asdict on a schema: every leaf keeps its _type (init=False), Tensor
and Audio keep shape/dtype/sample_rate (no usable defaults), Scalar's
shape is the empty tuple, Sequence keeps feature and drops length when
it equals the default -1. -/
mutual
def serializeSchema : Schema → PyVal
  | .text => .dict (.cons "_type" (.str "Text") .nil)
  | .json => .dict (.cons "_type" (.str "Json") .nil)
  | .tensor shape dtype =>
    .dict (.cons "shape" (serializeShape shape) (.cons "dtype" (.str dtype)
      (.cons "_type" (.str "Tensor") .nil)))
  | .scalar dtype =>
    .dict (.cons "shape" (.list .nil) (.cons "dtype" (.str dtype)
      (.cons "_type" (.str "Scalar") .nil)))
  | .audio shape dtype sr =>
    .dict (.cons "shape" (serializeShape shape) (.cons "dtype" (.str dtype)
      (.cons "sample_rate" (optIntVal sr)
        (.cons "_type" (.str "Audio") .nil))))
  | .sequence f len =>
    .dict (.cons "feature" (serializeFeat f)
      (if len = -1 then .cons "_type" (.str "Sequence") .nil
       else .cons "length" (.int len) (.cons "_type" (.str "Sequence") .nil)))
  | .sdict es => .dict (serializeCols es)
  | .slist es => .list (serializeItems es)
def serializeFeat : SeqFeature → PyVal
  | .featDict es => .dict (serializeCols es)
  | .featPlain s => serializeSchema s
def serializeCols : SchemaDict → PyDict
  | .nil => .nil
  | .cons k v rest => .cons k (serializeSchema v) (serializeCols rest)
def serializeItems : SchemaList → PyList
  | .nil => .nil
  | .cons v rest => .cons (serializeSchema v) (serializeItems rest)
end

def PyDict.erase : PyDict → String → PyDict
  | .nil, _ => .nil
  | .cons k v rest, key => if k = key then rest else .cons k v (rest.erase key)

/-! generate_from_dict: a list regenerates elementwise; a mapping with
no "_type" key (or a "_type" key holding a mapping) regenerates its
values; otherwise "_type" is popped and names the feature class, built
from the remaining fields (extra keys dropped, Sequence.length
defaulting to -1, Audio's missing fields to its defaults; Tensor's
__post_init__ validates the dtype).  The fuel bounds the recursion
depth (Python's recursion limit); every run the theorems state gets
enough of it. -/
mutual
def generate_from_dict : Nat → PyVal → Except PyErr Schema
  | 0, _ => .error .valueError
  | fuel + 1, .list es =>
    match genItems fuel es with
    | .ok out => .ok (.slist out)
    | .error e => .error e
  | fuel + 1, .dict od =>
    match od.lookup "_type" with
    | Option.none =>
      match genCols fuel od with
      | .ok out => .ok (.sdict out)
      | .error e => .error e
    | some (.dict _) =>
      match genCols fuel od with
      | .ok out => .ok (.sdict out)
      | .error e => .error e
    | some (.str t) =>
      let rest := od.erase "_type"
      if t = "Sequence" then
        match rest.lookup "feature" with
        | Option.none => .error .keyError
        | some fv =>
          match generate_from_dict fuel fv with
          | .error e => .error e
          | .ok fs =>
            match (match rest.lookup "length" with
                   | Option.none => Except.ok (-1 : Int)
                   | some (.int n) => Except.ok n
                   | some _ => Except.error PyErr.typeError) with
            | .error e => .error e
            | .ok len =>
              match fs with
              | .sdict es => .ok (.sequence (.featDict es) len)
              | s => .ok (.sequence (.featPlain s) len)
      else if t = "Text" then .ok .text
      else if t = "Json" then .ok .json
      else if t = "Tensor" then
        match rest.lookup "shape", rest.lookup "dtype" with
        | some sv, some (.str dt) =>
          match parseShape sv with
          | .error e => .error e
          | .ok shape =>
            if npIsValidDtype dt then .ok (.tensor shape dt)
            else .error .valueError
        | some _, some _ => .error .typeError
        | _, _ => .error .typeError
      else if t = "Scalar" then
        match rest.lookup "dtype" with
        | some (.str dt) =>
          if npIsValidDtype dt then .ok (.scalar dt) else .error .valueError
        | some _ => .error .typeError
        | Option.none => .error .typeError
      else if t = "Audio" then
        match (match rest.lookup "shape" with
               | Option.none => Except.ok [Option.none]
               | some sv => parseShape sv) with
        | .error e => .error e
        | .ok shape =>
          match (match rest.lookup "dtype" with
                 | Option.none => Except.ok "float32"
                 | some (.str dt) => Except.ok dt
                 | some _ => Except.error PyErr.typeError) with
          | .error e => .error e
          | .ok dt =>
            match (match rest.lookup "sample_rate" with
                   | Option.none => Except.ok (Option.none : Option Int)
                   | some (.int n) => Except.ok (some n)
                   | some PyVal.none => Except.ok (Option.none : Option Int)
                   | some _ => Except.error PyErr.typeError) with
            | .error e => .error e
            | .ok sr =>
              if npIsValidDtype dt then .ok (.audio shape dt sr)
              else .error .valueError
      else .error .attributeError
    | some _ => .error .typeError
  | _ + 1, _ => .error .typeError
def genCols : Nat → PyDict → Except PyErr SchemaDict
  | 0, _ => .error .valueError
  | _ + 1, .nil => .ok .nil
  | fuel + 1, .cons k v rest =>
    match generate_from_dict fuel v with
    | .error e => .error e
    | .ok s =>
      match genCols fuel rest with
      | .error e => .error e
      | .ok out => .ok (.cons k s out)
def genItems : Nat → PyList → Except PyErr SchemaList
  | 0, _ => .error .valueError
  | _ + 1, .nil => .ok .nil
  | fuel + 1, .cons v rest =>
    match generate_from_dict fuel v with
    | .error e => .error e
    | .ok s =>
      match genItems fuel rest with
      | .error e => .error e
      | .ok out => .ok (.cons s out)
end

/-! Node count of a runtime value (the fuel bound for the
re-hydration's recursion). -/
mutual
def pyValSize : PyVal → Nat
  | .list es => pyListSize es + 1
  | .dict es => pyDictSize es + 1
  | _ => 1
def pyListSize : PyList → Nat
  | .nil => 0
  | .cons v rest => pyValSize v + pyListSize rest + 1
def pyDictSize : PyDict → Nat
  | .nil => 0
  | .cons _ v rest => pyValSize v + pyDictSize rest + 1
end

/-- DatasetInfo, as the typed manifest its dataclass declares:
description and file_list always serialize (their defaults come from
factories, which asdict never matches), the three None-defaulted fields
serialize only when set. -/
structure DatasetInfo where
  description : String
  file_list : List String
  features : Option SchemaDict
  size_in_bytes : Option Int
  metadata : Option PyVal
  deriving Repr

/-- asdict(DatasetInfo), fields in declaration order. -/
def datasetInfoAsdict (d : DatasetInfo) : PyVal :=
  .dict (.cons "description" (.str d.description)
    (.cons "file_list" (.list (PyList.ofList (d.file_list.map PyVal.str)))
      ((match d.features with
        | some fs => PyDict.cons "features" (.dict (serializeCols fs))
        | Option.none => id)
       ((match d.size_in_bytes with
         | some n => PyDict.cons "size_in_bytes" (.int n)
         | Option.none => id)
        ((match d.metadata with
          | some m => PyDict.cons "metadata" m
          | Option.none => id) .nil)))))

/-- DatasetInfo._dump_info: json.dumps(asdict(self)). -/
def datasetInfoToJson (d : DatasetInfo) : Except PyErr String :=
  jsonDumps (datasetInfoAsdict d)

/-- json.load + DatasetInfo.from_dict + __post_init__: keyword
construction from the present fields (absent ones default) and feature
re-hydration through Features.from_dict / generate_from_dict.  The
manifests the claims range over carry each field with its declared
type. -/
def datasetInfoFromJson (s : String) : Except PyErr DatasetInfo :=
  match jsonLoads (some s) with
  | .error e => .error e
  | .ok (.dict od) =>
    match (match od.lookup "description" with
           | Option.none => Except.ok ""
           | some (.str ds) => Except.ok ds
           | some _ => Except.error PyErr.typeError) with
    | .error e => .error e
    | .ok ds =>
      match (match od.lookup "file_list" with
             | Option.none => Except.ok ([] : List String)
             | some (.list fl) =>
               match fl.toList.mapM (fun e =>
                 match e with
                 | PyVal.str s2 => some s2
                 | _ => Option.none) with
               | some names => Except.ok names
               | Option.none => Except.error PyErr.typeError
             | some _ => Except.error PyErr.typeError) with
      | .error e => .error e
      | .ok fl =>
        match (match od.lookup "features" with
               | Option.none => Except.ok (Option.none : Option SchemaDict)
               | some PyVal.none => Except.ok (Option.none : Option SchemaDict)
               | some fv =>
                 match generate_from_dict (pyValSize fv + 1) fv with
                 | .error e => Except.error e
                 | .ok (.sdict fs) => Except.ok (some fs)
                 | .ok _ => Except.error PyErr.typeError) with
        | .error e => .error e
        | .ok fs =>
          match (match od.lookup "size_in_bytes" with
                 | Option.none => Except.ok (Option.none : Option Int)
                 | some PyVal.none => Except.ok (Option.none : Option Int)
                 | some (.int n) => Except.ok (some n)
                 | some _ => Except.error PyErr.typeError) with
          | .error e => .error e
          | .ok sz =>
            match od.lookup "metadata" with
            | Option.none => .ok ⟨ds, fl, fs, sz, Option.none⟩
            | some PyVal.none => .ok ⟨ds, fl, fs, sz, Option.none⟩
            | some m => .ok ⟨ds, fl, fs, sz, some m⟩
  | .ok _ => .error .typeError

/-! The schemas whose manifests re-hydrate: every dtype is one numpy
accepts, no column mapping uses the reserved key "_type" (or repeats a
key), and a Sequence over a mapping is stated as such (feature=dict),
the representation the serializer emits. -/
mutual
def goodSchemaB : Schema → Bool
  | .text => true
  | .json => true
  | .tensor _ dtype => npIsValidDtype dtype
  | .scalar dtype => npIsValidDtype dtype
  | .audio _ dtype _ => npIsValidDtype dtype
  | .sequence f _ => goodFeatB f
  | .sdict es => goodSchemaDictB es
  | .slist es => goodSchemaListB es
def goodFeatB : SeqFeature → Bool
  | .featDict es => goodSchemaDictB es
  | .featPlain (.sdict _) => false
  | .featPlain s => goodSchemaB s
def goodSchemaDictB : SchemaDict → Bool
  | .nil => true
  | .cons k v rest =>
    !(k = "_type" : Bool) && !rest.keys.contains k && goodSchemaB v &&
      goodSchemaDictB rest
def goodSchemaListB : SchemaList → Bool
  | .nil => true
  | .cons v rest => goodSchemaB v && goodSchemaListB rest
end

/-! Fuel needed to re-hydrate a serialized schema. -/
mutual
def needGen : Schema → Nat
  | .sequence f _ => needGenFeat f + 1
  | .sdict es => needGenCols es + 1
  | .slist es => needGenItems es + 1
  | _ => 1
def needGenFeat : SeqFeature → Nat
  | .featDict es => needGenCols es + 1
  | .featPlain s => needGen s
def needGenCols : SchemaDict → Nat
  | .nil => 1
  | .cons _ v rest => max (needGen v) (needGenCols rest) + 1
def needGenItems : SchemaList → Nat
  | .nil => 1
  | .cons v rest => max (needGen v) (needGenItems rest) + 1
end

theorem PyList.toList_ofList : ∀ (l : List PyVal),
    (PyList.ofList l).toList = l
  | [] => rfl
  | v :: rest => by
    simp [PyList.ofList, PyList.toList, PyList.toList_ofList rest]

theorem mapM_shape : ∀ (shape : List (Option Nat)),
    (shape.map (fun d => match d with
      | some n => PyVal.int n
      | Option.none => PyVal.none)).mapM (fun e =>
      match e with
      | PyVal.int n => if 0 ≤ n then some (some n.toNat) else Option.none
      | PyVal.none => some Option.none
      | _ => Option.none) = some shape
  | [] => rfl
  | d :: rest => by
    have ih := mapM_shape rest
    cases d with
    | some n =>
      simp only [List.map_cons, List.mapM_cons, ih]
      simp
    | none =>
      simp only [List.map_cons, List.mapM_cons, ih]
      simp

theorem parseShape_serializeShape (shape : List (Option Nat)) :
    parseShape (serializeShape shape) = .ok shape := by
  rw [serializeShape, parseShape, PyList.toList_ofList, mapM_shape]

theorem serializeCols_no_type : ∀ (es : SchemaDict),
    goodSchemaDictB es = true →
    (serializeCols es).lookup "_type" = Option.none
  | .nil, _ => rfl
  | .cons k v rest, hg => by
    simp only [goodSchemaDictB, Bool.and_eq_true, Bool.not_eq_true'] at hg
    have hk : ¬ k = "_type" := of_decide_eq_false hg.1.1.1
    rw [show serializeCols (.cons k v rest) =
      .cons k (serializeSchema v) (serializeCols rest) from rfl,
      PyDict.lookup, if_neg hk]
    exact serializeCols_no_type rest hg.2

/-- The Schema a Sequence's feature is built from. -/
def SeqFeature.toSchema : SeqFeature → Schema
  | .featDict es => .sdict es
  | .featPlain s => s

/-! Re-hydration inverts serialization on good schemas. -/
mutual
theorem gen_serialize : ∀ (s : Schema) (fuel : Nat), goodSchemaB s = true →
    needGen s ≤ fuel → generate_from_dict fuel (serializeSchema s) = .ok s
  | .text, fuel, _, hfl => by
    obtain ⟨f2, rfl⟩ : ∃ f2, fuel = f2 + 1 := by
      cases fuel with
      | zero => simp [needGen] at hfl
      | succ f2 => exact ⟨f2, rfl⟩
    simp [generate_from_dict, serializeSchema, PyDict.lookup]
  | .json, fuel, _, hfl => by
    obtain ⟨f2, rfl⟩ : ∃ f2, fuel = f2 + 1 := by
      cases fuel with
      | zero => simp [needGen] at hfl
      | succ f2 => exact ⟨f2, rfl⟩
    simp [generate_from_dict, serializeSchema, PyDict.lookup]
  | .tensor shape dtype, fuel, hg, hfl => by
    obtain ⟨f2, rfl⟩ : ∃ f2, fuel = f2 + 1 := by
      cases fuel with
      | zero => simp [needGen] at hfl
      | succ f2 => exact ⟨f2, rfl⟩
    simp only [goodSchemaB] at hg
    simp [generate_from_dict, serializeSchema, PyDict.lookup, PyDict.erase,
      parseShape_serializeShape, hg]
  | .scalar dtype, fuel, hg, hfl => by
    obtain ⟨f2, rfl⟩ : ∃ f2, fuel = f2 + 1 := by
      cases fuel with
      | zero => simp [needGen] at hfl
      | succ f2 => exact ⟨f2, rfl⟩
    simp only [goodSchemaB] at hg
    simp [generate_from_dict, serializeSchema, PyDict.lookup, PyDict.erase, hg]
  | .audio shape dtype sr, fuel, hg, hfl => by
    obtain ⟨f2, rfl⟩ : ∃ f2, fuel = f2 + 1 := by
      cases fuel with
      | zero => simp [needGen] at hfl
      | succ f2 => exact ⟨f2, rfl⟩
    simp only [goodSchemaB] at hg
    cases sr with
    | none =>
      simp [generate_from_dict, serializeSchema, PyDict.lookup, PyDict.erase,
        parseShape_serializeShape, hg, optIntVal]
    | some r =>
      simp [generate_from_dict, serializeSchema, PyDict.lookup, PyDict.erase,
        parseShape_serializeShape, hg, optIntVal]
  | .sequence f len, fuel, hg, hfl => by
    obtain ⟨f2, rfl⟩ : ∃ f2, fuel = f2 + 1 := by
      cases fuel with
      | zero => simp [needGen] at hfl
      | succ f2 => exact ⟨f2, rfl⟩
    simp only [goodSchemaB] at hg
    have hfeat := gen_serializeFeat f f2 hg (by
      simp only [needGen] at hfl
      omega)
    by_cases hlen : len = -1
    · subst hlen
      rw [show serializeSchema (.sequence f (-1)) =
        .dict (.cons "feature" (serializeFeat f)
          (.cons "_type" (.str "Sequence") .nil)) from by
          simp [serializeSchema]]
      simp only [generate_from_dict, PyDict.lookup, PyDict.erase]
      simp only [show ¬ ("feature" = "_type") from by decide, if_false,
        show ("_type" = "_type") = True from by simp, if_true]
      simp only [hfeat]
      cases f with
      | featDict es => rfl
      | featPlain s =>
        have hns : ∀ es2, s = Schema.sdict es2 → False := by
          intro es2 hs
          rw [hs] at hg
          simp [goodFeatB] at hg
        cases s with
        | sdict es2 => exact absurd rfl (hns es2)
        | text => rfl
        | json => rfl
        | tensor a b => rfl
        | scalar a => rfl
        | audio a b c => rfl
        | sequence a b => rfl
        | slist a => rfl
    · rw [show serializeSchema (.sequence f len) =
        .dict (.cons "feature" (serializeFeat f)
          (.cons "length" (.int len)
            (.cons "_type" (.str "Sequence") .nil))) from by
          simp [serializeSchema, hlen]]
      simp only [generate_from_dict, PyDict.lookup, PyDict.erase]
      simp only [show ¬ ("feature" = "_type") from by decide,
        show ¬ ("length" = "_type") from by decide, if_false,
        show ("_type" = "_type") = True from by simp, if_true]
      simp only [hfeat]
      cases f with
      | featDict es => rfl
      | featPlain s =>
        have hns : ∀ es2, s = Schema.sdict es2 → False := by
          intro es2 hs
          rw [hs] at hg
          simp [goodFeatB] at hg
        cases s with
        | sdict es2 => exact absurd rfl (hns es2)
        | text => rfl
        | json => rfl
        | tensor a b => rfl
        | scalar a => rfl
        | audio a b c => rfl
        | sequence a b => rfl
        | slist a => rfl
  | .sdict es, fuel, hg, hfl => by
    obtain ⟨f2, rfl⟩ : ∃ f2, fuel = f2 + 1 := by
      cases fuel with
      | zero => simp [needGen] at hfl
      | succ f2 => exact ⟨f2, rfl⟩
    simp only [goodSchemaB] at hg
    have hlk : (serializeCols es).lookup "_type" = Option.none :=
      serializeCols_no_type es hg
    rw [show serializeSchema (.sdict es) = .dict (serializeCols es) from rfl,
      generate_from_dict, hlk,
      gen_serializeCols es f2 hg (by simp only [needGen] at hfl; omega)]
  | .slist es, fuel, hg, hfl => by
    obtain ⟨f2, rfl⟩ : ∃ f2, fuel = f2 + 1 := by
      cases fuel with
      | zero => simp [needGen] at hfl
      | succ f2 => exact ⟨f2, rfl⟩
    simp only [goodSchemaB] at hg
    rw [show serializeSchema (.slist es) = .list (serializeItems es) from rfl,
      generate_from_dict,
      gen_serializeItems es f2 hg (by simp only [needGen] at hfl; omega)]
theorem gen_serializeFeat : ∀ (f : SeqFeature) (fuel : Nat),
    goodFeatB f = true → needGenFeat f ≤ fuel →
    generate_from_dict fuel (serializeFeat f) = .ok f.toSchema
  | .featDict es, fuel, hg, hfl => by
    obtain ⟨f2, rfl⟩ : ∃ f2, fuel = f2 + 1 := by
      cases fuel with
      | zero => simp [needGenFeat] at hfl
      | succ f2 => exact ⟨f2, rfl⟩
    simp only [goodFeatB] at hg
    have hlk : (serializeCols es).lookup "_type" = Option.none :=
      serializeCols_no_type es hg
    rw [show serializeFeat (.featDict es) = .dict (serializeCols es) from rfl,
      generate_from_dict, hlk,
      gen_serializeCols es f2 hg (by simp only [needGenFeat] at hfl; omega)]
    rfl
  | .featPlain s, fuel, hg, hfl => by
    have hgs : goodSchemaB s = true := by
      cases s with
      | sdict es2 => simp [goodFeatB] at hg
      | text => exact hg
      | json => exact hg
      | tensor a b => exact hg
      | scalar a => exact hg
      | audio a b c => exact hg
      | sequence a b => exact hg
      | slist a => exact hg
    exact gen_serialize s fuel hgs hfl
theorem gen_serializeCols : ∀ (es : SchemaDict) (fuel : Nat),
    goodSchemaDictB es = true → needGenCols es ≤ fuel →
    genCols fuel (serializeCols es) = .ok es
  | .nil, fuel, _, hfl => by
    obtain ⟨f2, rfl⟩ : ∃ f2, fuel = f2 + 1 := by
      cases fuel with
      | zero => simp [needGenCols] at hfl
      | succ f2 => exact ⟨f2, rfl⟩
    rfl
  | .cons k v rest, fuel, hg, hfl => by
    obtain ⟨f2, rfl⟩ : ∃ f2, fuel = f2 + 1 := by
      cases fuel with
      | zero => simp [needGenCols] at hfl
      | succ f2 => exact ⟨f2, rfl⟩
    simp only [goodSchemaDictB, Bool.and_eq_true, Bool.not_eq_true'] at hg
    rw [show serializeCols (.cons k v rest) =
      .cons k (serializeSchema v) (serializeCols rest) from rfl, genCols,
      gen_serialize v f2 hg.1.2 (by
        simp only [needGenCols] at hfl
        omega),
      gen_serializeCols rest f2 hg.2 (by
        simp only [needGenCols] at hfl
        omega)]
theorem gen_serializeItems : ∀ (es : SchemaList) (fuel : Nat),
    goodSchemaListB es = true → needGenItems es ≤ fuel →
    genItems fuel (serializeItems es) = .ok es
  | .nil, fuel, _, hfl => by
    obtain ⟨f2, rfl⟩ : ∃ f2, fuel = f2 + 1 := by
      cases fuel with
      | zero => simp [needGenItems] at hfl
      | succ f2 => exact ⟨f2, rfl⟩
    rfl
  | .cons v rest, fuel, hg, hfl => by
    obtain ⟨f2, rfl⟩ : ∃ f2, fuel = f2 + 1 := by
      cases fuel with
      | zero => simp [needGenItems] at hfl
      | succ f2 => exact ⟨f2, rfl⟩
    simp only [goodSchemaListB, Bool.and_eq_true] at hg
    rw [show serializeItems (.cons v rest) =
      .cons (serializeSchema v) (serializeItems rest) from rfl, genItems,
      gen_serialize v f2 hg.1 (by
        simp only [needGenItems] at hfl
        omega),
      gen_serializeItems rest f2 hg.2 (by
        simp only [needGenItems] at hfl
        omega)]
end

/-! json.dumps succeeds exactly on jsonable values. -/
mutual
theorem jsonable_dumps : ∀ (v : PyVal), pyJsonable v = true →
    ∃ cs, jsonDumpChars v = .ok cs
  | .none, _ => ⟨_, rfl⟩
  | .bool true, _ => ⟨_, rfl⟩
  | .bool false, _ => ⟨_, rfl⟩
  | .int n, _ => ⟨_, rfl⟩
  | .str s, _ => ⟨_, rfl⟩
  | .list .nil, _ => ⟨_, rfl⟩
  | .list (.cons v rest), h => by
    obtain ⟨cs, hcs⟩ := jsonable_dumps_items (.cons v rest) (by
      simpa [pyJsonable] using h)
    exact ⟨'[' :: cs ++ [']'], by rw [jsonDumpChars, hcs]⟩
  | .dict .nil, _ => ⟨_, rfl⟩
  | .dict (.cons k v rest), h => by
    obtain ⟨cs, hcs⟩ := jsonable_dumps_entries (.cons k v rest) (by
      simpa [pyJsonable] using h)
    exact ⟨'{' :: cs ++ ['}'], by rw [jsonDumpChars, hcs]⟩
  | .bytes b, h => by simp [pyJsonable] at h
  | .arr a, h => by simp [pyJsonable] at h
  | .stream s, h => by simp [pyJsonable] at h
  | .audioDecoder a b c d e, h => by simp [pyJsonable] at h
theorem jsonable_dumps_items : ∀ (es : PyList), pyJsonableList es = true →
    ∃ cs, jsonDumpItems es = .ok cs
  | .nil, _ => ⟨_, rfl⟩
  | .cons v .nil, h => by
    obtain ⟨cs, hcs⟩ := jsonable_dumps v (by
      simp only [pyJsonableList, Bool.and_eq_true] at h
      exact h.1)
    exact ⟨cs, by rw [jsonDumpItems]; exact hcs⟩
  | .cons v (.cons w rest), h => by
    simp only [pyJsonableList, Bool.and_eq_true] at h
    obtain ⟨cs, hcs⟩ := jsonable_dumps v h.1
    obtain ⟨cs2, hcs2⟩ := jsonable_dumps_items (.cons w rest) (by
      simp [pyJsonableList, h.2.1, h.2.2])
    exact ⟨cs ++ ',' :: ' ' :: cs2, by rw [jsonDumpItems, hcs, hcs2]⟩
theorem jsonable_dumps_entries : ∀ (es : PyDict), pyJsonableDict es = true →
    ∃ cs, jsonDumpEntries es = .ok cs
  | .nil, _ => ⟨_, rfl⟩
  | .cons k v .nil, h => by
    obtain ⟨cs, hcs⟩ := jsonable_dumps v (by
      simp only [pyJsonableDict, Bool.and_eq_true] at h
      exact h.1)
    exact ⟨jsonQuote k ++ ':' :: ' ' :: cs, by rw [jsonDumpEntries, hcs]⟩
  | .cons k v (.cons k2 v2 rest), h => by
    simp only [pyJsonableDict, Bool.and_eq_true] at h
    obtain ⟨cs, hcs⟩ := jsonable_dumps v h.1
    obtain ⟨cs2, hcs2⟩ := jsonable_dumps_entries (.cons k2 v2 rest) (by
      simp [pyJsonableDict, h.2.1, h.2.2])
    exact ⟨jsonQuote k ++ ':' :: ' ' :: cs ++ ',' :: ' ' :: cs2,
      by rw [jsonDumpEntries, hcs, hcs2]⟩
end

theorem shape_jsonable : ∀ (shape : List (Option Nat)),
    pyJsonableList (PyList.ofList (shape.map (fun d =>
      match d with
      | some n => PyVal.int n
      | Option.none => PyVal.none))) = true
  | [] => rfl
  | d :: rest => by
    cases d with
    | none => simp [PyList.ofList, pyJsonableList, pyJsonable, shape_jsonable rest]
    | some n => simp [PyList.ofList, pyJsonableList, pyJsonable, shape_jsonable rest]

/-! Serialized schemas are jsonable. -/
mutual
theorem serializeSchema_jsonable : ∀ (s : Schema),
    pyJsonable (serializeSchema s) = true
  | .text => rfl
  | .json => rfl
  | .tensor shape dtype => by
    simp [serializeSchema, pyJsonable, pyJsonableDict, serializeShape,
      shape_jsonable shape]
  | .scalar dtype => rfl
  | .audio shape dtype sr => by
    cases sr with
    | none =>
      simp [serializeSchema, pyJsonable, pyJsonableDict, serializeShape,
        optIntVal, shape_jsonable shape]
    | some r =>
      simp [serializeSchema, pyJsonable, pyJsonableDict, serializeShape,
        optIntVal, shape_jsonable shape]
  | .sequence f len => by
    by_cases hlen : len = -1
    · subst hlen
      simp [serializeSchema, pyJsonable, pyJsonableDict,
        serializeFeat_jsonable f]
    · simp [serializeSchema, pyJsonable, pyJsonableDict, hlen,
        serializeFeat_jsonable f]
  | .sdict es => by
    simp [serializeSchema, pyJsonable, serializeCols_jsonable es]
  | .slist es => by
    simp [serializeSchema, pyJsonable, serializeItems_jsonable es]
theorem serializeFeat_jsonable : ∀ (f : SeqFeature),
    pyJsonable (serializeFeat f) = true
  | .featDict es => by
    simp [serializeFeat, pyJsonable, serializeCols_jsonable es]
  | .featPlain s => serializeSchema_jsonable s
theorem serializeCols_jsonable : ∀ (es : SchemaDict),
    pyJsonableDict (serializeCols es) = true
  | .nil => rfl
  | .cons k v rest => by
    simp [serializeCols, pyJsonableDict, serializeSchema_jsonable v,
      serializeCols_jsonable rest]
theorem serializeItems_jsonable : ∀ (es : SchemaList),
    pyJsonableList (serializeItems es) = true
  | .nil => rfl
  | .cons v rest => by
    simp [serializeItems, pyJsonableList, serializeSchema_jsonable v,
      serializeItems_jsonable rest]
end

/-! The fuel from_json passes (the serialized value's size plus one)
covers the recursion depth of re-hydration. -/
mutual
theorem needGen_le : ∀ (s : Schema),
    needGen s ≤ pyValSize (serializeSchema s) + 1
  | .text => by simp [needGen, serializeSchema, pyValSize, pyDictSize]
  | .json => by simp [needGen, serializeSchema, pyValSize, pyDictSize]
  | .tensor shape dtype => by
    simp [needGen, serializeSchema, pyValSize, pyDictSize]
  | .scalar dtype => by
    simp [needGen, serializeSchema, pyValSize, pyDictSize]
  | .audio shape dtype sr => by
    simp [needGen, serializeSchema, pyValSize, pyDictSize]
  | .sequence f len => by
    have h1 := needGenFeat_le f
    by_cases hlen : len = -1
    · subst hlen
      simp only [needGen, serializeSchema, if_pos rfl, pyValSize, pyDictSize]
      omega
    · simp only [needGen, serializeSchema, if_neg hlen, pyValSize, pyDictSize]
      omega
  | .sdict es => by
    have h1 := needGenCols_le es
    show needGenCols es + 1 ≤ pyDictSize (serializeCols es) + 1 + 1
    omega
  | .slist es => by
    have h1 := needGenItems_le es
    show needGenItems es + 1 ≤ pyListSize (serializeItems es) + 1 + 1
    omega
theorem needGenFeat_le : ∀ (f : SeqFeature),
    needGenFeat f ≤ pyValSize (serializeFeat f) + 1
  | .featDict es => by
    have h1 := needGenCols_le es
    simp only [needGenFeat, serializeFeat, pyValSize]
    omega
  | .featPlain s => by
    have h1 := needGen_le s
    simp only [needGenFeat, serializeFeat]
    omega
theorem needGenCols_le : ∀ (es : SchemaDict),
    needGenCols es ≤ pyDictSize (serializeCols es) + 1
  | .nil => by simp [needGenCols, serializeCols, pyDictSize]
  | .cons k v rest => by
    have h1 := needGen_le v
    have h2 := needGenCols_le rest
    have h3 : 1 ≤ pyValSize (serializeSchema v) := by
      cases hsv : serializeSchema v <;> simp [pyValSize]
    simp only [needGenCols, serializeCols, pyDictSize]
    omega
theorem needGenItems_le : ∀ (es : SchemaList),
    needGenItems es ≤ pyListSize (serializeItems es) + 1
  | .nil => by simp [needGenItems, serializeItems, pyListSize]
  | .cons v rest => by
    have h1 := needGen_le v
    have h2 := needGenItems_le rest
    simp only [needGenItems, serializeItems, pyListSize]
    omega
end

theorem strList_jsonable : ∀ (l : List String),
    pyJsonableList (PyList.ofList (l.map PyVal.str)) = true
  | [] => rfl
  | x :: rest => by
    simp [PyList.ofList, pyJsonableList, pyJsonable, strList_jsonable rest]

theorem mapM_strNames : ∀ (l acc : List String),
    List.mapM.loop (fun e =>
      match e with
      | PyVal.str s2 => some s2
      | _ => Option.none) (l.map PyVal.str) acc = some (acc.reverse ++ l)
  | [], acc => by simp [List.mapM.loop]
  | x :: rest, acc => by
    simp [List.mapM.loop, mapM_strNames rest (x :: acc)]

theorem datasetInfoAsdict_jsonable (d : DatasetInfo)
    (hm : ∀ m, d.metadata = some m → pyJsonable m = true) :
    pyJsonable (datasetInfoAsdict d) = true := by
  obtain ⟨desc, fl, fs, sz, mt⟩ := d
  have hm2 : ∀ m, mt = some m → pyJsonable m = true := hm
  cases fs <;> cases sz <;> cases mt <;>
    simp [datasetInfoAsdict, pyJsonable, pyJsonableDict, strList_jsonable,
      serializeCols_jsonable] <;>
    exact hm2 _ rfl

/-- C8: Manifest round-trip.  For every DatasetInfo whose features
schema uses only the supported variants (with no mapping using the
reserved key "_type" or repeating a key, and every dtype valid), and
whose metadata, when present, is JSON-serializable and not null,
from_json(to_json(manifest)) reproduces the manifest: description,
file_list order, the features schema re-hydrated from its _type
discriminators, size_in_bytes, metadata. -/
theorem c8_manifest_roundtrip (d : DatasetInfo)
    (hfs : ∀ fs, d.features = some fs → goodSchemaDictB fs = true)
    (hm : ∀ m, d.metadata = some m → pyJsonable m = true ∧ m ≠ PyVal.none) :
    ∃ s, datasetInfoToJson d = .ok s ∧ datasetInfoFromJson s = .ok d := by
  have hj : pyJsonable (datasetInfoAsdict d) = true :=
    datasetInfoAsdict_jsonable d (fun m h => (hm m h).1)
  obtain ⟨cs, hcs⟩ := jsonable_dumps _ hj
  have hdump : jsonDumps (datasetInfoAsdict d) = .ok ⟨cs⟩ := by
    unfold jsonDumps; rw [hcs]
  have hload := jsonLoads_jsonDumps _ _ hdump
  refine ⟨⟨cs⟩, hdump, ?_⟩
  obtain ⟨desc, fl, fs, sz, mt⟩ := d
  have hfs2 : ∀ f, fs = some f → goodSchemaDictB f = true := hfs
  have hm2 : ∀ m, mt = some m → pyJsonable m = true ∧ m ≠ PyVal.none := hm
  have hgen : ∀ f, goodSchemaDictB f = true →
      generate_from_dict (pyValSize (PyVal.dict (serializeCols f)) + 1)
        (PyVal.dict (serializeCols f)) = .ok (.sdict f) := by
    intro f hg
    have h2 := needGen_le (.sdict f)
    simp only [serializeSchema] at h2
    have h3 := gen_serialize (.sdict f)
      (pyValSize (PyVal.dict (serializeCols f)) + 1) (by simpa [goodSchemaB] using hg) h2
    simpa [serializeSchema] using h3
  unfold datasetInfoFromJson
  rw [hload]
  cases fs with
  | none =>
    cases sz with
    | none =>
      cases mt with
      | none =>
        simp [datasetInfoAsdict, PyDict.lookup, PyList.toList_ofList, mapM_strNames]
      | some m =>
        obtain ⟨hmj, hmn⟩ := hm2 m rfl
        simp only [datasetInfoAsdict, PyDict.lookup]
        cases m <;> simp_all [pyJsonable, PyList.toList_ofList, mapM_strNames]
    | some n =>
      cases mt with
      | none =>
        simp [datasetInfoAsdict, PyDict.lookup, PyList.toList_ofList, mapM_strNames]
      | some m =>
        obtain ⟨hmj, hmn⟩ := hm2 m rfl
        simp only [datasetInfoAsdict, PyDict.lookup]
        cases m <;> simp_all [pyJsonable, PyList.toList_ofList, mapM_strNames]
  | some f =>
    have hg := hgen f (hfs2 f rfl)
    cases sz with
    | none =>
      cases mt with
      | none =>
        simp [datasetInfoAsdict, PyDict.lookup, PyList.toList_ofList, mapM_strNames, hg]
      | some m =>
        obtain ⟨hmj, hmn⟩ := hm2 m rfl
        simp only [datasetInfoAsdict, PyDict.lookup]
        cases m <;> simp_all [pyJsonable, PyList.toList_ofList, mapM_strNames]
    | some n =>
      cases mt with
      | none =>
        simp [datasetInfoAsdict, PyDict.lookup, PyList.toList_ofList, mapM_strNames, hg]
      | some m =>
        obtain ⟨hmj, hmn⟩ := hm2 m rfl
        simp only [datasetInfoAsdict, PyDict.lookup]
        cases m <;> simp_all [pyJsonable, PyList.toList_ofList, mapM_strNames]

theorem c8_manifest_roundtrip_witness :
    ∃ s, datasetInfoToJson ⟨"d", ["shard-0.tar"],
        some (.cons "a" .text .nil), some 5, some (.int 7)⟩ = .ok s ∧
      datasetInfoFromJson s = .ok ⟨"d", ["shard-0.tar"],
        some (.cons "a" .text .nil), some 5, some (.int 7)⟩ :=
  c8_manifest_roundtrip _
    (fun fs h => by injection h with h2; subst h2; decide)
    (fun m h => by
      injection h with h2; subst h2
      exact ⟨rfl, fun hc => PyVal.noConfusion hc⟩)

theorem c8_counterexample :
    ∃ s, datasetInfoToJson ⟨"", [],
        some (.cons "_type" (.slist (.cons .text .nil)) .nil),
        Option.none, Option.none⟩ = .ok s ∧
      datasetInfoFromJson s = .error PyErr.typeError :=
  ⟨_, rfl, rfl⟩
